import Mathlib

/-!
# DiscreteDistribution (fl / BayesFilters) — weighted particle population

Shallow embedding of `BayesFilters/Distribution/DiscreteDistribution.h`.

* `Real` (a C++ `double`) is embedded as a numeric type `R`; the operations are written
  generically over the arithmetic they use and take `exp` and `log` as arguments, so every
  definition is executable.  The theorems about values instantiate `R := ℝ`,
  `exp := Real.exp`, `log := Real.log`: they are statements of exact real arithmetic, rounding
  is not modelled.  The non-finite values of a `double` are modelled apart, by `Double R`.
* An Eigen array is a `List`.  A slot of the location array is `some x` once written and
  `none` while it is allocated but not yet written.  A variate with moments is a column
  vector with `n` rows, `Fin n → R`.
* An operation whose C++ body trips an Eigen assertion, indexes outside an array or reads a
  slot never written returns `none`: the call is undefined, no error is reported.
-/

namespace fl

/-- Member variables of `DiscreteDistribution`: `locations_`, `log_prob_mass_`, `prob_mass_`
and `cumul_distr_` (the cached `mean_` and `covariance_` are recomputed on every read). -/
structure DiscreteDistribution (R V : Type) where
  locations_ : List (Option V)
  log_prob_mass_ : List R
  prob_mass_ : List R
  cumul_distr_ : List R

namespace DiscreteDistribution

variable {R V : Type}

/-- State of the object before the constructor body runs: every dynamic array has size 0. -/
def empty : DiscreteDistribution R V :=
  { locations_ := [], log_prob_mass_ := [], prob_mass_ := [], cumul_distr_ := [] }

/-- Eigen `maxCoeff()`: the largest coefficient; asserts on an array of size 0. -/
def maxCoeff [Max R] : List R → Option R
  | [] => none
  | x :: xs => some (xs.foldl max x)

/-- Eigen `resize(n)` on a dynamic array: nothing happens when the size is already `n`,
otherwise the storage is reallocated and the new slots are not initialised. -/
def resize (xs : List (Option V)) (n : Nat) : List (Option V) :=
  if xs.length = n then xs else List.replicate n none

/-- Body of the loop `for (i = 1; i < size; i++) cumul_distr_[i] = cumul_distr_[i-1] + prob_mass_[i]`;
`prev` is `cumul_distr_[i-1]`, the list holds `prob_mass_[i], prob_mass_[i+1], ...`. -/
def cdf_loop [Add R] (prev : R) : List R → List R
  | [] => []
  | p :: ps => (prev + p) :: cdf_loop (prev + p) ps

/-- The block "compute cdf": `cumul_distr_[0] = prob_mass_[0]` followed by the loop.
Writing element 0 of an array of size 0 is out of range. -/
def compute_cdf [Add R] : List R → Option (List R)
  | [] => none
  | p :: ps => some (p :: cdf_loop p ps)

/-- `DiscreteDistribution::log_unnormalized_prob_mass(log_prob_mass)`. -/
def log_unnormalized_prob_mass [Max R] [Zero R] [Add R] [Sub R] [Div R] (exp log : R → R)
    (d : DiscreteDistribution R V) (log_prob_mass : List R) :
    Option (DiscreteDistribution R V) := do
  -- rescale for numeric stability
  let m ← maxCoeff log_prob_mass
  let lpm := log_prob_mass.map (fun x => x - m)
  -- copy to prob mass
  let pm := lpm.map exp
  let sum := pm.sum
  -- normalize
  let pm := pm.map (fun x => x / sum)
  let lpm := lpm.map (fun x => x - log sum)
  -- compute cdf
  let cd ← compute_cdf pm
  -- resize locations
  pure { locations_ := resize d.locations_ lpm.length
         log_prob_mass_ := lpm
         prob_mass_ := pm
         cumul_distr_ := cd }

/-- `DiscreteDistribution::size()`. -/
def size (d : DiscreteDistribution R V) : Nat := d.locations_.length

/-- `DiscreteDistribution::delta_log_prob_mass(delta)`; the coefficient-wise sum
`log_prob_mass_ + delta` asserts that both arrays have the same size. -/
def delta_log_prob_mass [Max R] [Zero R] [Add R] [Sub R] [Div R] (exp log : R → R)
    (d : DiscreteDistribution R V) (delta : List R) : Option (DiscreteDistribution R V) :=
  if d.log_prob_mass_.length = delta.length then
    log_unnormalized_prob_mass exp log d (List.zipWith (fun a b => a + b) d.log_prob_mass_ delta)
  else none

/-- `DiscreteDistribution::set_uniform(new_size)`; `Function::Zero(n)` asserts `n >= 0`. -/
def set_uniform [Max R] [Zero R] [Add R] [Sub R] [Div R] (exp log : R → R)
    (d : DiscreteDistribution R V) (new_size : Int) : Option (DiscreteDistribution R V) :=
  let new_size := if new_size = -1 then (size d : Int) else new_size
  if new_size < 0 then none
  else log_unnormalized_prob_mass exp log d (List.replicate new_size.toNat 0)

/-- Constructor `DiscreteDistribution(int size)`: `set_uniform(size)` on the fresh object. -/
def new [Max R] [Zero R] [Add R] [Sub R] [Div R] (exp log : R → R) (size : Int) :
    Option (DiscreteDistribution R V) :=
  set_uniform exp log empty size

/-- `DiscreteDistribution::log_prob_mass(i)`. -/
def log_prob_mass (d : DiscreteDistribution R V) (i : Nat) : Option R := d.log_prob_mass_[i]?

/-- `DiscreteDistribution::prob_mass(i)`. -/
def prob_mass (d : DiscreteDistribution R V) (i : Nat) : Option R := d.prob_mass_[i]?

/-- `DiscreteDistribution::location(i)`: `none` outside the array, otherwise the slot. -/
def location (d : DiscreteDistribution R V) (i : Nat) : Option (Option V) := d.locations_[i]?

/-- The loop of `map_standard_uniform`:
`for (; index < cumul_distr_.size(); ++index) if (cumul_distr_[index] >= uniform_sample) break;`
The list argument holds `cumul_distr_[index], cumul_distr_[index+1], ...`; the result is the
value of `index` when the loop is left. -/
def scan_cdf [LinearOrder R] (uniform_sample : R) : List R → Nat → Nat
  | [], index => index
  | c :: cs, index => if c ≥ uniform_sample then index else scan_cdf uniform_sample cs (index + 1)

/-- `DiscreteDistribution::map_standard_uniform(uniform_sample, index)`: the returned variate
`locations_[index]` (`none` when `index` is outside the array) and the final `index`. -/
def map_standard_uniform [LinearOrder R] (d : DiscreteDistribution R V) (uniform_sample : R) :
    Option (Option V) × Nat :=
  let index := scan_cdf uniform_sample d.cumul_distr_ 0
  (d.locations_[index]?, index)

/-- `DiscreteDistribution::entropy()`: `- log_prob_mass_.cwiseProduct(prob_mass_).sum()`. -/
def entropy [LinearOrderedField R] (d : DiscreteDistribution R V) : R :=
  - (List.zipWith (fun a b => a * b) d.log_prob_mass_ d.prob_mass_).sum

/-- `DiscreteDistribution::kl_given_uniform()`: `std::log(Real(size())) - entropy()`. -/
def kl_given_uniform [LinearOrderedField R] (log : R → R) (d : DiscreteDistribution R V) : R :=
  log (size d : R) - entropy d

/-- Non-const `DiscreteDistribution::location(i)` used as `location(i) = x`: the reference
to `locations_[i]` is overwritten; an index outside the array is out of range. -/
def set_location (d : DiscreteDistribution R V) (i : Nat) (x : V) :
    Option (DiscreteDistribution R V) :=
  if i < d.locations_.length then some { d with locations_ := d.locations_.set i (some x) }
  else none

/-- The loop `for (i = 0; i < new_size; i++) new_locations[i] = distribution.sample();` of
`from_distribution`.  The sampled distribution is a state machine: `sample s` is the drawn
variate with the generator state after the draw, or `none` when the draw itself is undefined.
The first argument counts the iterations left. -/
def sample_loop {S : Type} (sample : S → Option (V × S)) : Nat → S → Option (List (Option V) × S)
  | 0, s => some ([], s)
  | k + 1, s => do
    let (x, s1) ← sample s
    let (xs, s2) ← sample_loop sample k s1
    pure (some x :: xs, s2)

/-- `DiscreteDistribution::from_distribution(distribution, new_size)` for an argument
`distribution` that is an object other than `*this` (the call on the object itself is
`from_distribution_self`); constructing `LocationArray new_locations(new_size)` asserts
`new_size >= 0`.  The result is the new population and the state in which the sampled
distribution is left. -/
def from_distribution {S : Type} [Max R] [Zero R] [Add R] [Sub R] [Div R] (exp log : R → R)
    (sample : S → Option (V × S)) (s : S) (d : DiscreteDistribution R V) (new_size : Int) :
    Option (DiscreteDistribution R V × S) :=
  if new_size < 0 then none
  else do
    let (new_locations, s1) ← sample_loop sample new_size.toNat s
    let d1 ← set_uniform exp log d new_size
    pure ({ d1 with locations_ := new_locations }, s1)

/-- States of a population over the reals that the public mutators can produce: construction,
`log_unnormalized_prob_mass`, `delta_log_prob_mass`, `set_uniform`, `from_distribution` and a
write through `location(i)`. -/
inductive Reachable : DiscreteDistribution ℝ V → Prop
  | construct (size : Int) (d : DiscreteDistribution ℝ V) :
      new Real.exp Real.log size = some d → Reachable d
  | install (d d1 : DiscreteDistribution ℝ V) (v : List ℝ) :
      Reachable d → log_unnormalized_prob_mass Real.exp Real.log d v = some d1 → Reachable d1
  | delta (d d1 : DiscreteDistribution ℝ V) (delta : List ℝ) :
      Reachable d → delta_log_prob_mass Real.exp Real.log d delta = some d1 → Reachable d1
  | uniform (d d1 : DiscreteDistribution ℝ V) (new_size : Int) :
      Reachable d → set_uniform Real.exp Real.log d new_size = some d1 → Reachable d1
  | resample (S : Type) (sample : S → Option (V × S)) (s s1 : S)
      (d d1 : DiscreteDistribution ℝ V) (new_size : Int) :
      Reachable d → from_distribution Real.exp Real.log sample s d new_size = some (d1, s1) →
      Reachable d1
  | write (d d1 : DiscreteDistribution ℝ V) (i : Nat) (x : V) :
      Reachable d → set_location d i x = some d1 → Reachable d1

/-- `DiscreteDistribution::dimension()`: `locations_[0].rows()` for a variate that is a column
vector with `n` rows; on a population of size 0 the read of `locations_[0]` is out of range. -/
def dimension {n : Nat} (d : DiscreteDistribution R (Fin n → R)) : Option Nat :=
  match d.locations_ with
  | [] => none
  | _ :: _ => some n

/-- The loop of `mean()`:
`for (i = 0; i < locations_.size(); i++) mean_ += prob_mass(i) * locations_[i]`.
The list holds `locations_[i], locations_[i+1], ...`; reading `prob_mass_(i)` outside the
weight array, or a location slot that was never written, is undefined. -/
def mean_loop {n : Nat} [Add R] [Mul R] (d : DiscreteDistribution R (Fin n → R)) :
    List (Option (Fin n → R)) → Nat → (Fin n → R) → Option (Fin n → R)
  | [], _, mean_ => some mean_
  | slot :: rest, i, mean_ => do
    let w ← prob_mass d i
    let x ← slot
    mean_loop d rest (i + 1) (fun j => mean_ j + w * x j)

/-- `DiscreteDistribution::mean()`: `mean_ = Mean::Zero(dimension())`, then the loop. -/
def mean {n : Nat} [Zero R] [Add R] [Mul R] (d : DiscreteDistribution R (Fin n → R)) :
    Option (Fin n → R) := do
  let _ ← dimension d
  mean_loop d d.locations_ 0 (fun _ => 0)

/-- The loop of `covariance()`: `delta = locations_[i] - mu;`
`covariance_ += prob_mass(i) * delta * delta.transpose()`. -/
def covariance_loop {n : Nat} [Add R] [Sub R] [Mul R] (d : DiscreteDistribution R (Fin n → R))
    (mu : Fin n → R) :
    List (Option (Fin n → R)) → Nat → (Fin n → Fin n → R) → Option (Fin n → Fin n → R)
  | [], _, covariance_ => some covariance_
  | slot :: rest, i, covariance_ => do
    let x ← slot
    let delta : Fin n → R := fun j => x j - mu j
    let w ← prob_mass d i
    covariance_loop d mu rest (i + 1) (fun a b => covariance_ a b + w * delta a * delta b)

/-- `DiscreteDistribution::covariance()`: `mu = mean()`,
`covariance_ = Covariance::Zero(dimension(), dimension())`, then the loop. -/
def covariance {n : Nat} [Zero R] [Add R] [Sub R] [Mul R]
    (d : DiscreteDistribution R (Fin n → R)) : Option (Fin n → Fin n → R) := do
  let mu ← mean d
  let _ ← dimension d
  covariance_loop d mu d.locations_ 0 (fun _ _ => 0)

/-- The visitor of Eigen `maxCoeff(&index)`: the running maximum `res` and its position
`index` are replaced only by a strictly larger coefficient, so the first of several equal
maxima is kept.  The list holds the coefficients from position `i` on. -/
def maxCoeff_index_loop [LinearOrder R] (res : R) (index : Nat) : List R → Nat → Nat
  | [], _ => index
  | value :: rest, i =>
    if value > res then maxCoeff_index_loop value i rest (i + 1)
    else maxCoeff_index_loop res index rest (i + 1)

/-- Eigen `maxCoeff(&index)`: the position written to `index`; asserts on an empty array. -/
def maxCoeff_index [LinearOrder R] : List R → Option Nat
  | [] => none
  | x :: xs => some (maxCoeff_index_loop x 0 xs 1)

/-- `DiscreteDistribution::max()`: `log_prob_mass_.maxCoeff(&max_index)` and the element
`locations_(max_index)` (`none` when that index is outside the location array). -/
def max [LinearOrder R] (d : DiscreteDistribution R V) : Option (Option V) := do
  let max_index ← maxCoeff_index d.log_prob_mass_
  d.locations_[max_index]?

/-- `DiscreteDistribution::map_standard_normal(gaussian_sample, index)`:
`scaled_sample = gaussian_sample / std::sqrt(2.0)`,
`uniform_sample = 0.5 * (1.0 + std::erf(scaled_sample))`, then `map_standard_uniform`.
`sqrt` and `erf` are the functions of `<cmath>`. -/
def map_standard_normal [LinearOrderedField R] (sqrt erf : R → R)
    (d : DiscreteDistribution R V) (gaussian_sample : R) : Option (Option V) × Nat :=
  let scaled_sample := gaussian_sample / sqrt 2.0
  let uniform_sample := 0.5 * (1.0 + erf scaled_sample)
  map_standard_uniform d uniform_sample

/-- `DiscreteDistribution::sample(index)`:
`map_standard_normal(this->standard_gaussian_.sample(), index)`.  The standard-normal generator
is a state machine: `gaussian s` is the scalar drawn in state `s` with the state after the
draw.  The result is the returned variate, the index and the generator state. -/
def sample {S : Type} [LinearOrderedField R] (sqrt erf : R → R) (gaussian : S → R × S)
    (d : DiscreteDistribution R V) (s : S) : (Option (Option V) × Nat) × S :=
  let (gaussian_sample, s1) := gaussian s
  (map_standard_normal sqrt erf d gaussian_sample, s1)

/-- `sample()` as the sampled distribution of `from_distribution`: the variate that is drawn,
undefined when the scan leaves the location array or stops at a slot never written. -/
def sample_variate {S : Type} [LinearOrderedField R] (sqrt erf : R → R) (gaussian : S → R × S)
    (d : DiscreteDistribution R V) (s : S) : Option (V × S) :=
  match sample sqrt erf gaussian d s with
  | ((some (some x), _), s1) => some (x, s1)
  | _ => none

/-- The loop `for (i = 0; i < new_size; i++) new_locations[i] = distribution.sample();` of
`from_distribution` when the argument `distribution` is a reference to the object itself.
The members of the object are threaded through the iterations: the draw of an iteration is
`sample()` on the members as they are when that iteration runs, and the body assigns only
the local array `new_locations`, no member.  The result is the local array, the object after
the loop and the generator state; the first argument counts the iterations left. -/
def sample_loop_self {S : Type} [LinearOrderedField R] (sqrt erf : R → R)
    (gaussian : S → R × S) :
    Nat → DiscreteDistribution R V → S →
      Option (List (Option V) × DiscreteDistribution R V × S)
  | 0, this, s => some ([], this, s)
  | k + 1, this, s => do
    let (x, s1) ← sample_variate sqrt erf gaussian this s
    let (xs, this1, s2) ← sample_loop_self sqrt erf gaussian k this s1
    pure (some x :: xs, this1, s2)

/-- The call `from_distribution(*this, new_size)` (resampling): the argument `distribution`
designates the object itself.  The statements of the body run in order on the members of the
object: the sampling loop, `set_uniform(new_size)` on the object the loop leaves, and
`locations_ = new_locations`. -/
def from_distribution_self {S : Type} [LinearOrderedField R] (exp log sqrt erf : R → R)
    (gaussian : S → R × S) (s : S) (d : DiscreteDistribution R V) (new_size : Int) :
    Option (DiscreteDistribution R V × S) :=
  if new_size < 0 then none
  else do
    let (new_locations, this1, s1) ← sample_loop_self sqrt erf gaussian new_size.toNat d s
    let this2 ← set_uniform exp log this1 new_size
    pure ({ this2 with locations_ := new_locations }, s1)

/-- The generator state of a sampled distribution after `k` successive draws. -/
def state_after {S : Type} (sample : S → Option (V × S)) : Nat → S → Option S
  | 0, s => some s
  | k + 1, s => do
    let (_, s1) ← sample s
    state_after sample k s1

/-- Invariant 1 with the common length named: the four arrays have length `N` and `size()`
returns `N`. -/
def has_size (d : DiscreteDistribution R V) (N : Nat) : Prop :=
  d.locations_.length = N ∧ d.log_prob_mass_.length = N ∧ d.prob_mass_.length = N ∧
    d.cumul_distr_.length = N ∧ size d = N

/-- Closed form of the normalised weights: `exp(v[i]) / sum_j exp(v[j])`. -/
def softmax {R : Type} [LinearOrderedField R] (exp : R → R) (v : List R) : List R :=
  v.map (fun x => exp x / (v.map exp).sum)

/-- Closed form of the normalised log-weights: `v[i] - log(sum_j exp(v[j]))`. -/
def log_softmax {R : Type} [LinearOrderedField R] (exp log : R → R) (v : List R) : List R :=
  v.map (fun x => x - log (v.map exp).sum)

/-- The substitute of the specification for the scan: a lower-bound binary search over
`cumulative[lo..hi)`, as `std::lower_bound`.  While the range is not empty the middle
element is compared with the sample: the search goes on to the right of it when it is
smaller than the sample, and on the left part otherwise. -/
def lower_bound [LinearOrder R] (cumulative : List R) (uniform_sample : R) (lo hi : Nat) : Nat :=
  if lo < hi then
    let mid := lo + (hi - lo) / 2
    match cumulative[mid]? with
    | some c =>
      if c < uniform_sample then lower_bound cumulative uniform_sample (mid + 1) hi
      else lower_bound cumulative uniform_sample lo mid
    | none => hi
  else lo
termination_by hi - lo
decreasing_by
  all_goals simp_wf
  all_goals omega

/-- The substitute of the specification for `map_standard_uniform`: the index found by the
binary search over the whole cumulative table, with the location at that index. -/
def map_standard_uniform_binary_search [LinearOrder R] (d : DiscreteDistribution R V)
    (uniform_sample : R) : Option (Option V) × Nat :=
  let index := lower_bound d.cumul_distr_ uniform_sample 0 d.cumul_distr_.length
  (d.locations_[index]?, index)

end DiscreteDistribution

/-! ## Non-finite values of `Real`

`Real` is a C++ `double`, which besides the finite values has `+inf`, `-inf` and NaN.  The
operations below follow IEEE 754 on these classes; the finite values are taken from a field
`R` (rounding, overflow to infinity and the sign of zero are not modelled: a zero divisor
counts as `+0`). -/

/-- A `double` by class: a finite value, `+inf`, `-inf` or NaN. -/
inductive Double (R : Type) where
  | finite (x : R)
  | pos_inf
  | neg_inf
  | nan

namespace Double

variable {R : Type}

/-- Unary minus. -/
def neg [Neg R] : Double R → Double R
  | finite x => finite (-x)
  | pos_inf => neg_inf
  | neg_inf => pos_inf
  | nan => nan

/-- Addition: NaN propagates and `inf + (-inf)` is NaN. -/
def add [Add R] : Double R → Double R → Double R
  | nan, _ => nan
  | _, nan => nan
  | pos_inf, neg_inf => nan
  | neg_inf, pos_inf => nan
  | pos_inf, _ => pos_inf
  | neg_inf, _ => neg_inf
  | _, pos_inf => pos_inf
  | _, neg_inf => neg_inf
  | finite x, finite y => finite (x + y)

/-- Subtraction `a - b = a + (-b)`, so `inf - inf` is NaN. -/
def sub [Add R] [Neg R] (a b : Double R) : Double R := add a (neg b)

/-- The comparison `a < b`; every comparison with NaN is false. -/
def lt [LinearOrder R] : Double R → Double R → Bool
  | nan, _ => false
  | _, nan => false
  | finite x, finite y => decide (x < y)
  | finite _, pos_inf => true
  | neg_inf, finite _ => true
  | neg_inf, pos_inf => true
  | _, _ => false

/-- The step of the `maxCoeff` visitor: `value` replaces `res` only when `value > res`. -/
def max [LinearOrder R] (res value : Double R) : Double R :=
  if lt res value then value else res

/-- Division: NaN propagates, `inf / inf` and `0 / 0` are NaN, a finite value over an
infinity is `0`, a non-zero finite value over `0` is an infinity. -/
def div [LinearOrderedField R] : Double R → Double R → Double R
  | nan, _ => nan
  | _, nan => nan
  | pos_inf, pos_inf => nan
  | pos_inf, neg_inf => nan
  | neg_inf, pos_inf => nan
  | neg_inf, neg_inf => nan
  | pos_inf, finite y => if y < 0 then neg_inf else pos_inf
  | neg_inf, finite y => if y < 0 then pos_inf else neg_inf
  | finite _, pos_inf => finite 0
  | finite _, neg_inf => finite 0
  | finite x, finite y =>
    if y = 0 then (if x = 0 then nan else if 0 < x then pos_inf else neg_inf)
    else finite (x / y)

/-- `std::exp` lifted from the finite values: `exp(+inf) = +inf`, `exp(-inf) = 0`,
`exp(NaN) = NaN`. -/
def exp [Zero R] (e : R → R) : Double R → Double R
  | finite x => finite (e x)
  | pos_inf => pos_inf
  | neg_inf => finite 0
  | nan => nan

/-- `std::log` lifted from the positive finite values: `log(0) = -inf`, `log(+inf) = +inf`,
and NaN for a negative argument or NaN. -/
def log [LinearOrderedField R] (l : R → R) : Double R → Double R
  | finite x => if x < 0 then nan else if x = 0 then neg_inf else finite (l x)
  | pos_inf => pos_inf
  | neg_inf => nan
  | nan => nan

instance [LinearOrderedField R] : Zero (Double R) := ⟨finite 0⟩

instance [LinearOrderedField R] : Add (Double R) := ⟨add⟩

instance [LinearOrderedField R] : Sub (Double R) := ⟨sub⟩

instance [LinearOrderedField R] : Div (Double R) := ⟨div⟩

instance [LinearOrderedField R] : Max (Double R) := ⟨max⟩

end Double

/-! ## JointDistribution

Shallow embedding of `JointDistributionID.h`.  The tuple of marginal distributions is a list;
of a marginal only `dimension()`, `mean()` and `covariance()` are used.  A matrix is its
numbers of rows and columns with its coefficient function; the vector `mu` that `mean()`
fills is a list of slots, `none` while not yet written. -/

/-- A dense matrix: `rows()`, `cols()` and the coefficients. -/
structure Mat (R : Type) where
  rows : Nat
  cols : Nat
  coeff : Nat → Nat → R

/-- What `JointDistribution` uses of a marginal distribution: the values of its
`dimension()`, `mean()` and `covariance()`. -/
structure Marginal (R : Type) where
  dimension : Nat
  mean : List R
  covariance : Mat R

namespace JointDistribution

variable {R : Type}

/-- `JointDistribution::expend_dimension`: `joint_dim = 0; for (dim : dims) joint_dim += dim`. -/
def expend_dimension (distributions_ : List (Marginal R)) : Nat :=
  distributions_.foldl (fun joint_dim distribution => joint_dim + distribution.dimension) 0

/-- `JointDistribution::dimension()`. -/
def dimension (distributions_ : List (Marginal R)) : Nat := expend_dimension distributions_

/-- Eigen `mu.middleRows(offset, dim) = v`: asserts that the rows lie inside `mu` and that
`v` has `dim` rows. -/
def middleRows_assign (mu : List (Option R)) (offset dim : Nat) (v : List R) :
    Option (List (Option R)) :=
  if offset + dim ≤ mu.length ∧ v.length = dim then
    some (mu.take offset ++ v.map some ++ mu.drop (offset + dim))
  else none

/-- Eigen `cov.block(offset, offset, dim, dim) = m`: asserts that the block lies inside
`cov` and that `m` is `dim` by `dim`. -/
def block_assign (cov : Mat R) (offset dim : Nat) (m : Mat R) : Option (Mat R) :=
  if offset + dim ≤ cov.rows ∧ offset + dim ≤ cov.cols ∧ m.rows = dim ∧ m.cols = dim then
    some { rows := cov.rows
           cols := cov.cols
           coeff := fun i j =>
             if offset ≤ i ∧ i < offset + dim ∧ offset ≤ j ∧ j < offset + dim then
               m.coeff (i - offset) (j - offset)
             else cov.coeff i j }
  else none

/-- `JointDistribution::mean_<Size, k>(distr_tuple, mu, offset)`: the list holds the marginals
from position `k` on; the recursion ends after the last one (`Size == k + 1`).  A tuple without
elements has no element `k`. -/
def mean_ : List (Marginal R) → List (Option R) → Nat → Option (List (Option R))
  | [], _, _ => none
  | [distribution], mu, offset =>
    middleRows_assign mu offset distribution.dimension distribution.mean
  | distribution :: rest, mu, offset => do
    let mu1 ← middleRows_assign mu offset distribution.dimension distribution.mean
    mean_ rest mu1 (offset + distribution.dimension)

/-- `JointDistribution::mean()`: `mu = VariateType(dimension(), 1)`, not initialised, then
`mean_<sizeof...(Distribution)>(distributions_, mu)`. -/
def mean (distributions_ : List (Marginal R)) : Option (List (Option R)) :=
  mean_ distributions_ (List.replicate (dimension distributions_) none) 0

/-- `JointDistribution::covariance<Size, k>(distr, cov, offset)`. -/
def covariance_ : List (Marginal R) → Mat R → Nat → Option (Mat R)
  | [], _, _ => none
  | [distribution], cov, offset =>
    block_assign cov offset distribution.dimension distribution.covariance
  | distribution :: rest, cov, offset => do
    let cov1 ← block_assign cov offset distribution.dimension distribution.covariance
    covariance_ rest cov1 (offset + distribution.dimension)

/-- `JointDistribution::covariance()`: `cov = SecondMoment::Zero(dimension(), dimension())`,
then `covariance<sizeof...(Distribution)>(distributions_, cov)`. -/
def covariance [Zero R] (distributions_ : List (Marginal R)) : Option (Mat R) :=
  covariance_ distributions_
    { rows := dimension distributions_, cols := dimension distributions_,
      coeff := fun _ _ => 0 } 0

/-- The offset of marginal `k`: the sum of the dimensions of the marginals before it. -/
def offset_of (distributions_ : List (Marginal R)) (k : Nat) : Nat :=
  ((distributions_.take k).map (fun distribution => distribution.dimension)).sum

/-- A marginal whose `mean()` has `dimension()` rows and whose `covariance()` is square of
that size. -/
def well_formed (distribution : Marginal R) : Prop :=
  distribution.mean.length = distribution.dimension ∧
  distribution.covariance.rows = distribution.dimension ∧
  distribution.covariance.cols = distribution.dimension

end JointDistribution

end fl

/-! # StandardNormalDistribution (bfl)

Shallow embedding of `BayesFilters/Distribution/StandardNormalDistribution.h`.  The variate is
a column vector, a `List`; the diagonal covariance matrix is the `List` of its diagonal.
`size_at_compile_time` is `VariateType::SizeAtCompileTime`: `some n` for a fixed-size vector,
`none` for `Eigen::Dynamic`.  The random engine and the normal distribution object of
`<random>` are one state of type `G`: `mt19937_64 seed` is the state after seeding and
`normal g` the number drawn by `distribution_(generator_)` with the state after the draw.
A thrown exception is `Except.error` with the thrown message. -/

namespace bfl

namespace utils

/-- `utils::throw_message(from_where, error_message, data_log)`. -/
def throw_message (from_where error_message data_log : String) : String :=
  if from_where.isEmpty || error_message.isEmpty then
    "UTILS::THROW_MESSAGE::EMPTY_THROW_REPORT"
  else
    let message := "ERROR::" ++ from_where ++ "\n"
    let message := message ++ "MESSAGE:\n"
    let message := message ++ ("\t" ++ error_message ++ "\n")
    if !data_log.isEmpty then
      let message := message ++ "LOG:\n"
      message ++ ("\t" ++ data_log ++ "\n")
    else message

end utils

/-- Member variables of `StandardNormalDistribution<VariateType>`; `generator_` stands for
`generator_` and `distribution_` together. -/
structure StandardNormalDistribution (R G : Type) where
  dimension_ : Nat
  mean_ : List R
  covariance_ : List R
  seed_ : Nat
  generator_ : G

namespace StandardNormalDistribution

variable {R G : Type}

/-- `DimensionOf<VariateType>()`: the number of rows of a fixed-size variate, 0 otherwise. -/
def DimensionOf (size_at_compile_time : Option Nat) : Nat :=
  match size_at_compile_time with
  | some n => n
  | none => 0

/-- Constructor `StandardNormalDistribution(seed, dim)`: `mean_ = VariateType::Zero(dim, 1)`,
`covariance_` the identity of size `dim`.  For a fixed-size variate `Zero(dim, 1)` asserts that
`dim` is the size of the type. -/
def new [Zero R] [One R] (size_at_compile_time : Option Nat) (mt19937_64 : Nat → G)
    (seed : Nat) (dim : Nat) : Option (StandardNormalDistribution R G) :=
  let is_size : Bool :=
    match size_at_compile_time with
    | some n => decide (dim = n)
    | none => true
  if is_size then
    some { dimension_ := dim
           mean_ := List.replicate dim 0
           covariance_ := List.replicate dim 1
           seed_ := seed
           generator_ := mt19937_64 seed }
  else none

/-- Constructor `StandardNormalDistribution(dim)`: delegates to seed 1. -/
def new_default [Zero R] [One R] (size_at_compile_time : Option Nat) (mt19937_64 : Nat → G)
    (dim : Nat) : Option (StandardNormalDistribution R G) :=
  new size_at_compile_time mt19937_64 1 dim

/-- The loop `for (i = 0; i < dimension_; ++i) gaussian_sample(i, 0) = gauss_rnd_sample_()`:
the first argument counts the iterations left. -/
def draw_loop (normal : G → R × G) : Nat → G → List R × G
  | 0, g => ([], g)
  | k + 1, g =>
    let (x, g1) := normal g
    let (xs, g2) := draw_loop normal k g1
    (x :: xs, g2)

/-- `StandardNormalDistribution::sample()`: the sample and the object with its generator
advanced.  For a fixed-size variate `VariateType gaussian_sample(dimension(), 1)` asserts that
`dimension()` is the size of the type. -/
def sample (size_at_compile_time : Option Nat) (normal : G → R × G)
    (a : StandardNormalDistribution R G) : Option (List R × StandardNormalDistribution R G) :=
  let is_size : Bool :=
    match size_at_compile_time with
    | some n => decide (a.dimension_ = n)
    | none => true
  if is_size then
    let (gaussian_sample, g) := draw_loop normal a.dimension_ a.generator_
    some (gaussian_sample, { a with generator_ := g })
  else none

/-- `StandardNormalDistribution::dimension()`. -/
def dimension (a : StandardNormalDistribution R G) : Nat := a.dimension_

/-- `StandardNormalDistribution::dimension(new_dimension)`: the object after the call and
whether the call returned or threw. -/
def set_dimension (size_at_compile_time : Option Nat) (a : StandardNormalDistribution R G)
    (new_dimension : Nat) : StandardNormalDistribution R G × Except String Unit :=
  if a.dimension_ = new_dimension then (a, Except.ok ())
  else if size_at_compile_time.isSome then
    (a, Except.error (utils.throw_message "STANDARDGAUSSIAN::DIMENSION"
      "Attempt to resize a fixed-size distribution."
      ("Eigen matrix size is: " ++ toString a.dimension_ ++ ". Requested is: "
        ++ toString new_dimension ++ ".")))
  else ({ a with dimension_ := new_dimension }, Except.ok ())

/-- `StandardNormalDistribution::mean()`. -/
def mean (a : StandardNormalDistribution R G) : List R := a.mean_

/-- `StandardNormalDistribution::covariance()`: the diagonal of the matrix returned. -/
def covariance (a : StandardNormalDistribution R G) : List R := a.covariance_

/-- `k` successive calls of `sample()`: the samples in order and the object they leave. -/
def samples (size_at_compile_time : Option Nat) (normal : G → R × G) :
    Nat → StandardNormalDistribution R G →
      Option (List (List R) × StandardNormalDistribution R G)
  | 0, a => some ([], a)
  | k + 1, a => do
    let (v, a1) ← sample size_at_compile_time normal a
    let (vs, a2) ← samples size_at_compile_time normal k a1
    pure (v :: vs, a2)

end StandardNormalDistribution

/-- Member variables of the specialisation `StandardNormalDistribution<double>`. -/
structure StandardNormalDistributionScalar (R G : Type) where
  dimension_ : Nat
  mean_ : R
  var_ : R
  seed_ : Nat
  generator_ : G

namespace StandardNormalDistributionScalar

variable {R G : Type}

/-- Constructor `StandardNormalDistribution<double>(seed)`. -/
def new [Zero R] [One R] (mt19937_64 : Nat → G) (seed : Nat) :
    StandardNormalDistributionScalar R G :=
  { dimension_ := 1, mean_ := 0, var_ := 1, seed_ := seed, generator_ := mt19937_64 seed }

/-- Default constructor of the specialisation: delegates to seed 1. -/
def new_default [Zero R] [One R] (mt19937_64 : Nat → G) : StandardNormalDistributionScalar R G :=
  new mt19937_64 1

/-- `StandardNormalDistribution<double>::sample()`. -/
def sample (normal : G → R × G) (a : StandardNormalDistributionScalar R G) :
    R × StandardNormalDistributionScalar R G :=
  let (x, g) := normal a.generator_
  (x, { a with generator_ := g })

/-- `StandardNormalDistribution<double>::dimension()`. -/
def dimension (a : StandardNormalDistributionScalar R G) : Nat := a.dimension_

/-- `StandardNormalDistribution<double>::dimension(new_dimension)`: always throws. -/
def set_dimension (a : StandardNormalDistributionScalar R G) (_new_dimension : Nat) :
    StandardNormalDistributionScalar R G × Except String Unit :=
  (a, Except.error (utils.throw_message "STANDARDGAUSSIAN::DIMENSION"
    "Attempt to resize a scalar-valued distribution." ""))

/-- `StandardNormalDistribution<double>::mean()`. -/
def mean (a : StandardNormalDistributionScalar R G) : R := a.mean_

/-- `StandardNormalDistribution<double>::covariance()`. -/
def covariance (a : StandardNormalDistributionScalar R G) : R := a.var_

/-- `k` successive calls of `sample()`. -/
def samples (normal : G → R × G) :
    Nat → StandardNormalDistributionScalar R G → List R × StandardNormalDistributionScalar R G
  | 0, a => ([], a)
  | k + 1, a =>
    let (x, a1) := sample normal a
    let (xs, a2) := samples normal k a1
    (x :: xs, a2)

end StandardNormalDistributionScalar

/-! ## Parameter and ParameterContainer

Shallow embedding of `Parameter.cpp` and `ParameterContainer.cpp`.  An `int` is an `Int`, an
`unsigned int` a `Nat`; `float` and `double` are types `F` and `D` with the conversions the
accessors use collected in `FloatOps`.  `pimpl_` is `none` for a moved-from object, and a
member access through a null `pimpl_` is undefined: the result of a call is `none` then,
`some (Except.error what)` when it throws and `some (Except.ok v)` when it returns `v`. -/

/-- `Parameter::ImplData::DatumType`. -/
inductive DatumType where
  | Bool
  | Int
  | UInt
  | Float
  | Double
  | String
  | Any
  | Empty
  deriving DecidableEq

/-- Modelled from the spec: `Data` (`BayesFilters/Data.h`, not among the sources) is the
tagged union of the parameter store: it holds no value or one value of the type it was
given, and `any::any_cast<T>` returns that value when its type is `T` and throws otherwise. -/
inductive Data (F D : Type) where
  | empty
  | bool (b : Bool)
  | int (i : Int)
  | uint (u : Nat)
  | float (f : F)
  | double (x : D)
  | string (s : String)

/-- Conversions of the floating-point types used by the accessors of `Parameter`:
the test `if (data)`, the `static_cast`s, `std::stod` (which may throw) and `std::to_string`. -/
structure FloatOps (F D : Type) where
  float_nonzero : F → Bool
  double_nonzero : D → Bool
  float_to_int : F → Int
  double_to_int : D → Int
  float_to_uint : F → Nat
  double_to_uint : D → Nat
  int_to_float : Int → F
  int_to_double : Int → D
  float_to_double : F → D
  double_to_float : D → F
  stod : String → Except String D
  float_to_string : F → String
  double_to_string : D → String

/-- `Parameter::ImplData`. -/
structure ImplData (F D : Type) where
  datum_ : Data F D
  type_ : DatumType

/-- The class `Parameter`: the pointer `pimpl_`. -/
structure Parameter (F D : Type) where
  pimpl_ : Option (ImplData F D)

namespace Parameter

variable {F D : Type}

/-- `static_cast<int>` of an integer value: reduction to the 32-bit signed range. -/
def to_int (z : Int) : Int := (z + 2 ^ 31) % 2 ^ 32 - 2 ^ 31

/-- `static_cast<unsigned int>` of an integer value: reduction modulo `2^32`. -/
def to_uint (z : Int) : Nat := (z % 2 ^ 32).toNat

/-- `any::any_cast<bool>`. -/
def any_cast_bool : Data F D → Except String Bool
  | Data.bool b => Except.ok b
  | _ => Except.error "bad any_cast"

/-- `any::any_cast<int>`. -/
def any_cast_int : Data F D → Except String Int
  | Data.int i => Except.ok i
  | _ => Except.error "bad any_cast"

/-- `any::any_cast<unsigned int>`. -/
def any_cast_uint : Data F D → Except String Nat
  | Data.uint u => Except.ok u
  | _ => Except.error "bad any_cast"

/-- `any::any_cast<float>`. -/
def any_cast_float : Data F D → Except String F
  | Data.float f => Except.ok f
  | _ => Except.error "bad any_cast"

/-- `any::any_cast<double>`. -/
def any_cast_double : Data F D → Except String D
  | Data.double x => Except.ok x
  | _ => Except.error "bad any_cast"

/-- `any::any_cast<std::string>`. -/
def any_cast_string : Data F D → Except String String
  | Data.string s => Except.ok s
  | _ => Except.error "bad any_cast"

/-- `Parameter::Parameter()`. -/
def new : Parameter F D := { pimpl_ := some { datum_ := Data.empty, type_ := DatumType.Empty } }

/-- `Parameter::Parameter(const bool datum)`. -/
def of_bool (datum : Bool) : Parameter F D :=
  { pimpl_ := some { datum_ := Data.bool datum, type_ := DatumType.Bool } }

/-- `Parameter::Parameter(const int datum)`. -/
def of_int (datum : Int) : Parameter F D :=
  { pimpl_ := some { datum_ := Data.int datum, type_ := DatumType.Int } }

/-- `Parameter::Parameter(const unsigned int datum)`. -/
def of_uint (datum : Nat) : Parameter F D :=
  { pimpl_ := some { datum_ := Data.uint datum, type_ := DatumType.UInt } }

/-- `Parameter::Parameter(const float datum)`. -/
def of_float (datum : F) : Parameter F D :=
  { pimpl_ := some { datum_ := Data.float datum, type_ := DatumType.Float } }

/-- `Parameter::Parameter(const double datum)`. -/
def of_double (datum : D) : Parameter F D :=
  { pimpl_ := some { datum_ := Data.double datum, type_ := DatumType.Double } }

/-- `Parameter::Parameter(const std::string& datum)`. -/
def of_string (datum : String) : Parameter F D :=
  { pimpl_ := some { datum_ := Data.string datum, type_ := DatumType.String } }

/-- `Parameter::Parameter(const Parameter&)`: a copy of the contents, an empty object when
the source has a null `pimpl_`. -/
def copy (parameter_container : Parameter F D) : Parameter F D :=
  match parameter_container.pimpl_ with
  | some impl => { pimpl_ := some impl }
  | none => new

/-- `Parameter::operator=(const Parameter&)`. -/
def assign (p parameter_container : Parameter F D) : Parameter F D :=
  match parameter_container.pimpl_, p.pimpl_ with
  | none, _ => { pimpl_ := none }
  | some impl, none => { pimpl_ := some impl }
  | some impl, some _ => { pimpl_ := some impl }

/-- `Parameter::operator=(Parameter&&)` (defaulted): the object takes the pointer; the second
component is the moved-from source. -/
def move_assign (_p parameter_container : Parameter F D) : Parameter F D × Parameter F D :=
  ({ pimpl_ := parameter_container.pimpl_ }, { pimpl_ := none })

/-- The body shared by the six `operator=(datum)`: `pimpl_->datum_ = datum;`
`pimpl_->type_ = type;`. -/
def assign_datum (p : Parameter F D) (datum : Data F D) (type : DatumType) :
    Option (Parameter F D) :=
  match p.pimpl_ with
  | some _ => some { pimpl_ := some { datum_ := datum, type_ := type } }
  | none => none

/-- `Parameter::operator=(const bool datum)`. -/
def assign_bool (p : Parameter F D) (datum : Bool) : Option (Parameter F D) :=
  assign_datum p (Data.bool datum) DatumType.Bool

/-- `Parameter::operator=(const int datum)`. -/
def assign_int (p : Parameter F D) (datum : Int) : Option (Parameter F D) :=
  assign_datum p (Data.int datum) DatumType.Int

/-- `Parameter::operator=(const unsigned int datum)`. -/
def assign_uint (p : Parameter F D) (datum : Nat) : Option (Parameter F D) :=
  assign_datum p (Data.uint datum) DatumType.UInt

/-- `Parameter::operator=(const float datum)`. -/
def assign_float (p : Parameter F D) (datum : F) : Option (Parameter F D) :=
  assign_datum p (Data.float datum) DatumType.Float

/-- `Parameter::operator=(const double datum)`. -/
def assign_double (p : Parameter F D) (datum : D) : Option (Parameter F D) :=
  assign_datum p (Data.double datum) DatumType.Double

/-- `Parameter::operator=(const std::string& datum)`. -/
def assign_string (p : Parameter F D) (datum : String) : Option (Parameter F D) :=
  assign_datum p (Data.string datum) DatumType.String

/-- `as_bool_helper<DataType>` for the arithmetic types: `any_cast<DataType>`, then
`if (data) return true; else return false;`. -/
def as_bool_helper {A : Type} (any_cast : Data F D → Except String A) (nonzero : A → Bool)
    (datum : Data F D) : Except String Bool := do
  let data ← any_cast datum
  if nonzero data then pure true else pure false

/-- `as_bool_helper<std::string>`: `return data.empty();`. -/
def as_bool_helper_string (datum : Data F D) : Except String Bool := do
  let data ← any_cast_string datum
  pure data.isEmpty

/-- `as_type_helper<FromType, ToType>`: `any_cast<FromType>`, then `static_cast<ToType>`. -/
def as_type_helper {A B : Type} (any_cast : Data F D → Except String A) (static_cast : A → B)
    (datum : Data F D) : Except String B := do
  let data ← any_cast datum
  pure (static_cast data)

/-- `as_type_helper_from_string<ToType>`: `static_cast<ToType>(std::stod(data))`. -/
def as_type_helper_from_string {B : Type} (ops : FloatOps F D) (static_cast : D → B)
    (datum : Data F D) : Except String B := do
  let data ← any_cast_string datum
  let x ← ops.stod data
  pure (static_cast x)

/-- `as_type_helper_to_string<FromType>`: `std::to_string(data)`. -/
def as_type_helper_to_string {A : Type} (any_cast : Data F D → Except String A)
    (to_string : A → String) (datum : Data F D) : Except String String := do
  let data ← any_cast datum
  pure (to_string data)

/-- The integer value of a `bool` under the integral promotion. -/
def bool_to_int (b : Bool) : Int := if b then 1 else 0

/-- `Parameter::as_bool()`. -/
def as_bool (ops : FloatOps F D) (p : Parameter F D) : Option (Except String Bool) :=
  match p.pimpl_ with
  | none => none
  | some impl =>
    some (match impl.type_ with
      | DatumType.Bool => any_cast_bool impl.datum_
      | DatumType.Int => as_bool_helper any_cast_int (fun i => decide (i ≠ 0)) impl.datum_
      | DatumType.UInt => as_bool_helper any_cast_uint (fun u => decide (u ≠ 0)) impl.datum_
      | DatumType.Float => as_bool_helper any_cast_float ops.float_nonzero impl.datum_
      | DatumType.Double => as_bool_helper any_cast_double ops.double_nonzero impl.datum_
      | DatumType.String => as_bool_helper_string impl.datum_
      | _ => Except.error
          "ERROR::PARAMETER::OPERATOR::AS_BOOL\nERROR:\n\tType of datum is Unknown or Any. Cannot convert safely.")

/-- `Parameter::as_int()`. -/
def as_int (ops : FloatOps F D) (p : Parameter F D) : Option (Except String Int) :=
  match p.pimpl_ with
  | none => none
  | some impl =>
    some (match impl.type_ with
      | DatumType.Bool => as_type_helper any_cast_bool bool_to_int impl.datum_
      | DatumType.Int => any_cast_int impl.datum_
      | DatumType.UInt => as_type_helper any_cast_uint (fun u => to_int (u : Int)) impl.datum_
      | DatumType.Float => as_type_helper any_cast_float ops.float_to_int impl.datum_
      | DatumType.Double => as_type_helper any_cast_double ops.double_to_int impl.datum_
      | DatumType.String => as_type_helper_from_string ops ops.double_to_int impl.datum_
      | _ => Except.error
          "ERROR::PARAMETER::OPERATOR::AS_INT\nERROR:\n\tType of datum is Unknown or Any. Cannot convert safely.")

/-- `Parameter::as_uint()`. -/
def as_uint (ops : FloatOps F D) (p : Parameter F D) : Option (Except String Nat) :=
  match p.pimpl_ with
  | none => none
  | some impl =>
    some (match impl.type_ with
      | DatumType.Bool => as_type_helper any_cast_bool (fun b => to_uint (bool_to_int b))
          impl.datum_
      | DatumType.Int => as_type_helper any_cast_int to_uint impl.datum_
      | DatumType.UInt => any_cast_uint impl.datum_
      | DatumType.Float => as_type_helper any_cast_float ops.float_to_uint impl.datum_
      | DatumType.Double => as_type_helper any_cast_double ops.double_to_uint impl.datum_
      | DatumType.String => as_type_helper_from_string ops ops.double_to_uint impl.datum_
      | _ => Except.error
          "ERROR::PARAMETER::OPERATOR::AS_UINT\nERROR:\n\tType of datum is Unknown or Any. Cannot convert safely.")

/-- `Parameter::as_float()`. -/
def as_float (ops : FloatOps F D) (p : Parameter F D) : Option (Except String F) :=
  match p.pimpl_ with
  | none => none
  | some impl =>
    some (match impl.type_ with
      | DatumType.Bool => as_type_helper any_cast_bool
          (fun b => ops.int_to_float (bool_to_int b)) impl.datum_
      | DatumType.Int => as_type_helper any_cast_int ops.int_to_float impl.datum_
      | DatumType.UInt => as_type_helper any_cast_uint (fun u => ops.int_to_float (u : Int))
          impl.datum_
      | DatumType.Float => any_cast_float impl.datum_
      | DatumType.Double => as_type_helper any_cast_double ops.double_to_float impl.datum_
      | DatumType.String => as_type_helper_from_string ops ops.double_to_float impl.datum_
      | _ => Except.error
          "ERROR::PARAMETER::OPERATOR::AS_FLOAT\nERROR:\n\tType of datum is Unknown or Any. Cannot convert safely.")

/-- `Parameter::as_double()`. -/
def as_double (ops : FloatOps F D) (p : Parameter F D) : Option (Except String D) :=
  match p.pimpl_ with
  | none => none
  | some impl =>
    some (match impl.type_ with
      | DatumType.Bool => as_type_helper any_cast_bool
          (fun b => ops.int_to_double (bool_to_int b)) impl.datum_
      | DatumType.Int => as_type_helper any_cast_int ops.int_to_double impl.datum_
      | DatumType.UInt => as_type_helper any_cast_uint (fun u => ops.int_to_double (u : Int))
          impl.datum_
      | DatumType.Float => as_type_helper any_cast_float ops.float_to_double impl.datum_
      | DatumType.Double => any_cast_double impl.datum_
      | DatumType.String => as_type_helper_from_string ops (fun x => x) impl.datum_
      | _ => Except.error
          "ERROR::PARAMETER::OPERATOR::AS_DOUBLE\nERROR:\n\tType of datum is Unknown or Any. Cannot convert safely.")

/-- `Parameter::as_string()`. -/
def as_string (ops : FloatOps F D) (p : Parameter F D) : Option (Except String String) :=
  match p.pimpl_ with
  | none => none
  | some impl =>
    some (match impl.type_ with
      | DatumType.Bool => as_type_helper_to_string any_cast_bool
          (fun b => toString (bool_to_int b)) impl.datum_
      | DatumType.Int => as_type_helper_to_string any_cast_int (fun i => toString i) impl.datum_
      | DatumType.UInt => as_type_helper_to_string any_cast_uint (fun u => toString u)
          impl.datum_
      | DatumType.Float => as_type_helper_to_string any_cast_float ops.float_to_string
          impl.datum_
      | DatumType.Double => as_type_helper_to_string any_cast_double ops.double_to_string
          impl.datum_
      | DatumType.String => any_cast_string impl.datum_
      | DatumType.Empty => Except.ok "Empty"
      | _ => Except.error
          "ERROR::PARAMETER::OPERATOR::AS_STRING\nERROR:\n\tType of datum is Unknown or Any. Cannot convert safely.")

/-- `operator<<(out, parameter)`: the text appended to the stream. -/
def stream_out (ops : FloatOps F D) (p : Parameter F D) : Option (Except String String) :=
  match p.pimpl_ with
  | none => none
  | some impl =>
    if impl.type_ = DatumType.Any then
      some (Except.error
        "ERROR::PARAMETER::OPERATOR<<::\nERROR:\n\tType of datum is Unknown or Any. Cannot convert safely.")
    else as_string ops p

end Parameter

/-- An instance of the conversions over the rationals, on which the accessors can be
evaluated: a value is non-zero when it differs from 0, a conversion to an integer type
truncates toward zero, and `std::stod` is taken on decimal integer literals (it throws
`invalid_argument` on the other strings). -/
def FloatOps.rational : FloatOps ℚ ℚ where
  float_nonzero := fun f => decide (f ≠ 0)
  double_nonzero := fun x => decide (x ≠ 0)
  float_to_int := fun f => Parameter.to_int (f.num.tdiv f.den)
  double_to_int := fun x => Parameter.to_int (x.num.tdiv x.den)
  float_to_uint := fun f => Parameter.to_uint (f.num.tdiv f.den)
  double_to_uint := fun x => Parameter.to_uint (x.num.tdiv x.den)
  int_to_float := fun z => (z : ℚ)
  int_to_double := fun z => (z : ℚ)
  float_to_double := fun f => f
  double_to_float := fun x => x
  stod := fun s =>
    match s.toInt? with
    | some z => Except.ok (z : ℚ)
    | none => Except.error "invalid_argument"
  float_to_string := fun f => toString f
  double_to_string := fun x => toString x

/-- `ParameterContainer`: the pointer `pimpl_` to the `std::unordered_map<std::string,
Parameter> data`, kept as a list of entries with distinct labels. -/
structure ParameterContainer (F D : Type) where
  pimpl_ : Option (List (String × Parameter F D))

namespace ParameterContainer

variable {F D : Type}

/-- `ParameterContainer::ParameterContainer()`. -/
def new : ParameterContainer F D := { pimpl_ := some [] }

/-- The element of the map under `label`, when there is one. -/
def find (data : List (String × Parameter F D)) (label : String) : Option (Parameter F D) :=
  match data with
  | [] => none
  | (key, value) :: rest => if key = label then some value else find rest label

/-- Overwrites the element of the map under `label`. -/
def replace (data : List (String × Parameter F D)) (label : String) (value : Parameter F D) :
    List (String × Parameter F D) :=
  match data with
  | [] => []
  | (key, old) :: rest =>
    if key = label then (key, value) :: rest else (key, old) :: replace rest label value

/-- `ParameterContainer::operator[](label)`: `pimpl_->data[label]`.  The element under
`label`, a default-constructed `Parameter` being inserted first when there is none; the
result is the referenced element and the container after the call. -/
def index (c : ParameterContainer F D) (label : String) :
    Option (Parameter F D × ParameterContainer F D) :=
  match c.pimpl_ with
  | none => none
  | some data =>
    match find data label with
    | some value => some (value, c)
    | none => some (Parameter.new, { pimpl_ := some (data ++ [(label, Parameter.new)]) })

/-- A statement `container[label] = ...`: `operator[]` returns the reference, the assignment
operator `op` of `Parameter` runs on the referenced element and its result stays in the map. -/
def assign_at (c : ParameterContainer F D) (label : String)
    (op : Parameter F D → Option (Parameter F D)) : Option (ParameterContainer F D) :=
  match index c label with
  | none => none
  | some (value, c1) =>
    match op value, c1.pimpl_ with
    | some value1, some data => some { pimpl_ := some (replace data label value1) }
    | _, _ => none

end ParameterContainer

namespace utils

/-- `utils::log_sum_exp(data)`: `max = data.maxCoeff()`, then
`max + std::log((data.array() - max).exp().sum())`.  The argument is the list of the
coefficients of the vector or matrix (neither `maxCoeff` nor `sum` depends on their
arrangement); `maxCoeff` asserts on an object of size 0. -/
def log_sum_exp {R : Type} [Max R] [Zero R] [Add R] [Sub R] (exp log : R → R)
    (data : List R) : Option R := do
  let max ← fl.DiscreteDistribution.maxCoeff data
  pure (max + log ((data.map (fun x => exp (x - max))).sum))

end utils

/-! ## TimeDecreasingDynamics

Shallow embedding of `TimeDecreasingDynamics.cpp`.  An `unsigned int` is a `Nat` below
`2^32` and its arithmetic is taken modulo `2^32`.  The decorated state model is a state of
type `S` with its two member functions that the class calls; the `CpuTimer` is a state of
type `T` with the member functions that read the steady clock.  `seconds_` is `none` when it
holds `std::numeric_limits<double>::infinity()`. -/

namespace TimeDecreasingDynamics

/-- `TimeDecreasingDynamics::ImplData::Modality`. -/
inductive Modality where
  | Iteration
  | Time
  deriving DecidableEq

/-- `TimeDecreasingDynamics::ImplData`. -/
structure ImplData (R T : Type) where
  modality_ : Modality
  iterations_ : Nat
  current_iterations_ : Nat
  seconds_ : Option R
  current_seconds_ : R
  timer_ : T

/-- The member functions of `utils::CpuTimer<>` that the class calls. -/
structure CpuTimer (R T : Type) where
  start : T → T
  stop : T → T
  elapsed : T → R
  is_running : T → Bool

/-- The member functions of the decorated state model that `StateModelDecorator` forwards
to: `getNoiseSample(num)` and `setProperty(property)`, each with the state of the model after
the call. -/
structure StateModel (R S : Type) where
  getNoiseSample : S → Nat → fl.Mat R × S
  setProperty : S → String → Bool × S

end TimeDecreasingDynamics

/-- The class `TimeDecreasingDynamics`: `pImpl_` and the `state_model_` of the base class
`StateModelDecorator`. -/
structure TimeDecreasingDynamics (R T S : Type) where
  pImpl_ : TimeDecreasingDynamics.ImplData R T
  state_model_ : S

namespace TimeDecreasingDynamics

variable {R T S : Type}

/-- `TimeDecreasingDynamics::TimeDecreasingDynamics(const unsigned int iterations)`;
`timer` is the default-constructed timer and `state_model` the decorated model. -/
def new_iterations [Zero R] (iterations : Nat) (timer : T) (state_model : S) :
    TimeDecreasingDynamics R T S :=
  { pImpl_ :=
      { modality_ := Modality.Iteration
        iterations_ := iterations % 2 ^ 32
        current_iterations_ := 0
        seconds_ := none
        current_seconds_ := 0
        timer_ := timer }
    state_model_ := state_model }

/-- `TimeDecreasingDynamics::TimeDecreasingDynamics(const double seconds)`: `seconds_` is
`std::abs(seconds)` (the warning printed for a negative argument is not modelled). -/
def new_seconds [Zero R] [Neg R] [LinearOrder R] (seconds : R) (timer : T) (state_model : S) :
    TimeDecreasingDynamics R T S :=
  { pImpl_ :=
      { modality_ := Modality.Time
        iterations_ := 2 ^ 32 - 1
        current_iterations_ := 0
        seconds_ := some (if seconds < 0 then -seconds else seconds)
        current_seconds_ := 0
        timer_ := timer }
    state_model_ := state_model }

/-- The unary minus of an `unsigned int`: the result is an `unsigned int`, the value
`2^32 - k` reduced modulo `2^32`. -/
def neg_unsigned (k : Nat) : Nat := (2 ^ 32 - k) % 2 ^ 32

/-- The local variable `damper` of `getNoiseSample` when the `switch` is left by `break`:
in iteration modality
`(current_iterations_ <= iterations_) ? std::exp(-current_iterations_) : 0.0`,
where `-current_iterations_` is the unary minus of an `unsigned int`, converted to `double`
by `std::exp`; in time modality
`(current_seconds_ <= seconds_) ? std::exp(-current_seconds_) : 0.0`. -/
def damper [Zero R] [Neg R] [LinearOrder R] [NatCast R] (exp : R → R)
    (impl : ImplData R T) : R :=
  match impl.modality_ with
  | Modality.Iteration =>
    if impl.current_iterations_ ≤ impl.iterations_ then
      exp ((neg_unsigned impl.current_iterations_ : Nat) : R)
    else 0
  | Modality.Time =>
    match impl.seconds_ with
    | none => exp (-impl.current_seconds_)
    | some seconds => if impl.current_seconds_ ≤ seconds then exp (-impl.current_seconds_) else 0

/-- `TimeDecreasingDynamics::getNoiseSample(num)`:
`StateModelDecorator::getNoiseSample(num) * damper` (both values of `Modality` leave the
`switch` by `break`).  The result is the returned matrix and the object after the call. -/
def getNoiseSample [Zero R] [Neg R] [Mul R] [LinearOrder R] [NatCast R] (exp : R → R)
    (model : StateModel R S) (self : TimeDecreasingDynamics R T S) (num : Nat) :
    fl.Mat R × TimeDecreasingDynamics R T S :=
  let damper := damper exp self.pImpl_
  let (sample, state_model) := model.getNoiseSample self.state_model_ num
  ({ rows := sample.rows, cols := sample.cols, coeff := fun i j => sample.coeff i j * damper },
    { self with state_model_ := state_model })

/-- `TimeDecreasingDynamics::setProperty(property)`: the returned `bool` and the object after
the call. -/
def setProperty [Mul R] [OfScientific R] (timer : CpuTimer R T) (model : StateModel R S)
    (self : TimeDecreasingDynamics R T S) (property : String) :
    Bool × TimeDecreasingDynamics R T S :=
  if property = "tdd_reset" then
    match self.pImpl_.modality_ with
    | Modality.Iteration =>
      (true, { self with pImpl_ := { self.pImpl_ with current_iterations_ := 0 } })
    | Modality.Time =>
      (true, { self with pImpl_ := { self.pImpl_ with timer_ := timer.stop self.pImpl_.timer_ } })
  else if property = "tdd_advance" then
    match self.pImpl_.modality_ with
    | Modality.Iteration =>
      (true, { self with pImpl_ :=
        { self.pImpl_ with
          current_iterations_ := (self.pImpl_.current_iterations_ + 1) % 2 ^ 32 } })
    | Modality.Time =>
      let current_seconds := timer.elapsed self.pImpl_.timer_ * 1000.0
      let timer1 :=
        if !timer.is_running self.pImpl_.timer_ then timer.start self.pImpl_.timer_
        else self.pImpl_.timer_
      (true, { self with pImpl_ :=
        { self.pImpl_ with current_seconds_ := current_seconds, timer_ := timer1 } })
  else
    let (result, state_model) := model.setProperty self.state_model_ property
    (result, { self with state_model_ := state_model })

/-- The object after `k` successive calls `setProperty("tdd_advance")`. -/
def advance [Mul R] [OfScientific R] (timer : CpuTimer R T) (model : StateModel R S) :
    Nat → TimeDecreasingDynamics R T S → TimeDecreasingDynamics R T S
  | 0, self => self
  | k + 1, self => advance timer model k (setProperty timer model self "tdd_advance").2

end TimeDecreasingDynamics

/-! ## Gaussian log density

Shallow embedding of `utils::multivariate_gaussian_log_density` and
`utils::multivariate_gaussian_log_density_UVR` (`utils.h`).  An Eigen matrix with `r` rows
and `c` columns is a `Matrix (Fin r) (Fin c) R`; the sizes that the Eigen expressions require
to agree (the rows of `input`, `mean`, `U` and the columns of `V`; the columns of `U` and the
rows of `V`) are the same number in the types.  `std::size_t` arithmetic is that of `Nat`.
`M_PI` and `std::log` are arguments, and `uninit` is the value read from a coefficient of a
matrix that was allocated and not written. -/

namespace utils

variable {R : Type}

/-- Eigen `A.inverse()` of a square matrix: the adjugate over the determinant. -/
def inverse [Field R] {m : Nat} (A : Matrix (Fin m) (Fin m) R) : Matrix (Fin m) (Fin m) R :=
  (A.det)⁻¹ • A.adjugate

/-- `utils::multivariate_gaussian_log_density(input, mean, covariance)`. -/
def multivariate_gaussian_log_density [Field R] (log : R → R) (pi : R) {n cols : Nat}
    (input : Matrix (Fin n) (Fin cols) R) (mean : Fin n → R)
    (covariance : Matrix (Fin n) (Fin n) R) : Fin cols → R :=
  let diff : Matrix (Fin n) (Fin cols) R := fun a i => input a i - mean a
  fun i =>
    -0.5 * ((n : R) * log (2.0 * pi) + log covariance.det
      + Matrix.dotProduct (Matrix.vecMul (fun a => diff a i) (inverse covariance))
          (fun a => diff a i))

/-- The index `block_size * i + b` of coefficient `b` of block `i`, for `i < num_blocks`
with `num_blocks = input_size / block_size`. -/
def block_index {n bs : Nat} (i : Fin (n / bs)) (b : Fin bs) : Fin n :=
  ⟨bs * i + b, by
    have h1 := Nat.mul_le_mul_left bs (Nat.succ_le_of_lt i.isLt)
    have h2 := Nat.mul_div_le n bs
    rw [Nat.mul_succ] at h1
    omega⟩

/-- Eigen `A.middleCols(i * block_size, block_size)`, which for a matrix with `block_size`
rows is also `A.block(0, block_size * i, block_size, block_size)`. -/
def middleCols {r n bs : Nat} (A : Matrix (Fin r) (Fin n) R) (i : Fin (n / bs)) :
    Matrix (Fin r) (Fin bs) R :=
  fun a b => A a (block_index i b)

/-- Eigen `A.middleRows(i * block_size, block_size)`. -/
def middleRows {n c bs : Nat} (A : Matrix (Fin n) (Fin c) R) (i : Fin (n / bs)) :
    Matrix (Fin bs) (Fin c) R :=
  fun b j => A (block_index i b) j

/-- The assignment `A.middleCols(i * block_size, block_size) = B` (for a matrix with
`block_size` rows also `A.block(0, block_size * i, block_size, block_size) = B`): the
columns `block_size * i, ..., block_size * i + block_size - 1` of `A` are overwritten. -/
def middleCols_assign {r n bs : Nat} (A : Matrix (Fin r) (Fin n) R) (i : Fin (n / bs))
    (B : Matrix (Fin r) (Fin bs) R) : Matrix (Fin r) (Fin n) R :=
  fun a j =>
    if h : bs * i ≤ j ∧ j < bs * i + bs then B a ⟨j - bs * i, by omega⟩ else A a j

/-- The matrix `R` with `R.cols() == block_size` as a square matrix. -/
def square {bs c : Nat} (Rm : Matrix (Fin bs) (Fin c) R) (h : c = bs) :
    Matrix (Fin bs) (Fin bs) R :=
  fun a b => Rm a (Fin.cast h.symm b)

/-- Eigen `R.block(0, block_size * i, block_size, block_size)` for `i < num_blocks`, the
blocks lying inside `R`. -/
def R_block {bs c nb : Nat} (Rm : Matrix (Fin bs) (Fin c) R) (h : bs * nb ≤ c) (i : Fin nb) :
    Matrix (Fin bs) (Fin bs) R :=
  fun a b => Rm a ⟨bs * i + b, by
    have h1 := Nat.mul_le_mul_left bs (Nat.succ_le_of_lt i.isLt)
    rw [Nat.mul_succ] at h1
    omega⟩

/-- The block "Evaluate inv(R)" of `multivariate_gaussian_log_density_UVR`: the local matrix
`inv_R(block_size, input_size)` after the loop of the branch taken by
`if (R.cols() == block_size)`. -/
def UVR_inv_R [Field R] (uninit : R) {n bs c : Nat} (Rm : Matrix (Fin bs) (Fin c) R)
    (hR : c = bs ∨ bs * (n / bs) ≤ c) : Matrix (Fin bs) (Fin n) R :=
  let num_blocks := n / bs
  if hsingle : c = bs then
    -- The diagonal blocks of R are all equal
    let inv_R_single := inverse (square Rm hsingle)
    (List.finRange num_blocks).foldl
      (fun inv_R i => middleCols_assign inv_R i inv_R_single) (fun _ _ => uninit)
  else
    -- The diagonal blocks of R are different
    (List.finRange num_blocks).foldl
      (fun inv_R i =>
        middleCols_assign inv_R i (inverse (R_block Rm (hR.resolve_left hsingle) i)))
      (fun _ _ => uninit)

/-- The local variable `det_R` of `multivariate_gaussian_log_density_UVR`:
`std::pow(R.determinant(), num_blocks)` when `R.cols() == block_size`, otherwise the loop
`det_R *= R.block(0, block_size * i, block_size, block_size).determinant()` from 1. -/
def UVR_det_R [Field R] {bs c : Nat} (num_blocks : Nat) (Rm : Matrix (Fin bs) (Fin c) R)
    (hR : c = bs ∨ bs * num_blocks ≤ c) : R :=
  if hsingle : c = bs then (square Rm hsingle).det ^ num_blocks
  else
    (List.finRange num_blocks).foldl
      (fun det_R i => det_R * (R_block Rm (hR.resolve_left hsingle) i).det) 1

/-- `utils::multivariate_gaussian_log_density_UVR(input, mean, U, V, R)`.  The call is
undefined (`none`) when `block_size` is 0 (`input_size / block_size`) and when `R` is neither
one block nor wide enough for the `num_blocks` blocks that are read from it. -/
def multivariate_gaussian_log_density_UVR [Field R] (log : R → R) (pi uninit : R)
    {n cols k bs c : Nat} (input : Matrix (Fin n) (Fin cols) R) (mean : Fin n → R)
    (U : Matrix (Fin n) (Fin k) R) (V : Matrix (Fin k) (Fin n) R)
    (Rm : Matrix (Fin bs) (Fin c) R) : Option (Fin cols → R) :=
  if bs = 0 then none
  else if hR : c = bs ∨ bs * (n / bs) ≤ c then
    let num_blocks := n / bs
    let diff : Matrix (Fin n) (Fin cols) R := fun a i => input a i - mean a
    -- Evaluate inv(R)
    let inv_R : Matrix (Fin bs) (Fin n) R := UVR_inv_R uninit Rm hR
    -- Evaluate V * inv(R)
    let V_inv_R : Matrix (Fin k) (Fin n) R :=
      (List.finRange num_blocks).foldl
        (fun V_inv_R i => middleCols_assign V_inv_R i (middleCols V i * middleCols inv_R i))
        (fun _ _ => uninit)
    -- Evaluate diff^{T} * inv(R)
    let diff_T_inv_R : Matrix (Fin cols) (Fin n) R :=
      (List.finRange num_blocks).foldl
        (fun diff_T_inv_R i =>
          middleCols_assign diff_T_inv_R i
            ((middleRows diff i).transpose * middleCols inv_R i))
        (fun _ _ => uninit)
    -- Evaluate I + V * inv(R) * U
    let I_V_inv_R_U : Matrix (Fin k) (Fin k) R := 1 + V_inv_R * U
    -- Evaluate diff^{T} * inv(S) * diff
    let weighted_diffs : Fin cols → R := fun i =>
      Matrix.dotProduct
        (Matrix.vecMul (fun j => diff_T_inv_R i j) (1 - U * inverse I_V_inv_R_U * V_inv_R))
        (fun a => diff a i)
    -- Evalute determinant(S)
    let det_R : R := UVR_det_R num_blocks Rm hR
    let det_S := det_R * I_V_inv_R_U.det
    -- Evaluate the full logarithm density
    some (fun i => -0.5 * ((n : R) * log (2.0 * pi) + log det_S + weighted_diffs i))
  else none

/-- Block `i` on the diagonal of the matrix `R` of the documentation of
`multivariate_gaussian_log_density_UVR`, as the argument `R` of the function gives it: the
argument itself when it is a single `M x M` block (all the diagonal blocks are equal), the
columns `M * i, ..., M * i + M - 1` of the argument when it is the concatenation of the
blocks. -/
def R_diagonal_block {bs c nb : Nat} (Rm : Matrix (Fin bs) (Fin c) R)
    (hR : c = bs ∨ bs * nb ≤ c) (i : Fin nb) : Matrix (Fin bs) (Fin bs) R :=
  if hsingle : c = bs then square Rm hsingle else R_block Rm (hR.resolve_left hsingle) i

/-- The block-diagonal matrix of size `n` with the square blocks `B 0, B 1, ...` of size
`bs` on its diagonal and 0 elsewhere. -/
def block_diagonal [Zero R] {n bs : Nat} (hbs : 0 < bs)
    (B : Fin (n / bs) → Matrix (Fin bs) (Fin bs) R) : Matrix (Fin n) (Fin n) R :=
  fun a b =>
    if h : a.val / bs = b.val / bs ∧ a.val / bs < n / bs then
      B ⟨a.val / bs, h.2⟩ ⟨a.val % bs, Nat.mod_lt _ hbs⟩ ⟨b.val % bs, Nat.mod_lt _ hbs⟩
    else 0

end utils

end bfl

namespace fl

/-! ## Auxiliary lemmas -/

namespace DiscreteDistribution

variable {V : Type}

theorem maxCoeff_isSome {R : Type} [Max R] (v : List R) (hv : v ≠ []) :
    ∃ m, maxCoeff v = some m := by
  cases v with
  | nil => exact absurd rfl hv
  | cons x xs => exact ⟨_, rfl⟩

theorem sum_exp_pos (v : List ℝ) (hv : v ≠ []) : 0 < (v.map Real.exp).sum := by
  induction v with
  | nil => exact absurd rfl hv
  | cons x xs ih =>
    by_cases hxs : xs = []
    · subst hxs; simpa using Real.exp_pos x
    · have := ih hxs
      have hx := Real.exp_pos x
      simp only [List.map_cons, List.sum_cons]
      linarith

theorem sum_exp_shift (v : List ℝ) (m : ℝ) :
    (v.map (fun x => Real.exp (x - m))).sum = (v.map Real.exp).sum * Real.exp (-m) := by
  induction v with
  | nil => simp
  | cons x xs ih =>
    simp only [List.map_cons, List.sum_cons, ih, add_mul]
    rw [sub_eq_add_neg, Real.exp_add]

theorem compute_cdf_isSome {R : Type} [Add R] (p : List R) (hp : p ≠ []) :
    ∃ cd, compute_cdf p = some cd := by
  cases p with
  | nil => exact absurd rfl hp
  | cons x xs => exact ⟨_, rfl⟩

/-- Closed form of `log_unnormalized_prob_mass` on a non-empty vector of reals. -/
theorem log_unnormalized_prob_mass_closed (d : DiscreteDistribution ℝ V) (v : List ℝ)
    (hv : v ≠ []) :
    ∃ cd, compute_cdf (softmax Real.exp v) = some cd ∧
      log_unnormalized_prob_mass Real.exp Real.log d v = some
        { locations_ := resize d.locations_ v.length
          log_prob_mass_ := log_softmax Real.exp Real.log v
          prob_mass_ := softmax Real.exp v
          cumul_distr_ := cd } := by
  obtain ⟨m, hm⟩ := maxCoeff_isSome v hv
  have hS := sum_exp_pos v hv
  have hsum : ((v.map (fun x => x - m)).map Real.exp).sum
      = (v.map Real.exp).sum * Real.exp (-m) := by
    rw [List.map_map]; exact sum_exp_shift v m
  have hpm : ((v.map (fun x => x - m)).map Real.exp).map
      (fun x => x / ((v.map (fun x => x - m)).map Real.exp).sum) = softmax Real.exp v := by
    rw [hsum]
    simp only [softmax, List.map_map]
    apply List.map_congr_left
    intro x _
    simp only [Function.comp]
    rw [sub_eq_add_neg, Real.exp_add]
    have := Real.exp_pos (-m)
    field_simp
    ring
  have hlpm : (v.map (fun x => x - m)).map
      (fun x => x - Real.log ((v.map (fun x => x - m)).map Real.exp).sum)
      = log_softmax Real.exp Real.log v := by
    rw [hsum]
    simp only [log_softmax, List.map_map]
    apply List.map_congr_left
    intro x _
    simp only [Function.comp]
    rw [Real.log_mul hS.ne' (Real.exp_pos _).ne', Real.log_exp]
    ring
  have hne : softmax Real.exp v ≠ [] := by
    simpa [softmax] using hv
  obtain ⟨cd, hcd⟩ := compute_cdf_isSome _ hne
  refine ⟨cd, hcd, ?_⟩
  simp only [log_unnormalized_prob_mass, hm, Option.bind_eq_bind, Option.some_bind, hpm, hlpm,
    hcd, Option.pure_def, List.length_map]

theorem softmax_sum (v : List ℝ) (hv : v ≠ []) : (softmax Real.exp v).sum = 1 := by
  have hS := sum_exp_pos v hv
  have h : softmax Real.exp v = (v.map Real.exp).map (fun y => y * ((v.map Real.exp).sum)⁻¹) := by
    simp [softmax, div_eq_mul_inv]
  rw [h, List.sum_map_mul_right]
  simpa using mul_inv_cancel₀ hS.ne'

theorem cdf_loop_getElem? (ps : List ℝ) : ∀ (prev : ℝ) (i : Nat), i < ps.length →
    (cdf_loop prev ps)[i]? = some (prev + (ps.take (i + 1)).sum) := by
  induction ps with
  | nil => intro prev i hi; simp at hi
  | cons p ps ih =>
    intro prev i hi
    cases i with
    | zero => simp [cdf_loop]
    | succ i =>
      have hi2 : i < ps.length := by simpa using hi
      simp [cdf_loop, ih (prev + p) i hi2, add_assoc]

theorem cdf_loop_length {R : Type} [Add R] (ps : List R) :
    ∀ prev : R, (cdf_loop prev ps).length = ps.length := by
  induction ps with
  | nil => intro prev; rfl
  | cons p ps ih => intro prev; simp [cdf_loop, ih]

/-- The table built by "compute cdf" holds the prefix sums of the weights. -/
theorem compute_cdf_spec (p cd : List ℝ) (h : compute_cdf p = some cd) :
    cd.length = p.length ∧ ∀ i, i < p.length → cd[i]? = some ((p.take (i + 1)).sum) := by
  cases p with
  | nil => simp [compute_cdf] at h
  | cons x xs =>
    simp only [compute_cdf, Option.some.injEq] at h
    subst h
    refine ⟨by simp [cdf_loop_length], ?_⟩
    intro i hi
    cases i with
    | zero => simp
    | succ i =>
      have hi2 : i < xs.length := by simpa using hi
      simp [cdf_loop_getElem? xs x i hi2]

theorem resize_length (xs : List (Option V)) (n : Nat) : (resize xs n).length = n := by
  unfold resize
  split <;> simp [*]

theorem resize_resize (xs : List (Option V)) (n : Nat) : resize (resize xs n) n = resize xs n := by
  have h := resize_length xs n
  rw [resize.eq_1 (resize xs n) n, if_pos h]

/-- What a successful `log_unnormalized_prob_mass` call leaves in the four arrays. -/
theorem log_unnormalized_prob_mass_some (d0 d : DiscreteDistribution ℝ V) (v : List ℝ)
    (h : log_unnormalized_prob_mass Real.exp Real.log d0 v = some d) :
    v ≠ [] ∧ d.prob_mass_ = softmax Real.exp v ∧ d.log_prob_mass_ = log_softmax Real.exp Real.log v ∧
      compute_cdf (softmax Real.exp v) = some d.cumul_distr_ ∧
      d.locations_ = resize d0.locations_ v.length := by
  have hne : v ≠ [] := by
    intro hv
    subst hv
    simp [log_unnormalized_prob_mass, maxCoeff] at h
  obtain ⟨cd, hcd, h2⟩ := log_unnormalized_prob_mass_closed d0 v hne
  rw [h2, Option.some.injEq] at h
  subst h
  exact ⟨hne, rfl, rfl, hcd, rfl⟩

theorem softmax_length (v : List ℝ) : (softmax Real.exp v).length = v.length := by
  simp [softmax]

theorem log_softmax_length (v : List ℝ) :
    (log_softmax Real.exp Real.log v).length = v.length := by
  simp [log_softmax]

/-- Invariant 4 in closed form: the weights are the exponentials of the log-weights. -/
theorem softmax_eq_map_exp_log_softmax (v : List ℝ) (hv : v ≠ []) :
    softmax Real.exp v = (log_softmax Real.exp Real.log v).map Real.exp := by
  have hS := sum_exp_pos v hv
  simp only [softmax, log_softmax, List.map_map]
  apply List.map_congr_left
  intro x _
  simp only [Function.comp]
  rw [Real.exp_sub, Real.exp_log hS]

theorem softmax_shift (u : List ℝ) (c : ℝ) :
    softmax Real.exp (u.map (fun x => x - c)) = softmax Real.exp u := by
  have hsum : ((u.map (fun x => x - c)).map Real.exp).sum
      = (u.map Real.exp).sum * Real.exp (-c) := by
    rw [List.map_map]; exact sum_exp_shift u c
  unfold softmax
  rw [hsum, List.map_map]
  apply List.map_congr_left
  intro x hx
  have hS : 0 < (u.map Real.exp).sum := sum_exp_pos u (List.ne_nil_of_mem hx)
  have := Real.exp_pos (-c)
  simp only [Function.comp]
  rw [sub_eq_add_neg, Real.exp_add]
  field_simp
  ring

theorem log_softmax_shift (u : List ℝ) (c : ℝ) :
    log_softmax Real.exp Real.log (u.map (fun x => x - c)) = log_softmax Real.exp Real.log u := by
  have hsum : ((u.map (fun x => x - c)).map Real.exp).sum
      = (u.map Real.exp).sum * Real.exp (-c) := by
    rw [List.map_map]; exact sum_exp_shift u c
  unfold log_softmax
  rw [hsum, List.map_map]
  apply List.map_congr_left
  intro x hx
  have hS : 0 < (u.map Real.exp).sum := sum_exp_pos u (List.ne_nil_of_mem hx)
  simp only [Function.comp]
  rw [Real.log_mul hS.ne' (Real.exp_pos _).ne', Real.log_exp]
  ring

theorem zipWith_add_shift (w δ : List ℝ) (c : ℝ) :
    List.zipWith (fun a b => a + b) (w.map (fun x => x - c)) δ
      = (List.zipWith (fun a b => a + b) w δ).map (fun x => x - c) := by
  rw [List.zipWith_map_left, List.map_zipWith]
  congr 1
  funext a b
  ring

/-- Two installs agree as soon as the closed forms and the resized location arrays agree. -/
theorem log_unnormalized_prob_mass_congr (a b : DiscreteDistribution ℝ V) (u w : List ℝ)
    (hu : u ≠ []) (hw : w ≠ [])
    (hp : softmax Real.exp u = softmax Real.exp w)
    (hl : log_softmax Real.exp Real.log u = log_softmax Real.exp Real.log w)
    (hloc : resize a.locations_ u.length = resize b.locations_ w.length) :
    log_unnormalized_prob_mass Real.exp Real.log a u
      = log_unnormalized_prob_mass Real.exp Real.log b w := by
  obtain ⟨cd1, hcd1, h1⟩ := log_unnormalized_prob_mass_closed a u hu
  obtain ⟨cd2, hcd2, h2⟩ := log_unnormalized_prob_mass_closed b w hw
  rw [hp, hcd2, Option.some.injEq] at hcd1
  rw [h1, h2, hp, hl, hloc, hcd1]

/-- Softmax of `l + δ` written with the weights `exp l`. -/
theorem softmax_zipWith_add (l δ : List ℝ) :
    softmax Real.exp (List.zipWith (fun a b => a + b) l δ)
      = List.zipWith (fun w e => w * Real.exp e /
          (List.zipWith (fun w e => w * Real.exp e) (l.map Real.exp) δ).sum)
          (l.map Real.exp) δ := by
  have hmap : (List.zipWith (fun a b => a + b) l δ).map Real.exp
      = List.zipWith (fun w e => w * Real.exp e) (l.map Real.exp) δ := by
    rw [List.map_zipWith, List.zipWith_map_left]
    congr 1
    funext a b
    exact Real.exp_add a b
  unfold softmax
  rw [hmap]
  simp only [List.map_zipWith, List.zipWith_map_left, Real.exp_add]

/-! ## Normalisation -/

/-- C1: for every non-empty vector `v` of reals, `log_unnormalized_prob_mass(v)` returns and
the stored masses are the softmax of `v`: at every index `i`,
`prob_mass(i) = exp(v[i]) / sum_j exp(v[j])` and `log_prob_mass(i) = v[i] - log(sum_j exp(v[j]))`
(outside the vector both accessors are out of range); the maximum subtracted internally does
not appear in the result. -/
theorem log_unnormalized_prob_mass_softmax (d : DiscreteDistribution ℝ V) (v : List ℝ)
    (hv : v ≠ []) :
    ∃ d', log_unnormalized_prob_mass Real.exp Real.log d v = some d' ∧
      ∀ i, prob_mass d' i = v[i]?.map (fun x => Real.exp x / (v.map Real.exp).sum) ∧
        log_prob_mass d' i = v[i]?.map (fun x => x - Real.log (v.map Real.exp).sum) := by
  obtain ⟨cd, _, h⟩ := log_unnormalized_prob_mass_closed d v hv
  refine ⟨_, h, fun i => ⟨?_, ?_⟩⟩
  · simp [prob_mass, softmax]
  · simp [log_prob_mass, log_softmax]

/-- Installing the log-weights `[0, 0, log 2]` gives the weights `1/4, 1/4, 1/2`. -/
theorem log_unnormalized_prob_mass_softmax_witness :
    ([0, 0, Real.log 2] : List ℝ) ≠ [] ∧
    ∃ d', log_unnormalized_prob_mass Real.exp Real.log (empty : DiscreteDistribution ℝ Unit)
        [0, 0, Real.log 2] = some d' ∧
      prob_mass d' 0 = some (1 / 4) ∧ prob_mass d' 1 = some (1 / 4) ∧
      prob_mass d' 2 = some (1 / 2) ∧ prob_mass d' 3 = none := by
  refine ⟨by simp, ?_⟩
  obtain ⟨d', h, hi⟩ := log_unnormalized_prob_mass_softmax
    (empty : DiscreteDistribution ℝ Unit) [0, 0, Real.log 2] (by simp)
  have e2 : Real.exp (Real.log 2) = 2 := Real.exp_log (by norm_num)
  refine ⟨d', h, ?_, ?_, ?_, ?_⟩
  · rw [(hi 0).1]; simp [e2]; norm_num
  · rw [(hi 1).1]; simp [e2]; norm_num
  · rw [(hi 2).1]; simp [e2]; norm_num
  · rw [(hi 3).1]; simp

/-- C2: for every input vector of reals of length `N >= 1`, after `log_unnormalized_prob_mass`
the weights sum to 1 and the last cumulative entry `cumul_distr_[N-1]` is 1. -/
theorem log_unnormalized_prob_mass_normalized (d : DiscreteDistribution ℝ V) (v : List ℝ)
    (hv : 1 ≤ v.length) :
    ∃ d', log_unnormalized_prob_mass Real.exp Real.log d v = some d' ∧
      d'.prob_mass_.sum = 1 ∧ d'.cumul_distr_[v.length - 1]? = some 1 := by
  have hne : v ≠ [] := by
    intro h; simp [h] at hv
  obtain ⟨cd, hcd, h⟩ := log_unnormalized_prob_mass_closed d v hne
  have hlen : (softmax Real.exp v).length = v.length := by simp [softmax]
  obtain ⟨_, hget⟩ := compute_cdf_spec _ _ hcd
  refine ⟨_, h, softmax_sum v hne, ?_⟩
  have := hget (v.length - 1) (by omega)
  simp only [this, Option.some.injEq]
  have h1 : v.length - 1 + 1 = (softmax Real.exp v).length := by omega
  rw [h1, List.take_length]
  exact softmax_sum v hne

/-- Three particles with log-weights `[0, 0, log 2]`: the weights sum to 1 and the
cumulative table ends in 1. -/
theorem log_unnormalized_prob_mass_normalized_witness :
    1 ≤ ([0, 0, Real.log 2] : List ℝ).length ∧
    ∃ d', log_unnormalized_prob_mass Real.exp Real.log (empty : DiscreteDistribution ℝ Unit)
        [0, 0, Real.log 2] = some d' ∧
      d'.prob_mass_.sum = 1 ∧ d'.cumul_distr_[2]? = some 1 :=
  ⟨by simp, log_unnormalized_prob_mass_normalized empty [0, 0, Real.log 2] (by simp)⟩

/-! ## Importance-weight update -/

/-- C3: for every population (of size `N >= 1`) and every pair of delta vectors `d1`, `d2` of
its length, `delta_log_prob_mass(d1)` followed by `delta_log_prob_mass(d2)` leaves the same
normalised weights as one `log_unnormalized_prob_mass` call on `log_prob_mass_ + d1 + d2`;
the two final states agree in every member. -/
theorem delta_log_prob_mass_compose (d : DiscreteDistribution ℝ V) (d1 d2 : List ℝ)
    (hN : d.log_prob_mass_ ≠ []) (h1 : d1.length = d.log_prob_mass_.length)
    (h2 : d2.length = d.log_prob_mass_.length) :
    ∃ a b c, delta_log_prob_mass Real.exp Real.log d d1 = some a ∧
      delta_log_prob_mass Real.exp Real.log a d2 = some b ∧
      log_unnormalized_prob_mass Real.exp Real.log d
        (List.zipWith (fun x y => x + y)
          (List.zipWith (fun x y => x + y) d.log_prob_mass_ d1) d2) = some c ∧
      b.prob_mass_ = c.prob_mass_ ∧ b = c := by
  have hn : 0 < d.log_prob_mass_.length := List.length_pos.mpr hN
  have hu1len : (List.zipWith (fun x y => x + y) d.log_prob_mass_ d1).length
      = d.log_prob_mass_.length := by simp [h1]
  have hu1 : List.zipWith (fun x y => x + y) d.log_prob_mass_ d1 ≠ [] := by
    apply List.ne_nil_of_length_pos; omega
  have hu3len : (List.zipWith (fun x y => x + y)
      (List.zipWith (fun x y => x + y) d.log_prob_mass_ d1) d2).length
      = d.log_prob_mass_.length := by simp [h1, h2]
  have hu3 : List.zipWith (fun x y => x + y)
      (List.zipWith (fun x y => x + y) d.log_prob_mass_ d1) d2 ≠ [] := by
    apply List.ne_nil_of_length_pos; omega
  obtain ⟨cd, _, ha⟩ := log_unnormalized_prob_mass_closed d _ hu1
  obtain ⟨cd3, _, hc⟩ := log_unnormalized_prob_mass_closed d _ hu3
  have hlen : (log_softmax Real.exp Real.log
      (List.zipWith (fun x y => x + y) d.log_prob_mass_ d1)).length = d2.length := by
    rw [log_softmax_length, hu1len, h2]
  have hb : delta_log_prob_mass Real.exp Real.log
      { locations_ := resize d.locations_
          (List.zipWith (fun x y => x + y) d.log_prob_mass_ d1).length
        log_prob_mass_ := log_softmax Real.exp Real.log
          (List.zipWith (fun x y => x + y) d.log_prob_mass_ d1)
        prob_mass_ := softmax Real.exp (List.zipWith (fun x y => x + y) d.log_prob_mass_ d1)
        cumul_distr_ := cd } d2
      = log_unnormalized_prob_mass Real.exp Real.log d
          (List.zipWith (fun x y => x + y)
            (List.zipWith (fun x y => x + y) d.log_prob_mass_ d1) d2) := by
    rw [delta_log_prob_mass, if_pos hlen]
    simp only [log_softmax]
    rw [zipWith_add_shift]
    apply log_unnormalized_prob_mass_congr
    · simpa using hu3
    · exact hu3
    · exact softmax_shift _ _
    · exact log_softmax_shift _ _
    · simp only [List.length_map, hu3len, hu1len]
      exact resize_resize _ _
  refine ⟨_, _, _, ?_, hb.trans hc, hc, rfl, rfl⟩
  rw [delta_log_prob_mass, if_pos h1.symm]
  exact ha

/-- Uniform population of three particles, deltas `[0, 0, log 2]` and `[log 2, 0, 0]`. -/
theorem delta_log_prob_mass_compose_witness :
    ∃ a b c, delta_log_prob_mass Real.exp Real.log
        ({ locations_ := [some (), some (), some ()],
           log_prob_mass_ := [-Real.log 3, -Real.log 3, -Real.log 3],
           prob_mass_ := [1 / 3, 1 / 3, 1 / 3],
           cumul_distr_ := [1 / 3, 2 / 3, 1] } : DiscreteDistribution ℝ Unit)
        [0, 0, Real.log 2] = some a ∧
      delta_log_prob_mass Real.exp Real.log a [Real.log 2, 0, 0] = some b ∧
      log_unnormalized_prob_mass Real.exp Real.log
        ({ locations_ := [some (), some (), some ()],
           log_prob_mass_ := [-Real.log 3, -Real.log 3, -Real.log 3],
           prob_mass_ := [1 / 3, 1 / 3, 1 / 3],
           cumul_distr_ := [1 / 3, 2 / 3, 1] } : DiscreteDistribution ℝ Unit)
        (List.zipWith (fun x y => x + y)
          (List.zipWith (fun x y => x + y) [-Real.log 3, -Real.log 3, -Real.log 3]
            [0, 0, Real.log 2])
          [Real.log 2, 0, 0]) = some c ∧
      b.prob_mass_ = c.prob_mass_ ∧ b = c :=
  delta_log_prob_mass_compose _ [0, 0, Real.log 2] [Real.log 2, 0, 0] (by simp) (by simp)
    (by simp)

/-- C4: on a population left by `log_unnormalized_prob_mass`, `delta_log_prob_mass(delta)`
with a delta of the population's length is the importance-weight update of the normalised
weights: the new weight at `i` is `old_weight[i] * exp(delta[i])` divided by
`sum_j old_weight[j] * exp(delta[j])`. -/
theorem delta_log_prob_mass_importance (d0 d : DiscreteDistribution ℝ V) (v delta : List ℝ)
    (hd : log_unnormalized_prob_mass Real.exp Real.log d0 v = some d)
    (hlen : delta.length = d.log_prob_mass_.length) :
    ∃ d', delta_log_prob_mass Real.exp Real.log d delta = some d' ∧
      d'.prob_mass_ = List.zipWith (fun w e => w * Real.exp e /
        (List.zipWith (fun w e => w * Real.exp e) d.prob_mass_ delta).sum) d.prob_mass_ delta := by
  obtain ⟨hv, hp, hl, _, _⟩ := log_unnormalized_prob_mass_some d0 d v hd
  have hinv : d.prob_mass_ = d.log_prob_mass_.map Real.exp := by
    rw [hp, hl]; exact softmax_eq_map_exp_log_softmax v hv
  have hlv : d.log_prob_mass_.length = v.length := by rw [hl, log_softmax_length]
  have hu : List.zipWith (fun a b => a + b) d.log_prob_mass_ delta ≠ [] := by
    apply List.ne_nil_of_length_pos
    have := List.length_pos.mpr hv
    simp only [List.length_zipWith]
    omega
  obtain ⟨cd, _, h⟩ := log_unnormalized_prob_mass_closed d _ hu
  rw [delta_log_prob_mass, if_pos hlen.symm, h]
  refine ⟨_, rfl, ?_⟩
  simp only
  rw [softmax_zipWith_add, hinv]

/-- Weights `1/4, 1/4, 1/2` updated with the delta `[log 2, 0, 0]`. -/
theorem delta_log_prob_mass_importance_witness :
    ∃ d, log_unnormalized_prob_mass Real.exp Real.log (empty : DiscreteDistribution ℝ Unit)
        [0, 0, Real.log 2] = some d ∧
      ∃ d', delta_log_prob_mass Real.exp Real.log d [Real.log 2, 0, 0] = some d' ∧
        d'.prob_mass_ = List.zipWith (fun w e => w * Real.exp e /
          (List.zipWith (fun w e => w * Real.exp e) d.prob_mass_ [Real.log 2, 0, 0]).sum)
          d.prob_mass_ [Real.log 2, 0, 0] := by
  obtain ⟨cd, _, h⟩ := log_unnormalized_prob_mass_closed
    (empty : DiscreteDistribution ℝ Unit) [0, 0, Real.log 2] (by simp)
  exact ⟨_, h, delta_log_prob_mass_importance empty _ [0, 0, Real.log 2] [Real.log 2, 0, 0] h
    (by simp [log_softmax])⟩

/-! ## Uniform population -/

theorem set_uniform_ofNat (d : DiscreteDistribution ℝ V) (N : Nat) :
    set_uniform Real.exp Real.log d (N : Int)
      = log_unnormalized_prob_mass Real.exp Real.log d (List.replicate N 0) := by
  have h1 : ¬ ((N : Int) = -1) := by omega
  have h2 : ¬ ((N : Int) < 0) := by omega
  simp only [set_uniform, if_neg h1, if_neg h2, Int.toNat_ofNat]

theorem softmax_replicate_zero (N : Nat) :
    softmax Real.exp (List.replicate N (0 : ℝ)) = List.replicate N (1 / (N : ℝ)) := by
  simp [softmax]

theorem log_softmax_replicate_zero (N : Nat) :
    log_softmax Real.exp Real.log (List.replicate N (0 : ℝ))
      = List.replicate N (-Real.log (N : ℝ)) := by
  simp [log_softmax]

/-- C5: for every `N >= 1`, `set_uniform(N)` on any population, and construction with size
`N`, return a population with `prob_mass(i) = 1/N` at each of its `N` indices,
`entropy() = log(N)` and `kl_given_uniform() = 0`. -/
theorem set_uniform_uniform (d : DiscreteDistribution ℝ V) (N : Nat) (hN : 1 ≤ N)
    (r : Option (DiscreteDistribution ℝ V))
    (hr : r = set_uniform Real.exp Real.log d (N : Int) ∨ r = new Real.exp Real.log (N : Int)) :
    ∃ d', r = some d' ∧ d'.prob_mass_ = List.replicate N (1 / (N : ℝ)) ∧
      entropy d' = Real.log (N : ℝ) ∧ kl_given_uniform Real.log d' = 0 := by
  have key : ∀ d0 : DiscreteDistribution ℝ V,
      ∃ d', set_uniform Real.exp Real.log d0 (N : Int) = some d' ∧
        d'.prob_mass_ = List.replicate N (1 / (N : ℝ)) ∧
        entropy d' = Real.log (N : ℝ) ∧ kl_given_uniform Real.log d' = 0 := by
    intro d0
    have hne : List.replicate N (0 : ℝ) ≠ [] := by
      apply List.ne_nil_of_length_pos; simp; omega
    have hN0 : (N : ℝ) ≠ 0 := by
      have : 0 < N := hN
      exact_mod_cast this.ne'
    obtain ⟨cd, _, h⟩ := log_unnormalized_prob_mass_closed d0 _ hne
    rw [set_uniform_ofNat, h]
    have hent : entropy
        ({ locations_ := resize d0.locations_ (List.replicate N (0 : ℝ)).length
           log_prob_mass_ := log_softmax Real.exp Real.log (List.replicate N (0 : ℝ))
           prob_mass_ := softmax Real.exp (List.replicate N (0 : ℝ))
           cumul_distr_ := cd } : DiscreteDistribution ℝ V) = Real.log (N : ℝ) := by
      simp only [entropy, softmax_replicate_zero, log_softmax_replicate_zero,
        List.zipWith_replicate, min_self, List.sum_replicate, smul_eq_mul]
      field_simp
    refine ⟨_, rfl, softmax_replicate_zero N, hent, ?_⟩
    rw [kl_given_uniform, hent]
    simp [size, resize_length]
  rcases hr with hr | hr
  · rw [hr]; exact key d
  · rw [hr]; exact key empty

/-- A fresh population of four particles: weights `1/4`, entropy `log 4`, divergence 0. -/
theorem set_uniform_uniform_witness :
    ∃ d', (new Real.exp Real.log 4 : Option (DiscreteDistribution ℝ Unit)) = some d' ∧
      d'.prob_mass_ = List.replicate 4 (1 / ((4 : ℕ) : ℝ)) ∧
      entropy d' = Real.log ((4 : ℕ) : ℝ) ∧ kl_given_uniform Real.log d' = 0 :=
  set_uniform_uniform empty 4 (by decide) _ (Or.inr rfl)

/-! ## Inverse-CDF search -/

theorem scan_cdf_add (u : ℝ) (cs : List ℝ) : ∀ k : Nat,
    scan_cdf u cs k = k + scan_cdf u cs 0 := by
  induction cs with
  | nil => intro k; simp [scan_cdf]
  | cons c cs ih =>
    intro k
    by_cases hc : c ≥ u
    · simp [scan_cdf, hc]
    · simp only [scan_cdf, if_neg hc]
      rw [ih (k + 1), ih (0 + 1)]
      omega

theorem scan_cdf_cons_of_ge (u c : ℝ) (cs : List ℝ) (hc : u ≤ c) :
    scan_cdf u (c :: cs) 0 = 0 := by
  simp [scan_cdf, hc]

theorem scan_cdf_cons_of_lt (u c : ℝ) (cs : List ℝ) (hc : c < u) :
    scan_cdf u (c :: cs) 0 = scan_cdf u cs 0 + 1 := by
  have h : ¬ (c ≥ u) := not_le.mpr hc
  simp only [scan_cdf, if_neg h]
  rw [scan_cdf_add]
  omega

theorem scan_cdf_le_length (u : ℝ) (cs : List ℝ) : scan_cdf u cs 0 ≤ cs.length := by
  induction cs with
  | nil => simp [scan_cdf]
  | cons c cs ih =>
    rcases le_or_lt u c with hc | hc
    · rw [scan_cdf_cons_of_ge u c cs hc]; simp
    · rw [scan_cdf_cons_of_lt u c cs hc]; simp; exact ih

/-- Every entry before the index at which the scan stops is below the sample. -/
theorem scan_cdf_before (u : ℝ) (cs : List ℝ) :
    ∀ j, j < scan_cdf u cs 0 → ∀ c, cs[j]? = some c → c < u := by
  induction cs with
  | nil => intro j hj; simp [scan_cdf] at hj
  | cons x xs ih =>
    intro j hj c hget
    rcases le_or_lt u x with hx | hx
    · rw [scan_cdf_cons_of_ge u x xs hx] at hj; omega
    · rw [scan_cdf_cons_of_lt u x xs hx] at hj
      cases j with
      | zero =>
        simp only [List.getElem?_cons_zero, Option.some.injEq] at hget
        rw [← hget]; exact hx
      | succ j =>
        simp only [List.getElem?_cons_succ] at hget
        exact ih j (by omega) c hget

/-- When the scan stops inside the table, the entry it stops at is at least the sample. -/
theorem scan_cdf_at (u : ℝ) (cs : List ℝ) :
    scan_cdf u cs 0 < cs.length → ∃ c, cs[scan_cdf u cs 0]? = some c ∧ u ≤ c := by
  induction cs with
  | nil => intro h; simp at h
  | cons x xs ih =>
    intro h
    rcases le_or_lt u x with hx | hx
    · rw [scan_cdf_cons_of_ge u x xs hx]; exact ⟨x, by simp, hx⟩
    · rw [scan_cdf_cons_of_lt u x xs hx] at h ⊢
      have h2 : scan_cdf u xs 0 < xs.length := by simpa using h
      simpa using ih h2

/-- The scan stops inside the table as soon as one entry reaches the sample. -/
theorem scan_cdf_lt_length (u : ℝ) (cs : List ℝ) (h : ∃ c ∈ cs, u ≤ c) :
    scan_cdf u cs 0 < cs.length := by
  rcases Nat.lt_or_ge (scan_cdf u cs 0) cs.length with hlt | hge
  · exact hlt
  · exfalso
    obtain ⟨c, hc, huc⟩ := h
    obtain ⟨j, hj, hget⟩ := List.getElem_of_mem hc
    have := scan_cdf_before u cs j (by omega) c (by simp [List.getElem?_eq_getElem hj, hget])
    linarith

/-- The scan passes the whole table when every entry is below the sample. -/
theorem scan_cdf_eq_length (u : ℝ) (cs : List ℝ) (h : ∀ c ∈ cs, c < u) :
    scan_cdf u cs 0 = cs.length := by
  induction cs with
  | nil => simp [scan_cdf]
  | cons x xs ih =>
    rw [scan_cdf_cons_of_lt u x xs (h x (by simp)), ih (fun c hc => h c (by simp [hc]))]
    simp

/-- The index at which the scan stops is the only one with the two defining properties. -/
theorem scan_cdf_eq_iff (u : ℝ) (cs : List ℝ) (i : Nat) (hi : i < cs.length) :
    scan_cdf u cs 0 = i ↔
      (∀ j, j < i → ∀ c, cs[j]? = some c → c < u) ∧ (∀ c, cs[i]? = some c → u ≤ c) := by
  constructor
  · intro h
    subst h
    refine ⟨scan_cdf_before u cs, ?_⟩
    intro c hc
    obtain ⟨c', hc', hu⟩ := scan_cdf_at u cs hi
    rw [hc'] at hc
    simp only [Option.some.injEq] at hc
    rw [← hc]; exact hu
  · rintro ⟨hlt, hge⟩
    have hmem : ∃ c ∈ cs, u ≤ c :=
      ⟨cs[i], List.getElem_mem hi, hge _ (List.getElem?_eq_getElem hi)⟩
    have hs := scan_cdf_lt_length u cs hmem
    obtain ⟨c, hc, hu⟩ := scan_cdf_at u cs hs
    rcases Nat.lt_trichotomy (scan_cdf u cs 0) i with h | h | h
    · have := hlt _ h c hc
      linarith
    · exact h
    · have := scan_cdf_before u cs i h _ (List.getElem?_eq_getElem hi)
      have := hge _ (List.getElem?_eq_getElem hi)
      linarith

/-- C6: for every uniform sample `u` that some cumulative entry reaches,
`map_standard_uniform(u, index)` leaves in `index` the smallest index whose cumulative value
is `>= u` and returns the location slot stored at that index (an element of the array when
the location and cumulative arrays have one size); with `cumulative = [0.25, 0.75, 1.0]` the
samples `0.0`, `0.25`, `0.2500001`, `1.0` give the indices 0, 0, 1, 2. -/
theorem map_standard_uniform_first :
    (∀ (d : DiscreteDistribution ℝ V) (u : ℝ), (∃ c ∈ d.cumul_distr_, c ≥ u) →
      (∃ c, d.cumul_distr_[(map_standard_uniform d u).2]? = some c ∧ c ≥ u) ∧
      (∀ j, j < (map_standard_uniform d u).2 → ∀ c, d.cumul_distr_[j]? = some c → c < u) ∧
      (map_standard_uniform d u).1 = location d (map_standard_uniform d u).2 ∧
      (size d = d.cumul_distr_.length →
        ∃ x, d.locations_[(map_standard_uniform d u).2]? = some x ∧
          (map_standard_uniform d u).1 = some x)) ∧
    (∀ d : DiscreteDistribution ℝ V, d.cumul_distr_ = [0.25, 0.75, 1.0] →
      (map_standard_uniform d 0.0).2 = 0 ∧ (map_standard_uniform d 0.25).2 = 0 ∧
      (map_standard_uniform d 0.2500001).2 = 1 ∧ (map_standard_uniform d 1.0).2 = 2) := by
  constructor
  · intro d u h
    have hlt := scan_cdf_lt_length u d.cumul_distr_ h
    refine ⟨scan_cdf_at u d.cumul_distr_ hlt, scan_cdf_before u d.cumul_distr_, rfl, ?_⟩
    intro hsize
    have hloc : scan_cdf u d.cumul_distr_ 0 < d.locations_.length := by
      rw [size] at hsize; omega
    exact ⟨_, List.getElem?_eq_getElem hloc, List.getElem?_eq_getElem hloc⟩
  · intro d hd
    simp only [map_standard_uniform, hd, scan_cdf]
    norm_num

/-- Locations `-1, 0, 1` with weights `1/4, 1/2, 1/4`: the sample `0.5` selects index 1 and
returns the location `0`, and the four boundary samples select 0, 0, 1, 2. -/
theorem map_standard_uniform_first_witness :
    (map_standard_uniform
      ({ locations_ := [some (-1), some 0, some 1],
         log_prob_mass_ := [Real.log 0.25, Real.log 0.5, Real.log 0.25],
         prob_mass_ := [0.25, 0.5, 0.25], cumul_distr_ := [0.25, 0.75, 1.0] } :
        DiscreteDistribution ℝ ℤ) 0.5 = (some (some 0), 1)) ∧
    (map_standard_uniform
      ({ locations_ := [some (-1), some 0, some 1],
         log_prob_mass_ := [Real.log 0.25, Real.log 0.5, Real.log 0.25],
         prob_mass_ := [0.25, 0.5, 0.25], cumul_distr_ := [0.25, 0.75, 1.0] } :
        DiscreteDistribution ℝ ℤ) 0.2500001).2 = 1 := by
  have hgen := (@map_standard_uniform_first ℤ).1
    ({ locations_ := [some (-1), some 0, some 1],
       log_prob_mass_ := [Real.log 0.25, Real.log 0.5, Real.log 0.25],
       prob_mass_ := [0.25, 0.5, 0.25], cumul_distr_ := [0.25, 0.75, 1.0] } :
      DiscreteDistribution ℝ ℤ) 0.5 ⟨0.75, by simp, by norm_num⟩
  have hcon := (@map_standard_uniform_first ℤ).2
    ({ locations_ := [some (-1), some 0, some 1],
       log_prob_mass_ := [Real.log 0.25, Real.log 0.5, Real.log 0.25],
       prob_mass_ := [0.25, 0.5, 0.25], cumul_distr_ := [0.25, 0.75, 1.0] } :
      DiscreteDistribution ℝ ℤ) rfl
  refine ⟨?_, hcon.2.2.1⟩
  simp only [map_standard_uniform, scan_cdf]
  norm_num

/-- C7 (the code at the claim's example): with `cumulative = [0.25, 0.75, 1.0]` and three
locations, `map_standard_uniform(1.0000001)` leaves `index = 3`, one past the last element,
and the read `locations_[3]` is outside the array; the sample `1.0`, equal to the last
cumulative entry, stops at index 2. -/
theorem map_standard_uniform_past_end :
    map_standard_uniform
      ({ locations_ := [some (-1), some 0, some 1],
         log_prob_mass_ := [Real.log 0.25, Real.log 0.5, Real.log 0.25],
         prob_mass_ := [0.25, 0.5, 0.25], cumul_distr_ := [0.25, 0.75, 1.0] } :
        DiscreteDistribution ℝ ℤ) 1.0000001 = (none, 3) ∧
    map_standard_uniform
      ({ locations_ := [some (-1), some 0, some 1],
         log_prob_mass_ := [Real.log 0.25, Real.log 0.5, Real.log 0.25],
         prob_mass_ := [0.25, 0.5, 0.25], cumul_distr_ := [0.25, 0.75, 1.0] } :
        DiscreteDistribution ℝ ℤ) 1.0 = (some (some 1), 2) := by
  simp only [map_standard_uniform, scan_cdf]
  norm_num

theorem softmax_pos (v : List ℝ) : ∀ x ∈ softmax Real.exp v, 0 < x := by
  intro x hx
  simp only [softmax, List.mem_map] at hx
  obtain ⟨a, ha, rfl⟩ := hx
  exact div_pos (Real.exp_pos a) (sum_exp_pos v (List.ne_nil_of_mem ha))

theorem sum_take_mono (p : List ℝ) (hp : ∀ x ∈ p, 0 ≤ x) :
    ∀ j k, j ≤ k → (p.take j).sum ≤ (p.take k).sum := by
  induction p with
  | nil => intro j k _; simp
  | cons x xs ih =>
    intro j k hjk
    have hxs : ∀ y ∈ xs, 0 ≤ y := fun y hy => hp y (by simp [hy])
    cases j with
    | zero =>
      simp only [List.take_zero, List.sum_nil]
      exact List.sum_nonneg (fun y hy => hp y (List.mem_of_mem_take hy))
    | succ j =>
      cases k with
      | zero => omega
      | succ k =>
        simp only [List.take_succ_cons, List.sum_cons]
        have := ih hxs j k (by omega)
        linarith

/-- C8: on a population left by `log_unnormalized_prob_mass`, for every index `i` the
cumulative entry is `cumulative[i] = sum of prob_mass(0..i)`, and with `lo = cumulative[i-1]`
(`0` for `i = 0`) and `hi = cumulative[i]` the uniform samples `u` in `(0, 1]` sent to index
`i` by `map_standard_uniform` are exactly those with `lo < u <= hi`, an interval of length
`hi - lo = prob_mass(i)`. -/
theorem map_standard_uniform_interval (d0 d : DiscreteDistribution ℝ V) (v : List ℝ)
    (hd : log_unnormalized_prob_mass Real.exp Real.log d0 v = some d)
    (i : Nat) (hi : i < v.length) :
    ∃ lo hi p, (if i = 0 then lo = 0 else d.cumul_distr_[i - 1]? = some lo) ∧
      d.cumul_distr_[i]? = some hi ∧ prob_mass d i = some p ∧
      hi = (d.prob_mass_.take (i + 1)).sum ∧ hi - lo = p ∧
      ∀ u : ℝ, 0 < u → u ≤ 1 → ((map_standard_uniform d u).2 = i ↔ lo < u ∧ u ≤ hi) := by
  obtain ⟨_, hp, _, hcd, _⟩ := log_unnormalized_prob_mass_some d0 d v hd
  rw [← hp] at hcd
  obtain ⟨hclen, hget⟩ := compute_cdf_spec _ _ hcd
  have hplen : d.prob_mass_.length = v.length := by rw [hp, softmax_length]
  have hi2 : i < d.prob_mass_.length := by omega
  have hnonneg : ∀ x ∈ d.prob_mass_, 0 ≤ x := by
    intro x hx
    rw [hp] at hx
    exact (softmax_pos v x hx).le
  have hlo : if i = 0 then (d.prob_mass_.take i).sum = 0
      else d.cumul_distr_[i - 1]? = some (d.prob_mass_.take i).sum := by
    split
    · next h0 => subst h0; simp
    · next h0 =>
      have := hget (i - 1) (by omega)
      have e : i - 1 + 1 = i := by omega
      rwa [e] at this
  refine ⟨(d.prob_mass_.take i).sum, (d.prob_mass_.take (i + 1)).sum, d.prob_mass_[i], hlo,
    hget i hi2, ?_, rfl, ?_, ?_⟩
  · simp [prob_mass, List.getElem?_eq_getElem hi2]
  · rw [List.sum_take_succ _ _ hi2]; ring
  · intro u hu0 _
    have hic : i < d.cumul_distr_.length := by omega
    show scan_cdf u d.cumul_distr_ 0 = i ↔ _
    rw [scan_cdf_eq_iff u d.cumul_distr_ i hic]
    constructor
    · rintro ⟨hbefore, hat⟩
      refine ⟨?_, hat _ (hget i hi2)⟩
      by_cases h0 : i = 0
      · subst h0; simpa using hu0
      · rw [if_neg h0] at hlo
        exact hbefore (i - 1) (by omega) _ hlo
    · rintro ⟨hlu, huh⟩
      constructor
      · intro j hj c hc
        rw [hget j (by omega), Option.some.injEq] at hc
        have := sum_take_mono d.prob_mass_ hnonneg (j + 1) i (by omega)
        linarith
      · intro c hc
        rw [hget i hi2, Option.some.injEq] at hc
        linarith

/-- Log-weights `[0, log 2, 0]`, index 1. -/
theorem map_standard_uniform_interval_witness :
    ∃ d, log_unnormalized_prob_mass Real.exp Real.log (empty : DiscreteDistribution ℝ Unit)
        [0, Real.log 2, 0] = some d ∧
      ∃ lo hi p, (if 1 = 0 then lo = 0 else d.cumul_distr_[1 - 1]? = some lo) ∧
        d.cumul_distr_[1]? = some hi ∧ prob_mass d 1 = some p ∧
        hi = (d.prob_mass_.take (1 + 1)).sum ∧ hi - lo = p ∧
        ∀ u : ℝ, 0 < u → u ≤ 1 → ((map_standard_uniform d u).2 = 1 ↔ lo < u ∧ u ≤ hi) := by
  obtain ⟨cd, _, h⟩ := log_unnormalized_prob_mass_closed
    (empty : DiscreteDistribution ℝ Unit) [0, Real.log 2, 0] (by simp)
  exact ⟨_, h, map_standard_uniform_interval empty _ [0, Real.log 2, 0] h 1 (by simp)⟩

/-! ## Entropy and divergence from uniform -/

theorem log_softmax_eq_map_log_softmax (v : List ℝ) :
    log_softmax Real.exp Real.log v = (softmax Real.exp v).map Real.log := by
  simp only [softmax, log_softmax, List.map_map]
  apply List.map_congr_left
  intro x hx
  have hS := sum_exp_pos v (List.ne_nil_of_mem hx)
  simp only [Function.comp]
  rw [Real.log_div (Real.exp_pos x).ne' hS.ne', Real.log_exp]

/-- Facts about a population left by `log_unnormalized_prob_mass`. -/
theorem log_unnormalized_prob_mass_facts (d0 d : DiscreteDistribution ℝ V) (v : List ℝ)
    (hd : log_unnormalized_prob_mass Real.exp Real.log d0 v = some d) :
    size d = v.length ∧ 0 < v.length ∧ d.prob_mass_.length = v.length ∧
      d.prob_mass_.sum = 1 ∧ (∀ x ∈ d.prob_mass_, 0 < x) ∧
      d.log_prob_mass_ = d.prob_mass_.map Real.log := by
  obtain ⟨hv, hp, hl, _, hloc⟩ := log_unnormalized_prob_mass_some d0 d v hd
  refine ⟨?_, List.length_pos.mpr hv, ?_, ?_, ?_, ?_⟩
  · rw [size, hloc, resize_length]
  · rw [hp, softmax_length]
  · rw [hp]; exact softmax_sum v hv
  · rw [hp]; exact softmax_pos v
  · rw [hl, hp]; exact log_softmax_eq_map_log_softmax v

theorem entropy_eq_of_log (d : DiscreteDistribution ℝ V)
    (hl : d.log_prob_mass_ = d.prob_mass_.map Real.log) :
    entropy d = -(d.prob_mass_.map (fun q => Real.log q * q)).sum := by
  rw [entropy, hl, List.zipWith_map_left]
  congr 2
  induction d.prob_mass_ with
  | nil => rfl
  | cons x xs ih => simp [ih]

/-- The divergence as a sum over the weights, for positive weights summing to 1. -/
theorem kl_sum_form (p : List ℝ) (hsum : p.sum = 1) (hpos : ∀ x ∈ p, 0 < x)
    (hN : 0 < p.length) :
    Real.log (p.length : ℝ) - -(p.map (fun q => Real.log q * q)).sum
      = (p.map (fun q => q * Real.log (q / (1 / (p.length : ℝ))))).sum := by
  have hN0 : (0 : ℝ) < (p.length : ℝ) := by exact_mod_cast hN
  have h1 : p.map (fun q => q * Real.log (q / (1 / (p.length : ℝ))))
      = p.map (fun q => Real.log q * q + q * Real.log (p.length : ℝ)) := by
    apply List.map_congr_left
    intro q hq
    have hq0 := hpos q hq
    rw [div_div_eq_mul_div, div_one, Real.log_mul hq0.ne' hN0.ne']
    ring
  rw [h1, List.sum_map_add, List.sum_map_mul_right, List.map_id', hsum]
  ring

theorem sum_eq_zero_iff_of_nonneg (l : List ℝ) (h : ∀ x ∈ l, 0 ≤ x) :
    l.sum = 0 ↔ ∀ x ∈ l, x = 0 := by
  induction l with
  | nil => simp
  | cons a as ih =>
    have ha : 0 ≤ a := h a (by simp)
    have has : ∀ x ∈ as, 0 ≤ x := fun x hx => h x (by simp [hx])
    have hs : 0 ≤ as.sum := List.sum_nonneg has
    simp only [List.sum_cons, List.mem_cons, forall_eq_or_imp]
    constructor
    · intro hsum
      have ha0 : a = 0 := by linarith
      have hs0 : as.sum = 0 := by linarith
      exact ⟨ha0, (ih has).mp hs0⟩
    · rintro ⟨ha0, hall⟩
      rw [ha0, (ih has).mpr hall]
      ring

/-- One term of the Gibbs inequality: `q log(q/c) - (q - c) >= 0`, zero only at `q = c`. -/
theorem gibbs_term (q c : ℝ) (hq : 0 < q) (hc : 0 < c) :
    0 ≤ q * Real.log (q / c) - (q - c) ∧ (q * Real.log (q / c) - (q - c) = 0 ↔ q = c) := by
  have hlog : Real.log (q / c) = -Real.log (c / q) := by
    rw [Real.log_div hq.ne' hc.ne', Real.log_div hc.ne' hq.ne']; ring
  have hle := Real.log_le_sub_one_of_pos (div_pos hc hq)
  have hmul : q * (c / q - 1) = c - q := by field_simp
  constructor
  · rw [hlog]
    have := mul_le_mul_of_nonneg_left hle hq.le
    rw [hmul] at this
    linarith
  · constructor
    · intro h0
      by_contra hne
      have hne1 : c / q ≠ 1 := by
        intro h1
        rw [div_eq_one_iff_eq hq.ne'] at h1
        exact hne h1.symm
      have hlt := Real.log_lt_sub_one_of_pos (div_pos hc hq) hne1
      have := mul_lt_mul_of_pos_left hlt hq
      rw [hmul] at this
      rw [hlog] at h0
      linarith
    · intro h
      subst h
      simp [div_self hq.ne']

theorem sum_map_sub_shift (p : List ℝ) (f : ℝ → ℝ) (c : ℝ) :
    (p.map (fun q => f q - (q - c))).sum = (p.map f).sum - (p.sum - (p.length : ℝ) * c) := by
  induction p with
  | nil => simp
  | cons x xs ih =>
    simp only [List.map_cons, List.sum_cons, ih, List.length_cons, Nat.cast_add, Nat.cast_one]
    ring

/-- Gibbs inequality for a list of positive weights summing to 1, against the uniform
distribution on as many points. -/
theorem gibbs_uniform (p : List ℝ) (hsum : p.sum = 1) (hpos : ∀ x ∈ p, 0 < x)
    (hN : 0 < p.length) :
    0 ≤ (p.map (fun q => q * Real.log (q / (1 / (p.length : ℝ))))).sum ∧
      ((p.map (fun q => q * Real.log (q / (1 / (p.length : ℝ))))).sum = 0
        ↔ ∀ q ∈ p, q = 1 / (p.length : ℝ)) := by
  have hN0 : (0 : ℝ) < (p.length : ℝ) := by exact_mod_cast hN
  have hc : (0 : ℝ) < 1 / (p.length : ℝ) := by positivity
  have hshift := sum_map_sub_shift p (fun q => q * Real.log (q / (1 / (p.length : ℝ))))
    (1 / (p.length : ℝ))
  have hz : p.sum - (p.length : ℝ) * (1 / (p.length : ℝ)) = 0 := by
    rw [hsum]; field_simp
  rw [hz, sub_zero] at hshift
  rw [← hshift]
  have hnonneg : ∀ x ∈ p.map (fun q => q * Real.log (q / (1 / (p.length : ℝ)))
      - (q - 1 / (p.length : ℝ))), 0 ≤ x := by
    intro x hx
    obtain ⟨q, hq, rfl⟩ := List.mem_map.mp hx
    exact (gibbs_term q _ (hpos q hq) hc).1
  refine ⟨List.sum_nonneg hnonneg, ?_⟩
  rw [sum_eq_zero_iff_of_nonneg _ hnonneg]
  constructor
  · intro h q hq
    exact (gibbs_term q _ (hpos q hq) hc).2.mp (h _ (List.mem_map.mpr ⟨q, hq, rfl⟩))
  · intro h x hx
    obtain ⟨q, hq, rfl⟩ := List.mem_map.mp hx
    exact (gibbs_term q _ (hpos q hq) hc).2.mpr (h q hq)

/-- Every entry of a list is `c` exactly when the list reads `c` at each of its indices. -/
theorem forall_mem_iff_forall_index (p : List ℝ) (c : ℝ) (n : Nat) (hn : p.length = n) :
    (∀ q ∈ p, q = c) ↔ ∀ i, i < n → p[i]? = some c := by
  subst hn
  constructor
  · intro h i hi
    rw [List.getElem?_eq_getElem hi, h _ (List.getElem_mem hi)]
  · intro h q hq
    obtain ⟨i, hi, rfl⟩ := List.getElem_of_mem hq
    have := h i hi
    rw [List.getElem?_eq_getElem hi, Option.some.injEq] at this
    exact this

/-- The value of `kl_given_uniform` on a population left by `log_unnormalized_prob_mass`. -/
theorem kl_given_uniform_eq_sum (d0 d : DiscreteDistribution ℝ V) (v : List ℝ)
    (hd : log_unnormalized_prob_mass Real.exp Real.log d0 v = some d) :
    kl_given_uniform Real.log d
      = (d.prob_mass_.map (fun q => q * Real.log (q / (1 / (d.prob_mass_.length : ℝ))))).sum := by
  obtain ⟨hsize, hN, hplen, hsum, hpos, hlog⟩ := log_unnormalized_prob_mass_facts d0 d v hd
  rw [kl_given_uniform, entropy_eq_of_log d hlog, hsize, ← hplen]
  exact kl_sum_form d.prob_mass_ hsum hpos (by omega)

/-- C9: on a population left by `log_unnormalized_prob_mass` (non-empty real input),
`kl_given_uniform() = 0` exactly when `prob_mass(i) = 1/N` at every index `i < N`, and the
value is strictly positive otherwise. -/
theorem kl_given_uniform_zero_iff (d0 d : DiscreteDistribution ℝ V) (v : List ℝ)
    (hd : log_unnormalized_prob_mass Real.exp Real.log d0 v = some d) :
    (kl_given_uniform Real.log d = 0 ↔
      ∀ i, i < size d → prob_mass d i = some (1 / (size d : ℝ))) ∧
    (¬ (∀ i, i < size d → prob_mass d i = some (1 / (size d : ℝ))) →
      0 < kl_given_uniform Real.log d) := by
  obtain ⟨hsize, hN, hplen, hsum, hpos, _⟩ := log_unnormalized_prob_mass_facts d0 d v hd
  have hkl := kl_given_uniform_eq_sum d0 d v hd
  obtain ⟨hge, hiff⟩ := gibbs_uniform d.prob_mass_ hsum hpos (by omega)
  have hidx := forall_mem_iff_forall_index d.prob_mass_ (1 / (d.prob_mass_.length : ℝ))
    (size d) (by omega)
  have hsl : size d = d.prob_mass_.length := by omega
  rw [← hkl] at hge hiff
  have hmain : kl_given_uniform Real.log d = 0 ↔
      ∀ i, i < size d → prob_mass d i = some (1 / (size d : ℝ)) := by
    rw [hiff, hidx, hsl]
    rfl
  refine ⟨hmain, ?_⟩
  intro hnot
  rcases hge.lt_or_eq with hlt | heq
  · exact hlt
  · exact absurd (hmain.mp heq.symm) hnot

/-- Log-weights `[0, 0, log 2]`: the weights are not uniform and the divergence is positive. -/
theorem kl_given_uniform_zero_iff_witness :
    ∃ d, log_unnormalized_prob_mass Real.exp Real.log (empty : DiscreteDistribution ℝ Unit)
        [0, 0, Real.log 2] = some d ∧ 0 < kl_given_uniform Real.log d := by
  obtain ⟨cd, _, h⟩ := log_unnormalized_prob_mass_closed
    (empty : DiscreteDistribution ℝ Unit) [0, 0, Real.log 2] (by simp)
  obtain ⟨hsize, _⟩ := log_unnormalized_prob_mass_facts _ _ _ h
  refine ⟨_, h, (kl_given_uniform_zero_iff empty _ _ h).2 ?_⟩
  intro hall
  have h2 := hall 2 (by rw [hsize]; simp)
  rw [hsize] at h2
  have e2 : Real.exp (Real.log 2) = 2 := Real.exp_log (by norm_num)
  simp [prob_mass, softmax, e2] at h2
  norm_num at h2

/-- C10: on a population left by `log_unnormalized_prob_mass` (normalised, size `N`),
`kl_given_uniform() = log(N) - entropy()` with
`entropy() = -sum_i log_prob_mass(i) * prob_mass(i)`, and this value is the KL divergence
from the uniform distribution on the `N` points, `sum_i prob_mass(i) * log(prob_mass(i) / (1/N))`. -/
theorem kl_given_uniform_divergence (d0 d : DiscreteDistribution ℝ V) (v : List ℝ)
    (hd : log_unnormalized_prob_mass Real.exp Real.log d0 v = some d) :
    kl_given_uniform Real.log d = Real.log (size d : ℝ) - entropy d ∧
    entropy d = -(List.zipWith (fun l p => l * p) d.log_prob_mass_ d.prob_mass_).sum ∧
    kl_given_uniform Real.log d
      = (d.prob_mass_.map (fun p => p * Real.log (p / (1 / (size d : ℝ))))).sum := by
  obtain ⟨hsize, _, hplen, _, _, _⟩ := log_unnormalized_prob_mass_facts d0 d v hd
  refine ⟨rfl, rfl, ?_⟩
  rw [kl_given_uniform_eq_sum d0 d v hd, hplen, hsize]

/-- Log-weights `[0, 0, log 2]`. -/
theorem kl_given_uniform_divergence_witness :
    ∃ d, log_unnormalized_prob_mass Real.exp Real.log (empty : DiscreteDistribution ℝ Unit)
        [0, 0, Real.log 2] = some d ∧
      kl_given_uniform Real.log d = Real.log (size d : ℝ) - entropy d ∧
      entropy d = -(List.zipWith (fun l p => l * p) d.log_prob_mass_ d.prob_mass_).sum ∧
      kl_given_uniform Real.log d
        = (d.prob_mass_.map (fun p => p * Real.log (p / (1 / (size d : ℝ))))).sum := by
  obtain ⟨cd, _, h⟩ := log_unnormalized_prob_mass_closed
    (empty : DiscreteDistribution ℝ Unit) [0, 0, Real.log 2] (by simp)
  exact ⟨_, h, kl_given_uniform_divergence empty _ [0, 0, Real.log 2] h⟩

/-! ## Invariants of the reachable states -/

theorem delta_log_prob_mass_some (d d1 : DiscreteDistribution ℝ V) (delta : List ℝ)
    (h : delta_log_prob_mass Real.exp Real.log d delta = some d1) :
    d.log_prob_mass_.length = delta.length ∧
      log_unnormalized_prob_mass Real.exp Real.log d
        (List.zipWith (fun a b => a + b) d.log_prob_mass_ delta) = some d1 := by
  unfold delta_log_prob_mass at h
  by_cases hlen : d.log_prob_mass_.length = delta.length
  · rw [if_pos hlen] at h; exact ⟨hlen, h⟩
  · rw [if_neg hlen] at h; exact absurd h (by simp)

theorem set_uniform_some (d d1 : DiscreteDistribution ℝ V) (new_size : Int)
    (h : set_uniform Real.exp Real.log d new_size = some d1) :
    0 ≤ (if new_size = -1 then (size d : Int) else new_size) ∧
      log_unnormalized_prob_mass Real.exp Real.log d
        (List.replicate (if new_size = -1 then (size d : Int) else new_size).toNat 0)
        = some d1 := by
  simp only [set_uniform] at h
  by_cases hneg : (if new_size = -1 then (size d : Int) else new_size) < 0
  · rw [if_pos hneg] at h; exact absurd h (by simp)
  · rw [if_neg hneg] at h; exact ⟨not_lt.mp hneg, h⟩

theorem sample_loop_length {S : Type} (sample : S → Option (V × S)) :
    ∀ (k : Nat) (s s1 : S) (xs : List (Option V)),
      sample_loop sample k s = some (xs, s1) → xs.length = k := by
  intro k
  induction k with
  | zero =>
    intro s s1 xs h
    simp only [sample_loop, Option.some.injEq, Prod.mk.injEq] at h
    rw [← h.1]; rfl
  | succ k ih =>
    intro s s1 xs h
    simp only [sample_loop, Option.bind_eq_bind, Option.bind_eq_some, Option.pure_def,
      Option.some.injEq, Prod.mk.injEq] at h
    obtain ⟨⟨x, s2⟩, _, ⟨ys, s3⟩, hrec, hxs, _⟩ := h
    rw [← hxs, List.length_cons, ih s2 s3 ys hrec]

theorem from_distribution_some {S : Type} (sample : S → Option (V × S)) (s s1 : S)
    (d d1 : DiscreteDistribution ℝ V) (new_size : Int)
    (h : from_distribution Real.exp Real.log sample s d new_size = some (d1, s1)) :
    0 ≤ new_size ∧ ∃ d2 : DiscreteDistribution ℝ V,
      set_uniform Real.exp Real.log d new_size = some d2 ∧
      d1.log_prob_mass_ = d2.log_prob_mass_ ∧ d1.prob_mass_ = d2.prob_mass_ ∧
      d1.cumul_distr_ = d2.cumul_distr_ ∧ d1.locations_.length = new_size.toNat ∧
      sample_loop sample new_size.toNat s = some (d1.locations_, s1) := by
  unfold from_distribution at h
  by_cases hneg : new_size < 0
  · rw [if_pos hneg] at h; exact absurd h (by simp)
  · rw [if_neg hneg] at h
    simp only [Option.bind_eq_bind, Option.bind_eq_some, Option.pure_def, Option.some.injEq,
      Prod.mk.injEq] at h
    obtain ⟨⟨locs, s2⟩, hloop, d2, hu, hd1, hs⟩ := h
    subst hd1
    subst hs
    exact ⟨not_lt.mp hneg, d2, hu, rfl, rfl, rfl, sample_loop_length sample _ _ _ _ hloop, hloop⟩

theorem set_location_some (d d1 : DiscreteDistribution ℝ V) (i : Nat) (x : V)
    (h : set_location d i x = some d1) :
    i < d.locations_.length ∧ d1.locations_ = d.locations_.set i (some x) ∧
      d1.log_prob_mass_ = d.log_prob_mass_ ∧ d1.prob_mass_ = d.prob_mass_ ∧
      d1.cumul_distr_ = d.cumul_distr_ := by
  unfold set_location at h
  by_cases hi : i < d.locations_.length
  · rw [if_pos hi, Option.some.injEq] at h
    subst h
    exact ⟨hi, rfl, rfl, rfl, rfl⟩
  · rw [if_neg hi] at h; exact absurd h (by simp)

/-- In every reachable state the three weight arrays are the closed forms of one non-empty
vector `v`, and the location array has the length of `v`. -/
theorem reachable_weights (d : DiscreteDistribution ℝ V) (h : Reachable d) :
    ∃ v : List ℝ, v ≠ [] ∧ d.prob_mass_ = softmax Real.exp v ∧
      d.log_prob_mass_ = log_softmax Real.exp Real.log v ∧
      compute_cdf (softmax Real.exp v) = some d.cumul_distr_ ∧
      d.locations_.length = v.length := by
  have install : ∀ (d0 d1 : DiscreteDistribution ℝ V) (v : List ℝ),
      log_unnormalized_prob_mass Real.exp Real.log d0 v = some d1 →
      ∃ v : List ℝ, v ≠ [] ∧ d1.prob_mass_ = softmax Real.exp v ∧
        d1.log_prob_mass_ = log_softmax Real.exp Real.log v ∧
        compute_cdf (softmax Real.exp v) = some d1.cumul_distr_ ∧
        d1.locations_.length = v.length := by
    intro d0 d1 v hv
    obtain ⟨hne, hp, hl, hcd, hloc⟩ := log_unnormalized_prob_mass_some d0 d1 v hv
    exact ⟨v, hne, hp, hl, hcd, by rw [hloc, resize_length]⟩
  induction h with
  | construct size d hd => exact install _ _ _ (set_uniform_some _ _ _ hd).2
  | install d d1 v _ hd _ => exact install _ _ _ hd
  | delta d d1 dl _ hd _ => exact install _ _ _ (delta_log_prob_mass_some _ _ _ hd).2
  | uniform d d1 n _ hd _ => exact install _ _ _ (set_uniform_some _ _ _ hd).2
  | resample S sample s s1 d d1 n _ hd _ =>
    obtain ⟨hn, d2, hu, hl, hp, hc, hlen, _⟩ := from_distribution_some sample s s1 d d1 n hd
    have hu2 := (set_uniform_some _ _ _ hu).2
    have hn1 : ¬ (n = -1) := by omega
    rw [if_neg hn1] at hu2
    obtain ⟨v, hne, hp2, hl2, hcd2, _⟩ := install _ _ _ hu2
    obtain ⟨_, _, hl3, _, _⟩ := log_unnormalized_prob_mass_some _ _ _ hu2
    have hvlen : v.length = n.toNat := by
      have h1 : d2.log_prob_mass_.length = v.length := by rw [hl2, log_softmax_length]
      have h2 : d2.log_prob_mass_.length = n.toNat := by
        rw [hl3, log_softmax_length, List.length_replicate]
      omega
    exact ⟨v, hne, by rw [hp, hp2], by rw [hl, hl2], by rw [hc, hcd2], by rw [hlen, hvlen]⟩
  | write d d1 i x _ hd ih =>
    obtain ⟨_, hloc, hl, hp, hc⟩ := set_location_some d d1 i x hd
    obtain ⟨v, hne, hp2, hl2, hcd2, hlen⟩ := ih
    exact ⟨v, hne, by rw [hp, hp2], by rw [hl, hl2], by rw [hc, hcd2],
      by rw [hloc, List.length_set, hlen]⟩

/-- A population constructed with a size `N >= 1` exists and is reachable. -/
theorem reachable_new (N : Nat) (hN : 1 ≤ N) :
    ∃ d : DiscreteDistribution ℝ V, new Real.exp Real.log (N : Int) = some d ∧ Reachable d := by
  have hne : List.replicate N (0 : ℝ) ≠ [] := by
    apply List.ne_nil_of_length_pos; simp; omega
  obtain ⟨cd, _, h⟩ := log_unnormalized_prob_mass_closed (empty : DiscreteDistribution ℝ V) _ hne
  have hnew : (new Real.exp Real.log (N : Int) : Option (DiscreteDistribution ℝ V))
      = log_unnormalized_prob_mass Real.exp Real.log empty (List.replicate N 0) := by
    rw [new, set_uniform_ofNat]
  rw [← hnew] at h
  exact ⟨_, h, Reachable.construct _ _ h⟩

/-- C16: in every state reached by construction, `log_unnormalized_prob_mass`,
`delta_log_prob_mass`, `set_uniform`, `from_distribution` (and writes through `location(i)`),
the cumulative table is non-decreasing: `cumulative[i] <= cumulative[i+1]` whenever both
entries exist. -/
theorem reachable_cumul_nondecreasing (d : DiscreteDistribution ℝ V) (h : Reachable d) :
    ∀ i x y, d.cumul_distr_[i]? = some x → d.cumul_distr_[i + 1]? = some y → x ≤ y := by
  obtain ⟨v, _, _, _, hcd, _⟩ := reachable_weights d h
  obtain ⟨hlen, hget⟩ := compute_cdf_spec _ _ hcd
  intro i x y hx hy
  have hi : i + 1 < d.cumul_distr_.length := by
    by_contra hnot
    rw [List.getElem?_eq_none (by omega)] at hy
    exact absurd hy (by simp)
  rw [hget i (by omega), Option.some.injEq] at hx
  rw [hget (i + 1) (by omega), Option.some.injEq] at hy
  rw [← hx, ← hy]
  exact sum_take_mono _ (fun q hq => (softmax_pos v q hq).le) _ _ (by omega)

/-- A population constructed with three particles has a non-decreasing cumulative table. -/
theorem reachable_cumul_nondecreasing_witness :
    ∃ d : DiscreteDistribution ℝ Unit, new Real.exp Real.log (3 : ℕ) = some d ∧
      ∀ i x y, d.cumul_distr_[i]? = some x → d.cumul_distr_[i + 1]? = some y → x ≤ y := by
  obtain ⟨d, hd, hr⟩ := @reachable_new Unit 3 (by decide)
  exact ⟨d, hd, reachable_cumul_nondecreasing d hr⟩

/-- C17: in every state reached by construction, `log_unnormalized_prob_mass`,
`delta_log_prob_mass`, `set_uniform`, `from_distribution` and writes through `location(i)`,
`prob_mass(i) = exp(log_prob_mass(i))` at every index `i` (both accessors are out of range
together). -/
theorem reachable_prob_mass_exp (d : DiscreteDistribution ℝ V) (h : Reachable d) :
    ∀ i, prob_mass d i = (log_prob_mass d i).map Real.exp := by
  obtain ⟨v, hne, hp, hl, _, _⟩ := reachable_weights d h
  intro i
  rw [prob_mass, log_prob_mass, hp, hl, softmax_eq_map_exp_log_softmax v hne, List.getElem?_map]

/-- A population constructed with three particles, at every index. -/
theorem reachable_prob_mass_exp_witness :
    ∃ d : DiscreteDistribution ℝ Unit, new Real.exp Real.log (3 : ℕ) = some d ∧
      ∀ i, prob_mass d i = (log_prob_mass d i).map Real.exp := by
  obtain ⟨d, hd, hr⟩ := @reachable_new Unit 3 (by decide)
  exact ⟨d, hd, reachable_prob_mass_exp d hr⟩

theorem log_unnormalized_prob_mass_has_size (d d1 : DiscreteDistribution ℝ V) (v : List ℝ)
    (h : log_unnormalized_prob_mass Real.exp Real.log d v = some d1) : has_size d1 v.length := by
  obtain ⟨_, hp, hl, hcd, hloc⟩ := log_unnormalized_prob_mass_some d d1 v h
  obtain ⟨hclen, _⟩ := compute_cdf_spec _ _ hcd
  refine ⟨?_, ?_, ?_, ?_, ?_⟩
  · rw [hloc, resize_length]
  · rw [hl, log_softmax_length]
  · rw [hp, softmax_length]
  · rw [hclen, softmax_length]
  · rw [size, hloc, resize_length]

/-- C18: after each of `log_unnormalized_prob_mass(v)`, `delta_log_prob_mass(delta)`,
`set_uniform(n)`, construction with size `n` and `from_distribution(distribution, n)` the
arrays `locations_`, `log_prob_mass_`, `prob_mass_` and `cumul_distr_` have one common
length, the length `N` of the installed vector (the length of `v`, of `delta`, `n`, or the
previous `size()` for `set_uniform(-1)`), and `size()` returns `N`. -/
theorem mutation_has_size (d d1 : DiscreteDistribution ℝ V) :
    (∀ v : List ℝ, log_unnormalized_prob_mass Real.exp Real.log d v = some d1 →
      has_size d1 v.length) ∧
    (∀ delta : List ℝ, delta_log_prob_mass Real.exp Real.log d delta = some d1 →
      has_size d1 delta.length) ∧
    (∀ n : Int, set_uniform Real.exp Real.log d n = some d1 →
      has_size d1 (if n = -1 then size d else n.toNat)) ∧
    (∀ n : Int, new Real.exp Real.log n = some d1 → has_size d1 n.toNat) ∧
    (∀ (S : Type) (sample : S → Option (V × S)) (s s1 : S) (n : Int),
      from_distribution Real.exp Real.log sample s d n = some (d1, s1) →
      has_size d1 n.toNat) := by
  have hset : ∀ (d0 d2 : DiscreteDistribution ℝ V) (n : Int),
      set_uniform Real.exp Real.log d0 n = some d2 →
      has_size d2 (if n = -1 then size d0 else n.toNat) := by
    intro d0 d2 n h
    have h2 := log_unnormalized_prob_mass_has_size _ _ _ (set_uniform_some _ _ _ h).2
    rw [List.length_replicate] at h2
    by_cases hn : n = -1
    · simpa [hn] using h2
    · simpa [hn] using h2
  refine ⟨?_, ?_, ?_, ?_, ?_⟩
  · intro v h
    exact log_unnormalized_prob_mass_has_size d d1 v h
  · intro delta h
    obtain ⟨hlen, h2⟩ := delta_log_prob_mass_some d d1 delta h
    have := log_unnormalized_prob_mass_has_size _ _ _ h2
    simpa [hlen] using this
  · intro n h
    exact hset d d1 n h
  · intro n h
    have h2 := hset empty d1 n h
    by_cases hn : n = -1
    · simpa [hn, size, empty] using h2
    · simpa [hn] using h2
  · intro S sample s s1 n h
    obtain ⟨hn, d2, hu, hl, hp, hc, hlen, _⟩ := from_distribution_some sample s s1 d d1 n h
    have hn1 : ¬ (n = -1) := by omega
    have h2 := hset d d2 n hu
    rw [if_neg hn1] at h2
    obtain ⟨_, h2l, h2p, h2c, _⟩ := h2
    exact ⟨hlen, by rw [hl, h2l], by rw [hp, h2p], by rw [hc, h2c], by rw [size, hlen]⟩

/-- Construction with size 3: all four arrays have length 3 and `size()` is 3. -/
theorem mutation_has_size_witness :
    ∃ d : DiscreteDistribution ℝ Unit, new Real.exp Real.log (3 : ℕ) = some d ∧
      has_size d 3 := by
  obtain ⟨d, hd, _⟩ := @reachable_new Unit 3 (by decide)
  exact ⟨d, hd, (mutation_has_size empty d).2.2.2.1 _ hd⟩

/-! ## Moments -/

theorem mean_loop_spec {n : Nat} (d : DiscreteDistribution ℝ (Fin n → ℝ)) :
    ∀ (xs : List (Fin n → ℝ)) (i : Nat) (acc : Fin n → ℝ),
      i + xs.length ≤ d.prob_mass_.length →
      mean_loop d (xs.map some) i acc
        = some (fun j => acc j
            + (List.zipWith (fun w x => w * x j) (d.prob_mass_.drop i) xs).sum) := by
  intro xs
  induction xs with
  | nil => intro i acc _; simp [mean_loop]
  | cons x xs ih =>
    intro i acc hlen
    have hi : i < d.prob_mass_.length := by
      simp only [List.length_cons] at hlen; omega
    have hlen2 : i + 1 + xs.length ≤ d.prob_mass_.length := by
      simp only [List.length_cons] at hlen; omega
    have hp : prob_mass d i = some d.prob_mass_[i] := by
      simp [prob_mass, List.getElem?_eq_getElem hi]
    simp only [List.map_cons, mean_loop, hp, Option.bind_eq_bind, Option.some_bind]
    rw [ih (i + 1) _ hlen2, List.drop_eq_getElem_cons hi]
    simp only [List.zipWith_cons_cons, List.sum_cons, add_assoc]

theorem mean_eq_sum {n : Nat} (d : DiscreteDistribution ℝ (Fin n → ℝ))
    (xs : List (Fin n → ℝ)) (hx : xs ≠ []) (hloc : d.locations_ = xs.map some)
    (hlen : d.prob_mass_.length = xs.length) :
    mean d = some (fun j => (List.zipWith (fun w x => w * x j) d.prob_mass_ xs).sum) := by
  have hdim : dimension d = some n := by
    cases xs with
    | nil => exact absurd rfl hx
    | cons x xs => simp [dimension, hloc]
  simp only [mean, hdim, Option.bind_eq_bind, Option.some_bind]
  rw [hloc, mean_loop_spec d xs 0 _ (by omega)]
  simp

/-- C13: for every non-empty population (every location written, as many weights as
locations), `mean()` returns `sum_i prob_mass(i) * location(i)`, a function of the weights and
locations of the state it is called on; the locations `-1, 0, 1` give the mean `0` under
uniform weights and `0.25` under the weights `[0.25, 0.25, 0.5]`. -/
theorem mean_weighted_sum {n : Nat} :
    (∀ (d : DiscreteDistribution ℝ (Fin n → ℝ)) (xs : List (Fin n → ℝ)), xs ≠ [] →
      d.locations_ = xs.map some → d.prob_mass_.length = xs.length →
      mean d = some (fun j => (List.zipWith (fun w x => w * x j) d.prob_mass_ xs).sum)) ∧
    (∀ d : DiscreteDistribution ℝ (Fin 1 → ℝ),
      d.locations_ = [some (fun _ => -1), some (fun _ => 0), some (fun _ => 1)] →
      (d.prob_mass_ = [1 / 3, 1 / 3, 1 / 3] → mean d = some (fun _ => 0)) ∧
      (d.prob_mass_ = [0.25, 0.25, 0.5] → mean d = some (fun _ => 0.25))) := by
  refine ⟨fun d xs hx hloc hlen => mean_eq_sum d xs hx hloc hlen, ?_⟩
  intro d hloc
  have hloc2 : d.locations_
      = ([fun _ => -1, fun _ => 0, fun _ => 1] : List (Fin 1 → ℝ)).map some := by
    rw [hloc]; rfl
  constructor
  · intro hp
    rw [mean_eq_sum d _ (by simp) hloc2 (by simp [hp]), hp]
    congr 1
    funext j
    simp
  · intro hp
    rw [mean_eq_sum d _ (by simp) hloc2 (by simp [hp]), hp]
    congr 1
    funext j
    simp
    norm_num

/-- Two-dimensional locations `(1, 0)` and `(0, 1)` with weights `1/4, 3/4`: the mean is
`(1/4, 3/4)`; and the scalar example under uniform weights. -/
theorem mean_weighted_sum_witness :
    mean ({ locations_ := [some ![1, 0], some ![0, 1]],
            log_prob_mass_ := [Real.log (1 / 4), Real.log (3 / 4)],
            prob_mass_ := [1 / 4, 3 / 4], cumul_distr_ := [1 / 4, 1] } :
          DiscreteDistribution ℝ (Fin 2 → ℝ))
      = some (fun j => (List.zipWith (fun w (x : Fin 2 → ℝ) => w * x j)
          [1 / 4, 3 / 4] [![1, 0], ![0, 1]]).sum) ∧
    mean ({ locations_ := [some (fun _ => -1), some (fun _ => 0), some (fun _ => 1)],
            log_prob_mass_ := [-Real.log 3, -Real.log 3, -Real.log 3],
            prob_mass_ := [1 / 3, 1 / 3, 1 / 3], cumul_distr_ := [1 / 3, 2 / 3, 1] } :
          DiscreteDistribution ℝ (Fin 1 → ℝ)) = some (fun _ => 0) :=
  ⟨(@mean_weighted_sum 2).1 _ [![1, 0], ![0, 1]] (by simp) rfl rfl,
   ((@mean_weighted_sum 1).2 _ rfl).1 rfl⟩

theorem covariance_loop_spec {n : Nat} (d : DiscreteDistribution ℝ (Fin n → ℝ))
    (mu : Fin n → ℝ) :
    ∀ (xs : List (Fin n → ℝ)) (i : Nat) (acc : Fin n → Fin n → ℝ),
      i + xs.length ≤ d.prob_mass_.length →
      covariance_loop d mu (xs.map some) i acc
        = some (fun a b => acc a b
            + (List.zipWith (fun w x => w * (x a - mu a) * (x b - mu b))
                (d.prob_mass_.drop i) xs).sum) := by
  intro xs
  induction xs with
  | nil => intro i acc _; simp [covariance_loop]
  | cons x xs ih =>
    intro i acc hlen
    have hi : i < d.prob_mass_.length := by
      simp only [List.length_cons] at hlen; omega
    have hlen2 : i + 1 + xs.length ≤ d.prob_mass_.length := by
      simp only [List.length_cons] at hlen; omega
    have hp : prob_mass d i = some d.prob_mass_[i] := by
      simp [prob_mass, List.getElem?_eq_getElem hi]
    simp only [List.map_cons, covariance_loop, hp, Option.bind_eq_bind, Option.some_bind]
    rw [ih (i + 1) _ hlen2, List.drop_eq_getElem_cons hi]
    simp only [List.zipWith_cons_cons, List.sum_cons, add_assoc]

theorem covariance_eq_sum {n : Nat} (d : DiscreteDistribution ℝ (Fin n → ℝ))
    (xs : List (Fin n → ℝ)) (hx : xs ≠ []) (hloc : d.locations_ = xs.map some)
    (hlen : d.prob_mass_.length = xs.length) :
    ∃ m, mean d = some m ∧
      covariance d = some (fun a b =>
        (List.zipWith (fun w x => w * (x a - m a) * (x b - m b)) d.prob_mass_ xs).sum) := by
  have hdim : dimension d = some n := by
    cases xs with
    | nil => exact absurd rfl hx
    | cons x xs => simp [dimension, hloc]
  have hmean := mean_eq_sum d xs hx hloc hlen
  refine ⟨_, hmean, ?_⟩
  simp only [covariance, hmean, hdim, Option.bind_eq_bind, Option.some_bind]
  rw [hloc, covariance_loop_spec d _ xs 0 _ (by omega)]
  simp

/-- C14: for every non-empty population (every location written, as many weights as
locations), `covariance()` returns `sum_i prob_mass(i) * (location(i) - m)(location(i) - m)^T`
with `m` the value `mean()` returns on the same state; the scalar locations `-1, 0, 1` with
uniform weights give the covariance `2/3`. -/
theorem covariance_weighted_sum {n : Nat} :
    (∀ (d : DiscreteDistribution ℝ (Fin n → ℝ)) (xs : List (Fin n → ℝ)), xs ≠ [] →
      d.locations_ = xs.map some → d.prob_mass_.length = xs.length →
      ∃ m, mean d = some m ∧
        covariance d = some (fun a b =>
          (List.zipWith (fun w x => w * (x a - m a) * (x b - m b)) d.prob_mass_ xs).sum)) ∧
    (∀ d : DiscreteDistribution ℝ (Fin 1 → ℝ),
      d.locations_ = [some (fun _ => -1), some (fun _ => 0), some (fun _ => 1)] →
      d.prob_mass_ = [1 / 3, 1 / 3, 1 / 3] → covariance d = some (fun _ _ => 2 / 3)) := by
  refine ⟨fun d xs hx hloc hlen => covariance_eq_sum d xs hx hloc hlen, ?_⟩
  intro d hloc hp
  have hloc2 : d.locations_
      = ([fun _ => -1, fun _ => 0, fun _ => 1] : List (Fin 1 → ℝ)).map some := by
    rw [hloc]; rfl
  obtain ⟨m, hm, hcov⟩ := covariance_eq_sum d _ (by simp) hloc2 (by simp [hp])
  have hm0 : m = fun _ => 0 := by
    rw [mean_eq_sum d _ (by simp) hloc2 (by simp [hp]), hp, Option.some.injEq] at hm
    rw [← hm]
    funext j
    simp
  rw [hcov, hp, hm0]
  congr 1
  funext a b
  simp
  norm_num

/-- The scalar locations `-1, 0, 1` under uniform weights: covariance `2/3`. -/
theorem covariance_weighted_sum_witness :
    covariance ({ locations_ := [some (fun _ => -1), some (fun _ => 0), some (fun _ => 1)],
                  log_prob_mass_ := [-Real.log 3, -Real.log 3, -Real.log 3],
                  prob_mass_ := [1 / 3, 1 / 3, 1 / 3], cumul_distr_ := [1 / 3, 2 / 3, 1] } :
                DiscreteDistribution ℝ (Fin 1 → ℝ)) = some (fun _ _ => 2 / 3) ∧
    ∃ m, mean ({ locations_ := [some ![1, 0], some ![0, 1]],
                 log_prob_mass_ := [Real.log (1 / 4), Real.log (3 / 4)],
                 prob_mass_ := [1 / 4, 3 / 4], cumul_distr_ := [1 / 4, 1] } :
               DiscreteDistribution ℝ (Fin 2 → ℝ)) = some m ∧
      covariance ({ locations_ := [some ![1, 0], some ![0, 1]],
                    log_prob_mass_ := [Real.log (1 / 4), Real.log (3 / 4)],
                    prob_mass_ := [1 / 4, 3 / 4], cumul_distr_ := [1 / 4, 1] } :
                  DiscreteDistribution ℝ (Fin 2 → ℝ))
        = some (fun a b => (List.zipWith
            (fun w (x : Fin 2 → ℝ) => w * (x a - m a) * (x b - m b))
            [1 / 4, 3 / 4] [![1, 0], ![0, 1]]).sum) :=
  ⟨(@covariance_weighted_sum 1).2 _ rfl rfl,
   (@covariance_weighted_sum 2).1 _ [![1, 0], ![0, 1]] (by simp) rfl rfl⟩

/-! ## Mode -/

/-- What the visitor loop returns: either the running maximum survives, or the result is the
first position of the rest that holds the largest coefficient, strictly above the running
maximum. -/
theorem maxCoeff_index_loop_spec (rest : List ℝ) :
    ∀ (res : ℝ) (index i : Nat),
      (maxCoeff_index_loop res index rest i = index ∧ ∀ y ∈ rest, y ≤ res) ∨
      (∃ k m, maxCoeff_index_loop res index rest i = i + k ∧ rest[k]? = some m ∧ res < m ∧
        (∀ y ∈ rest, y ≤ m) ∧ ∀ j y, j < k → rest[j]? = some y → y < m) := by
  induction rest with
  | nil => intro res index i; left; simp [maxCoeff_index_loop]
  | cons value rest ih =>
    intro res index i
    by_cases hv : value > res
    · simp only [maxCoeff_index_loop, if_pos hv]
      rcases ih value i (i + 1) with ⟨hr, hall⟩ | ⟨k, m, hr, hget, hlt, hall, hfirst⟩
      · right
        refine ⟨0, value, by simpa using hr, by simp, hv, ?_, ?_⟩
        · intro y hy
          rcases List.mem_cons.mp hy with h | h
          · rw [h]
          · exact hall y h
        · intro j y hj; omega
      · right
        refine ⟨k + 1, m, by rw [hr]; omega, by simpa using hget, lt_trans hv hlt, ?_, ?_⟩
        · intro y hy
          rcases List.mem_cons.mp hy with h | h
          · rw [h]; exact hlt.le
          · exact hall y h
        · intro j y hj hy
          cases j with
          | zero =>
            simp only [List.getElem?_cons_zero, Option.some.injEq] at hy
            rw [← hy]; exact hlt
          | succ j =>
            simp only [List.getElem?_cons_succ] at hy
            exact hfirst j y (by omega) hy
    · simp only [maxCoeff_index_loop, if_neg hv]
      have hle : value ≤ res := not_lt.mp hv
      rcases ih res index (i + 1) with ⟨hr, hall⟩ | ⟨k, m, hr, hget, hlt, hall, hfirst⟩
      · left
        refine ⟨hr, ?_⟩
        intro y hy
        rcases List.mem_cons.mp hy with h | h
        · rw [h]; exact hle
        · exact hall y h
      · right
        refine ⟨k + 1, m, by rw [hr]; omega, by simpa using hget, hlt, ?_, ?_⟩
        · intro y hy
          rcases List.mem_cons.mp hy with h | h
          · rw [h]; exact (lt_of_le_of_lt hle hlt).le
          · exact hall y h
        · intro j y hj hy
          cases j with
          | zero =>
            simp only [List.getElem?_cons_zero, Option.some.injEq] at hy
            rw [← hy]; exact lt_of_le_of_lt hle hlt
          | succ j =>
            simp only [List.getElem?_cons_succ] at hy
            exact hfirst j y (by omega) hy

/-- Eigen `maxCoeff(&index)` on a non-empty array: the first position of the largest
coefficient. -/
theorem maxCoeff_index_spec (l : List ℝ) (hl : l ≠ []) :
    ∃ i m, maxCoeff_index l = some i ∧ l[i]? = some m ∧
      (∀ (j : Nat) (y : ℝ), l[j]? = some y → y ≤ m) ∧
      ∀ (j : Nat) (y : ℝ), j < i → l[j]? = some y → y < m := by
  cases l with
  | nil => exact absurd rfl hl
  | cons x xs =>
    rcases maxCoeff_index_loop_spec xs x 0 1 with ⟨hr, hall⟩ | ⟨k, m, hr, hget, hlt, hall, hfirst⟩
    · refine ⟨0, x, by simp [maxCoeff_index, hr], by simp, ?_, ?_⟩
      · intro j y hy
        cases j with
        | zero =>
          simp only [List.getElem?_cons_zero, Option.some.injEq] at hy
          rw [← hy]
        | succ j =>
          simp only [List.getElem?_cons_succ] at hy
          exact hall y (List.getElem?_mem hy)
      · intro j y hj; omega
    · refine ⟨k + 1, m, by simp [maxCoeff_index, hr, Nat.add_comm], by simpa using hget, ?_, ?_⟩
      · intro j y hy
        cases j with
        | zero =>
          simp only [List.getElem?_cons_zero, Option.some.injEq] at hy
          rw [← hy]; exact hlt.le
        | succ j =>
          simp only [List.getElem?_cons_succ] at hy
          exact hall y (List.getElem?_mem hy)
      · intro j y hj hy
        cases j with
        | zero =>
          simp only [List.getElem?_cons_zero, Option.some.injEq] at hy
          rw [← hy]; exact hlt
        | succ j =>
          simp only [List.getElem?_cons_succ] at hy
          exact hfirst j y (by omega) hy

/-- C15: for every non-empty population, `max()` returns `locations_` at the smallest index
`i` whose log mass is the largest: `log_prob_mass(j) <= log_prob_mass(i)` for every `j` and
`log_prob_mass(j) < log_prob_mass(i)` for every `j < i` (first occurrence among ties); when the
location and log-weight arrays have one size that element exists. -/
theorem max_first_argmax (d : DiscreteDistribution ℝ V) (hne : d.log_prob_mass_ ≠ []) :
    ∃ i m, log_prob_mass d i = some m ∧
      (∀ (j : Nat) (y : ℝ), log_prob_mass d j = some y → y ≤ m) ∧
      (∀ (j : Nat) (y : ℝ), j < i → log_prob_mass d j = some y → y < m) ∧
      max d = location d i ∧
      (size d = d.log_prob_mass_.length →
        ∃ x, d.locations_[i]? = some x ∧ max d = some x) := by
  obtain ⟨i, m, hidx, hget, hall, hfirst⟩ := maxCoeff_index_spec d.log_prob_mass_ hne
  have hmax : max d = location d i := by
    simp [max, hidx, location]
  refine ⟨i, m, hget, hall, hfirst, hmax, ?_⟩
  intro hsize
  have hi : i < d.locations_.length := by
    rw [size] at hsize
    rw [hsize]
    by_contra hnot
    rw [List.getElem?_eq_none (by omega)] at hget
    exact absurd hget (by simp)
  exact ⟨_, List.getElem?_eq_getElem hi, by rw [hmax, location, List.getElem?_eq_getElem hi]⟩

/-- Log masses `log 0.2, log 0.4, log 0.4` on the locations `-1, 0, 1`: the mode is the
location `0` at index 1, the first of the two largest. -/
theorem max_first_argmax_witness :
    max ({ locations_ := [some (-1), some 0, some 1],
           log_prob_mass_ := [Real.log 0.2, Real.log 0.4, Real.log 0.4],
           prob_mass_ := [0.2, 0.4, 0.4], cumul_distr_ := [0.2, 0.6, 1.0] } :
         DiscreteDistribution ℝ ℤ) = some (some 0) ∧
    ∃ i m,
      log_prob_mass
        ({ locations_ := [some (-1), some 0, some 1],
           log_prob_mass_ := [Real.log 0.2, Real.log 0.4, Real.log 0.4],
           prob_mass_ := [0.2, 0.4, 0.4], cumul_distr_ := [0.2, 0.6, 1.0] } :
         DiscreteDistribution ℝ ℤ) i = some m ∧
      max
        ({ locations_ := [some (-1), some 0, some 1],
           log_prob_mass_ := [Real.log 0.2, Real.log 0.4, Real.log 0.4],
           prob_mass_ := [0.2, 0.4, 0.4], cumul_distr_ := [0.2, 0.6, 1.0] } :
         DiscreteDistribution ℝ ℤ)
      = location
        ({ locations_ := [some (-1), some 0, some 1],
           log_prob_mass_ := [Real.log 0.2, Real.log 0.4, Real.log 0.4],
           prob_mass_ := [0.2, 0.4, 0.4], cumul_distr_ := [0.2, 0.6, 1.0] } :
         DiscreteDistribution ℝ ℤ) i := by
  obtain ⟨i, m, hget, _, _, hmax, _⟩ := max_first_argmax
    ({ locations_ := [some (-1), some 0, some 1],
       log_prob_mass_ := [Real.log 0.2, Real.log 0.4, Real.log 0.4],
       prob_mass_ := [0.2, 0.4, 0.4], cumul_distr_ := [0.2, 0.6, 1.0] } :
      DiscreteDistribution ℝ ℤ) (by simp)
  refine ⟨?_, i, m, hget, hmax⟩
  have h1 : Real.log 0.2 < Real.log 0.4 :=
    Real.log_lt_log (by norm_num) (by norm_num)
  simp [max, maxCoeff_index, maxCoeff_index_loop, h1]

/-! ## Degeneracy: one particle carrying the log-weight `t`, the others `0` -/

/-- The divergence after installing `[t, 0, ..., 0]` (`M` zeros), in closed form. -/
theorem kl_given_uniform_skewed (d0 : DiscreteDistribution ℝ V) (M : Nat) (t : ℝ) :
    ∃ d, log_unnormalized_prob_mass Real.exp Real.log d0 (t :: List.replicate M 0) = some d ∧
      kl_given_uniform Real.log d = Real.log ((M : ℝ) + 1)
        - (Real.log (Real.exp t + M) - t * Real.exp t / (Real.exp t + M)) := by
  obtain ⟨cd, _, h⟩ := log_unnormalized_prob_mass_closed d0 (t :: List.replicate M 0) (by simp)
  refine ⟨_, h, ?_⟩
  have hS : 0 < Real.exp t + (M : ℝ) := by
    have := Real.exp_pos t
    have : (0 : ℝ) ≤ (M : ℝ) := Nat.cast_nonneg M
    linarith
  have hsum : ((t :: List.replicate M (0 : ℝ)).map Real.exp).sum = Real.exp t + M := by
    simp
  simp only [kl_given_uniform, entropy, size, resize_length, softmax, log_softmax, hsum,
    List.map_cons, List.map_replicate, List.zipWith_cons_cons, List.zipWith_replicate, min_self,
    List.sum_cons, List.sum_replicate, smul_eq_mul, List.length_cons, List.length_replicate,
    Real.exp_zero, Nat.cast_add, Nat.cast_one]
  field_simp
  ring

/-- Tangent-line bound for `x ↦ log(exp x + M)`, from the convexity of `exp`. -/
theorem lse_tangent (M s t : ℝ) (hM : 0 ≤ M) :
    Real.exp t / (Real.exp t + M) * (s - t)
      ≤ Real.log (Real.exp s + M) - Real.log (Real.exp t + M) := by
  have hA : 0 < Real.exp t + M := by have := Real.exp_pos t; linarith
  have hB : 0 < Real.exp s + M := by have := Real.exp_pos s; linarith
  have ha : 0 ≤ Real.exp t / (Real.exp t + M) := div_nonneg (Real.exp_pos t).le hA.le
  have hb : 0 ≤ M / (Real.exp t + M) := div_nonneg hM hA.le
  have hab : Real.exp t / (Real.exp t + M) + M / (Real.exp t + M) = 1 := by
    field_simp
  have hconv := convexOn_exp.2 (Set.mem_univ (s - t)) (Set.mem_univ (0 : ℝ)) ha hb hab
  simp only [smul_eq_mul, mul_zero, add_zero, Real.exp_zero, mul_one] at hconv
  have hval : Real.exp t / (Real.exp t + M) * Real.exp (s - t) + M / (Real.exp t + M)
      = (Real.exp s + M) / (Real.exp t + M) := by
    rw [Real.exp_sub]
    have := (Real.exp_pos t).ne'
    field_simp
    ring
  rw [hval] at hconv
  rw [← Real.log_div hB.ne' hA.ne']
  exact (Real.le_log_iff_exp_le (div_pos hB hA)).mpr hconv

/-- The entropy of the skewed weights does not increase with the skew `t >= 0`. -/
theorem skew_mono (M s t : ℝ) (hM : 0 ≤ M) (hs : 0 ≤ s) (hst : s ≤ t) :
    Real.log (Real.exp t + M) - t * Real.exp t / (Real.exp t + M)
      ≤ Real.log (Real.exp s + M) - s * Real.exp s / (Real.exp s + M) := by
  have hA : 0 < Real.exp t + M := by have := Real.exp_pos t; linarith
  have hB : 0 < Real.exp s + M := by have := Real.exp_pos s; linarith
  have htan := lse_tangent M s t hM
  have hp : Real.exp s / (Real.exp s + M) ≤ Real.exp t / (Real.exp t + M) := by
    rw [div_le_div_iff₀ hB hA]
    have hexp : Real.exp s ≤ Real.exp t := Real.exp_le_exp.mpr hst
    nlinarith [mul_le_mul_of_nonneg_left hexp hM]
  have h1 : t * Real.exp t / (Real.exp t + M) = Real.exp t / (Real.exp t + M) * t := by ring
  have h2 : s * Real.exp s / (Real.exp s + M) = Real.exp s / (Real.exp s + M) * s := by ring
  rw [h1, h2]
  nlinarith [mul_le_mul_of_nonneg_right hp hs]

theorem skew_upper (M t : ℝ) (hM : 0 ≤ M) (ht : 0 ≤ t) :
    Real.log (Real.exp t + M) - t * Real.exp t / (Real.exp t + M)
      ≤ M * ((1 + t) * Real.exp (-t)) := by
  have he := Real.exp_pos t
  have hA : 0 < Real.exp t + M := by linarith
  have hen : Real.exp (-t) = (Real.exp t)⁻¹ := Real.exp_neg t
  have h1 : Real.log (Real.exp t + M) ≤ t + M * Real.exp (-t) := by
    rw [Real.log_le_iff_le_exp hA, Real.exp_add]
    have := Real.add_one_le_exp (M * Real.exp (-t))
    have h2 : Real.exp t * (M * Real.exp (-t) + 1) = Real.exp t + M := by
      rw [hen]; field_simp; ring
    nlinarith [mul_le_mul_of_nonneg_left this he.le]
  have h3 : t - t * M * Real.exp (-t) ≤ t * Real.exp t / (Real.exp t + M) := by
    rw [le_div_iff₀ hA, hen]
    have h4 : (t - t * M * (Real.exp t)⁻¹) * (Real.exp t + M)
        = t * Real.exp t - t * M * M * (Real.exp t)⁻¹ := by
      field_simp; ring
    rw [h4]
    have : 0 ≤ t * M * M * (Real.exp t)⁻¹ := by positivity
    linarith
  nlinarith

theorem skew_bound_tendsto (M : ℝ) :
    Filter.Tendsto (fun t : ℝ => M * ((1 + t) * Real.exp (-t))) Filter.atTop (nhds 0) := by
  have h0 := Real.tendsto_pow_mul_exp_neg_atTop_nhds_zero 0
  have h1 := Real.tendsto_pow_mul_exp_neg_atTop_nhds_zero 1
  have h := (h0.add h1).const_mul M
  simp only [pow_zero, one_mul, pow_one, add_zero, mul_zero] at h
  refine h.congr ?_
  intro t
  ring

theorem skew_lower (M t : ℝ) (hM : 0 ≤ M) (ht : 0 ≤ t) :
    0 ≤ Real.log (Real.exp t + M) - t * Real.exp t / (Real.exp t + M) := by
  have he := Real.exp_pos t
  have hA : 0 < Real.exp t + M := by linarith
  have h1 : t ≤ Real.log (Real.exp t + M) := by
    rw [Real.le_log_iff_exp_le hA]; linarith
  have h2 : t * Real.exp t / (Real.exp t + M) ≤ t := by
    rw [div_le_iff₀ hA]
    nlinarith [mul_nonneg ht hM]
  linarith

theorem skew_tendsto (M : ℝ) (hM : 0 ≤ M) :
    Filter.Tendsto (fun t : ℝ => Real.log (M + 1)
      - (Real.log (Real.exp t + M) - t * Real.exp t / (Real.exp t + M)))
      Filter.atTop (nhds (Real.log (M + 1))) := by
  have hH : Filter.Tendsto (fun t : ℝ =>
      Real.log (Real.exp t + M) - t * Real.exp t / (Real.exp t + M)) Filter.atTop (nhds 0) := by
    refine tendsto_of_tendsto_of_tendsto_of_le_of_le' tendsto_const_nhds
      (skew_bound_tendsto M) ?_ ?_
    · filter_upwards [Filter.eventually_ge_atTop (0 : ℝ)] with t ht
      exact skew_lower M t hM ht
    · filter_upwards [Filter.eventually_ge_atTop (0 : ℝ)] with t ht
      exact skew_upper M t hM ht
  have hc : Filter.Tendsto (fun _ : ℝ => Real.log (M + 1)) Filter.atTop
      (nhds (Real.log (M + 1))) := tendsto_const_nhds
  have := hc.sub hH
  simpa using this

theorem sum_nonpos_of_forall (l : List ℝ) (h : ∀ x ∈ l, x ≤ 0) : l.sum ≤ 0 := by
  induction l with
  | nil => simp
  | cons a as ih =>
    have ha := h a (by simp)
    have has := ih (fun x hx => h x (by simp [hx]))
    simp only [List.sum_cons]
    linarith

/-- The entropy of a population left by `log_unnormalized_prob_mass` is non-negative, so the
divergence from uniform never exceeds `log(size())`. -/
theorem kl_given_uniform_le_log_size (d0 d : DiscreteDistribution ℝ V) (v : List ℝ)
    (hd : log_unnormalized_prob_mass Real.exp Real.log d0 v = some d) :
    kl_given_uniform Real.log d ≤ Real.log (size d : ℝ) := by
  obtain ⟨_, _, _, hsum, hpos, hlog⟩ := log_unnormalized_prob_mass_facts d0 d v hd
  have hent : 0 ≤ entropy d := by
    rw [entropy_eq_of_log d hlog, neg_nonneg]
    apply sum_nonpos_of_forall
    intro x hx
    obtain ⟨q, hq, rfl⟩ := List.mem_map.mp hx
    have hq0 := hpos q hq
    have hq1 : q ≤ 1 := by
      rw [← hsum]
      exact List.single_le_sum (fun y hy => (hpos y hy).le) q hq
    exact mul_nonpos_of_nonpos_of_nonneg (Real.log_nonpos hq0.le hq1) hq0.le
  rw [kl_given_uniform]
  linarith

/-- C11: for every `N >= 2` and reals `0 <= s <= t`, installing the log-weights
`[t, 0, ..., 0]` (a population of size `N`) leaves a value of `kl_given_uniform()` at least as
large as installing `[s, 0, ..., 0]`. -/
theorem kl_given_uniform_skew_monotone (d1 d2 : DiscreteDistribution ℝ V) (N : Nat)
    (hN : 2 ≤ N) (s t : ℝ) (hs : 0 ≤ s) (hst : s ≤ t) :
    ∃ a b,
      log_unnormalized_prob_mass Real.exp Real.log d1 (s :: List.replicate (N - 1) 0) = some a ∧
      log_unnormalized_prob_mass Real.exp Real.log d2 (t :: List.replicate (N - 1) 0) = some b ∧
      size a = N ∧ size b = N ∧
      kl_given_uniform Real.log a ≤ kl_given_uniform Real.log b := by
  obtain ⟨a, ha, hka⟩ := kl_given_uniform_skewed d1 (N - 1) s
  obtain ⟨b, hb, hkb⟩ := kl_given_uniform_skewed d2 (N - 1) t
  obtain ⟨hsa, _⟩ := log_unnormalized_prob_mass_facts _ a _ ha
  obtain ⟨hsb, _⟩ := log_unnormalized_prob_mass_facts _ b _ hb
  have hlen : ∀ x : ℝ, (x :: List.replicate (N - 1) (0 : ℝ)).length = N := by
    intro x
    rw [List.length_cons, List.length_replicate]
    omega
  refine ⟨a, b, ha, hb, by rw [hsa, hlen], by rw [hsb, hlen], ?_⟩
  rw [hka, hkb]
  have := skew_mono ((N - 1 : ℕ) : ℝ) s t (Nat.cast_nonneg _) hs hst
  linarith

/-- Three particles, log-weights `[1, 0, 0]` against `[2, 0, 0]`. -/
theorem kl_given_uniform_skew_monotone_witness :
    ∃ a b,
      log_unnormalized_prob_mass Real.exp Real.log (empty : DiscreteDistribution ℝ Unit)
        (1 :: List.replicate (3 - 1) 0) = some a ∧
      log_unnormalized_prob_mass Real.exp Real.log (empty : DiscreteDistribution ℝ Unit)
        (2 :: List.replicate (3 - 1) 0) = some b ∧
      size a = 3 ∧ size b = 3 ∧
      kl_given_uniform Real.log a ≤ kl_given_uniform Real.log b :=
  kl_given_uniform_skew_monotone empty empty 3 (by decide) 1 2 (by norm_num) (by norm_num)

/-- C12: for every `N >= 1`, the value `f t` of `kl_given_uniform()` after installing the
log-weights `[t, 0, ..., 0]` (length `N`) never exceeds `log(N)` and tends to `log(N)` as `t`
tends to `+infinity`. -/
theorem kl_given_uniform_degenerate_limit (N : Nat) (hN : 1 ≤ N) :
    ∃ f : ℝ → ℝ,
      (∀ (d0 : DiscreteDistribution ℝ V) (t : ℝ), ∃ d,
        log_unnormalized_prob_mass Real.exp Real.log d0 (t :: List.replicate (N - 1) 0)
          = some d ∧ kl_given_uniform Real.log d = f t) ∧
      (∀ t, f t ≤ Real.log (N : ℝ)) ∧
      Filter.Tendsto f Filter.atTop (nhds (Real.log (N : ℝ))) := by
  have hcast : ((N - 1 : ℕ) : ℝ) + 1 = (N : ℝ) := by
    have : N - 1 + 1 = N := by omega
    exact_mod_cast this
  refine ⟨fun t => Real.log (((N - 1 : ℕ) : ℝ) + 1)
      - (Real.log (Real.exp t + ((N - 1 : ℕ) : ℝ))
        - t * Real.exp t / (Real.exp t + ((N - 1 : ℕ) : ℝ))), ?_, ?_, ?_⟩
  · intro d0 t
    exact kl_given_uniform_skewed d0 (N - 1) t
  · intro t
    obtain ⟨d, hd, hk⟩ := kl_given_uniform_skewed (empty : DiscreteDistribution ℝ Unit) (N - 1) t
    have hle := kl_given_uniform_le_log_size _ d _ hd
    obtain ⟨hsize, _⟩ := log_unnormalized_prob_mass_facts _ d _ hd
    have hsz : (size d : ℝ) = (N : ℝ) := by
      rw [hsize, List.length_cons, List.length_replicate]
      have : N - 1 + 1 = N := by omega
      exact_mod_cast this
    rw [hk, hsz] at hle
    exact hle
  · rw [← hcast]
    exact skew_tendsto ((N - 1 : ℕ) : ℝ) (Nat.cast_nonneg _)

/-- Four particles: the divergence after installing `[t, 0, 0, 0]` is bounded by `log 4` and
tends to it. -/
theorem kl_given_uniform_degenerate_limit_witness :
    ∃ f : ℝ → ℝ,
      (∀ (d0 : DiscreteDistribution ℝ Unit) (t : ℝ), ∃ d,
        log_unnormalized_prob_mass Real.exp Real.log d0 (t :: List.replicate (4 - 1) 0)
          = some d ∧ kl_given_uniform Real.log d = f t) ∧
      (∀ t, f t ≤ Real.log ((4 : ℕ) : ℝ)) ∧
      Filter.Tendsto f Filter.atTop (nhds (Real.log ((4 : ℕ) : ℝ))) :=
  kl_given_uniform_degenerate_limit 4 (by decide)

/-! ## Inputs outside the finite non-empty vectors -/

/-- A non-empty install returns, whatever the numeric type and the values of the input: the
only points at which `log_unnormalized_prob_mass` is undefined are the two that need a first
element. -/
theorem log_unnormalized_prob_mass_lengths {R : Type} [Max R] [Zero R] [Add R] [Sub R] [Div R]
    (exp log : R → R) (d : DiscreteDistribution R V) (v : List R) (hv : v ≠ []) :
    ∃ d1, log_unnormalized_prob_mass exp log d v = some d1 ∧
      d1.log_prob_mass_.length = v.length ∧ d1.prob_mass_.length = v.length ∧
      d1.cumul_distr_.length = v.length ∧ d1.locations_.length = v.length := by
  cases v with
  | nil => exact absurd rfl hv
  | cons x xs =>
    refine ⟨_, rfl, ?_, ?_, ?_, ?_⟩
    · simp
    · simp
    · simp [cdf_loop_length]
    · simp [resize_length]

/-- C19 (the code on a non-finite input): a population of one particle with weight 1 is given
the log-weight vector `[+inf]`.  The call returns, no failure is reported, and the stored
log-weight, weight and cumulative entry are all NaN afterwards (`inf - inf`), so the
population is not left as it was. -/
theorem log_unnormalized_prob_mass_nonfinite :
    log_unnormalized_prob_mass (Double.exp Real.exp) (Double.log Real.log)
      ({ locations_ := [some ()], log_prob_mass_ := [Double.finite 0],
         prob_mass_ := [Double.finite 1], cumul_distr_ := [Double.finite 1] } :
        DiscreteDistribution (Double ℝ) Unit) [Double.pos_inf]
      = some { locations_ := [some ()], log_prob_mass_ := [Double.nan],
               prob_mass_ := [Double.nan], cumul_distr_ := [Double.nan] } := by
  rfl

/-- C19 as the code has it: `log_unnormalized_prob_mass` makes no check of the values it is
given.  For every non-empty vector over any numeric type (finite or not) it returns, and the
log weights, weights and cumulative table are replaced by arrays of the length of the input,
the location array being resized to that length. -/
theorem log_unnormalized_prob_mass_no_validation {R : Type} [Max R] [Zero R] [Add R] [Sub R]
    [Div R] (exp log : R → R) (d : DiscreteDistribution R V) (v : List R) (hv : v ≠ []) :
    ∃ d1, log_unnormalized_prob_mass exp log d v = some d1 ∧
      d1.log_prob_mass_.length = v.length ∧ d1.prob_mass_.length = v.length ∧
      d1.cumul_distr_.length = v.length ∧ d1.locations_.length = v.length := by
  cases v with
  | nil => exact absurd rfl hv
  | cons x xs =>
    refine ⟨_, rfl, ?_, ?_, ?_, ?_⟩
    · simp
    · simp
    · simp [cdf_loop_length]
    · simp [resize_length]

/-- The input `[NaN, 0, -inf]` on a population of one particle: the call returns with arrays
of length 3. -/
theorem log_unnormalized_prob_mass_no_validation_witness :
    ∃ d1, log_unnormalized_prob_mass (Double.exp Real.exp) (Double.log Real.log)
        ({ locations_ := [some ()], log_prob_mass_ := [Double.finite 0],
           prob_mass_ := [Double.finite 1], cumul_distr_ := [Double.finite 1] } :
          DiscreteDistribution (Double ℝ) Unit)
        [Double.nan, Double.finite 0, Double.neg_inf] = some d1 ∧
      d1.log_prob_mass_.length = 3 ∧ d1.prob_mass_.length = 3 ∧
      d1.cumul_distr_.length = 3 ∧ d1.locations_.length = 3 :=
  log_unnormalized_prob_mass_no_validation _ _ _ [Double.nan, Double.finite 0, Double.neg_inf]
    (by simp)

/-- C20 (the code on an empty vector): no `EmptyPopulation` failure is reported.  The call is
undefined: `maxCoeff()` is taken of an array of size 0 and the write `cumul_distr_[0] =
prob_mass_[0]` indexes element 0 of an empty table (`none` is the value of such a step, not a
reported error).  The same holds for `set_uniform(0)` and for construction with size 0. -/
theorem log_unnormalized_prob_mass_empty_undefined :
    maxCoeff ([] : List ℝ) = none ∧ compute_cdf ([] : List ℝ) = none ∧
    log_unnormalized_prob_mass Real.exp Real.log
      ({ locations_ := [some ()], log_prob_mass_ := [0], prob_mass_ := [1],
         cumul_distr_ := [1] } : DiscreteDistribution ℝ Unit) [] = none ∧
    set_uniform Real.exp Real.log
      ({ locations_ := [some ()], log_prob_mass_ := [0], prob_mass_ := [1],
         cumul_distr_ := [1] } : DiscreteDistribution ℝ Unit) 0 = none ∧
    (new Real.exp Real.log 0 : Option (DiscreteDistribution ℝ Unit)) = none := by
  refine ⟨rfl, rfl, rfl, ?_, ?_⟩
  · simp [set_uniform, log_unnormalized_prob_mass, maxCoeff]
  · simp [new, set_uniform, log_unnormalized_prob_mass, maxCoeff]

/-- C20 as the code has it: `log_unnormalized_prob_mass` returns for every non-empty vector
of reals, and so do `set_uniform(N)` and construction with size `N` for `N >= 1`. -/
theorem log_unnormalized_prob_mass_returns (d : DiscreteDistribution ℝ V) :
    (∀ v : List ℝ, v ≠ [] → ∃ d1, log_unnormalized_prob_mass Real.exp Real.log d v = some d1) ∧
    (∀ N : Nat, 1 ≤ N → ∃ d1, set_uniform Real.exp Real.log d (N : Int) = some d1) ∧
    (∀ N : Nat, 1 ≤ N →
      ∃ d1 : DiscreteDistribution ℝ V, new Real.exp Real.log (N : Int) = some d1) := by
  have hrep : ∀ N : Nat, 1 ≤ N → List.replicate N (0 : ℝ) ≠ [] := by
    intro N hN
    apply List.ne_nil_of_length_pos
    simp
    omega
  refine ⟨?_, ?_, ?_⟩
  · intro v hv
    obtain ⟨d1, h, _⟩ := log_unnormalized_prob_mass_lengths Real.exp Real.log d v hv
    exact ⟨d1, h⟩
  · intro N hN
    rw [set_uniform_ofNat]
    obtain ⟨d1, h, _⟩ := log_unnormalized_prob_mass_lengths Real.exp Real.log d _ (hrep N hN)
    exact ⟨d1, h⟩
  · intro N hN
    rw [new, set_uniform_ofNat]
    obtain ⟨d1, h, _⟩ := log_unnormalized_prob_mass_lengths Real.exp Real.log
      (empty : DiscreteDistribution ℝ V) _ (hrep N hN)
    exact ⟨d1, h⟩

/-- The vector `[0, 0, log 2]` and the size 3. -/
theorem log_unnormalized_prob_mass_returns_witness :
    (∃ d1, log_unnormalized_prob_mass Real.exp Real.log (empty : DiscreteDistribution ℝ Unit)
      [0, 0, Real.log 2] = some d1) ∧
    (∃ d1 : DiscreteDistribution ℝ Unit, new Real.exp Real.log ((3 : ℕ) : Int) = some d1) :=
  ⟨(log_unnormalized_prob_mass_returns empty).1 _ (by simp),
   (log_unnormalized_prob_mass_returns (empty : DiscreteDistribution ℝ Unit)).2.2 3
     (by decide)⟩

/-! ## Queries and the size of the population -/

/-- On a non-empty population with every location written and all arrays of one size,
`mean()`, `covariance()` and `max()` return a value. -/
theorem moments_defined {n : Nat} (d : DiscreteDistribution ℝ (Fin n → ℝ))
    (xs : List (Fin n → ℝ)) (hx : xs ≠ []) (hloc : d.locations_ = xs.map some)
    (hlen : d.prob_mass_.length = xs.length) (hlog : d.log_prob_mass_.length = xs.length) :
    (∃ m, mean d = some m) ∧ (∃ c, covariance d = some c) ∧ ∃ x, max d = some (some x) := by
  obtain ⟨m, hm, hc⟩ := covariance_eq_sum d xs hx hloc hlen
  refine ⟨⟨m, hm⟩, ⟨_, hc⟩, ?_⟩
  have hne : d.log_prob_mass_ ≠ [] := by
    apply List.ne_nil_of_length_pos
    have := List.length_pos.mpr hx
    omega
  obtain ⟨i, y, hidx, hget, _, _⟩ := maxCoeff_index_spec d.log_prob_mass_ hne
  have hi : i < xs.length := by
    by_contra hnot
    rw [List.getElem?_eq_none (by omega)] at hget
    exact absurd hget (by simp)
  refine ⟨xs[i], ?_⟩
  simp [max, hidx, hloc, List.getElem?_eq_getElem hi]

/-- Every population that the public interface produces has at least one particle: each
call that would make a population of size 0 (construction, `set_uniform` or
`from_distribution` with size 0, `log_unnormalized_prob_mass` with an empty vector) takes
`maxCoeff` of an empty array and is undefined. -/
theorem reachable_size_pos (d : DiscreteDistribution ℝ V) (h : Reachable d) : 1 ≤ size d := by
  obtain ⟨v, hv, _, _, _, hlen⟩ := reachable_weights d h
  rw [size, hlen]
  exact List.length_pos.2 hv

/-! ## Sampling through the standard normal -/

/-- C22: for every standard-normal sample `z`, `map_standard_normal(z, index)` returns the
variate and leaves the index that `map_standard_uniform(Phi(z), index)` does, with
`Phi(z) = 0.5 * (1 + erf(z / sqrt(2)))`. -/
theorem map_standard_normal_eq_uniform (erf : ℝ → ℝ) (d : DiscreteDistribution ℝ V) (z : ℝ) :
    map_standard_normal Real.sqrt erf d z
      = map_standard_uniform d (0.5 * (1 + erf (z / Real.sqrt 2))) := by
  simp only [map_standard_normal]
  norm_num

/-! ## Writing a location -/

/-- C26: the write `location(i) = x` (with `i` inside the array) changes only the `i`-th
location: the log masses, the masses and the cumulative table are the same arrays, so
`map_standard_uniform` leaves the same index for every `u`; `size()` is unchanged; every
location `j != i` is unchanged and location `i` holds `x`.  On a population of column vectors
with every location written, the next `mean()` and `covariance()` are the weighted sums over
the locations with `x` in position `i`. -/
theorem set_location_frame :
    (∀ (V : Type) (d d1 : DiscreteDistribution ℝ V) (i : Nat) (x : V),
      set_location d i x = some d1 →
      d1.log_prob_mass_ = d.log_prob_mass_ ∧ d1.prob_mass_ = d.prob_mass_ ∧
      d1.cumul_distr_ = d.cumul_distr_ ∧
      (∀ u : ℝ, (map_standard_uniform d1 u).2 = (map_standard_uniform d u).2) ∧
      size d1 = size d ∧ (∀ j, j ≠ i → location d1 j = location d j) ∧
      location d1 i = some (some x)) ∧
    (∀ (n : Nat) (d d1 : DiscreteDistribution ℝ (Fin n → ℝ)) (i : Nat) (x : Fin n → ℝ)
      (xs : List (Fin n → ℝ)),
      set_location d i x = some d1 → d.locations_ = xs.map some →
      d.prob_mass_.length = xs.length →
      ∃ m, mean d1 = some m ∧
        m = (fun j => (List.zipWith (fun w y => w * y j) d.prob_mass_ (xs.set i x)).sum) ∧
        covariance d1 = some (fun a b =>
          (List.zipWith (fun w y => w * (y a - m a) * (y b - m b)) d.prob_mass_
            (xs.set i x)).sum)) := by
  constructor
  · intro V d d1 i x h
    obtain ⟨hi, hloc, hl, hp, hc⟩ := set_location_some d d1 i x h
    refine ⟨hl, hp, hc, ?_, ?_, ?_, ?_⟩
    · intro u
      simp only [map_standard_uniform, hc]
    · rw [size, size, hloc, List.length_set]
    · intro j hj
      rw [location, location, hloc, List.getElem?_set_ne (Ne.symm hj)]
    · rw [location, hloc, List.getElem?_set_self hi]
  · intro n d d1 i x xs h hloc hlen
    obtain ⟨hi, hloc1, _, hp, _⟩ := set_location_some d d1 i x h
    have hloc2 : d1.locations_ = (xs.set i x).map some := by
      rw [hloc1, hloc, List.map_set]
    have hne : xs.set i x ≠ [] := by
      apply List.ne_nil_of_length_pos
      rw [List.length_set]
      rw [hloc, List.length_map] at hi
      omega
    have hlen2 : d1.prob_mass_.length = (xs.set i x).length := by
      rw [hp, hlen, List.length_set]
    obtain ⟨m, hm, hcov⟩ := covariance_eq_sum d1 _ hne hloc2 hlen2
    have hm2 := mean_eq_sum d1 _ hne hloc2 hlen2
    rw [hm, Option.some.injEq] at hm2
    refine ⟨m, hm, ?_, ?_⟩
    · rw [hm2, hp]
    · rw [hcov, hp]

/-- Locations `-1, 0, 1` with weights `1/4, 1/2, 1/4`; the middle location is overwritten
with `4`. -/
theorem set_location_frame_witness :
    ∃ d1, set_location
        ({ locations_ := [some (fun _ => -1), some (fun _ => 0), some (fun _ => 1)],
           log_prob_mass_ := [Real.log 0.25, Real.log 0.5, Real.log 0.25],
           prob_mass_ := [0.25, 0.5, 0.25], cumul_distr_ := [0.25, 0.75, 1.0] } :
          DiscreteDistribution ℝ (Fin 1 → ℝ)) 1 (fun _ => 4) = some d1 ∧
      d1.cumul_distr_ = [0.25, 0.75, 1.0] ∧ size d1 = 3 ∧
      location d1 1 = some (some (fun _ => 4)) ∧
      ∃ m, mean d1 = some m ∧
        m = (fun j => (List.zipWith (fun w (y : Fin 1 → ℝ) => w * y j) [0.25, 0.5, 0.25]
          ([fun _ => -1, fun _ => 0, fun _ => 1].set 1 (fun _ => 4))).sum) := by
  have h : set_location
      ({ locations_ := [some (fun _ => -1), some (fun _ => 0), some (fun _ => 1)],
         log_prob_mass_ := [Real.log 0.25, Real.log 0.5, Real.log 0.25],
         prob_mass_ := [0.25, 0.5, 0.25], cumul_distr_ := [0.25, 0.75, 1.0] } :
        DiscreteDistribution ℝ (Fin 1 → ℝ)) 1 (fun _ => 4) = some _ := rfl
  obtain ⟨_, _, hc, _, hs, _, hl⟩ := set_location_frame.1 _ _ _ 1 (fun _ => 4) h
  obtain ⟨m, hm, hmv, _⟩ := set_location_frame.2 1 _ _ 1 (fun _ => 4)
    [fun _ => -1, fun _ => 0, fun _ => 1] h rfl rfl
  exact ⟨_, h, hc, hs, hl, m, hm, hmv⟩

/-! ## Resampling -/

/-- The array filled by the sampling loop: entry `i` is the variate of draw number `i`, made
in the state the first `i` draws leave, and the loop ends in the state after `k` draws. -/
theorem sample_loop_spec {S : Type} (sample : S → Option (V × S)) :
    ∀ (k : Nat) (s s1 : S) (locs : List (Option V)),
      sample_loop sample k s = some (locs, s1) →
      state_after sample k s = some s1 ∧
      ∀ i, i < k → ∃ si x sj, state_after sample i s = some si ∧ sample si = some (x, sj) ∧
        locs[i]? = some (some x) := by
  intro k
  induction k with
  | zero =>
    intro s s1 locs h
    simp only [sample_loop, Option.some.injEq, Prod.mk.injEq] at h
    refine ⟨by rw [← h.2]; rfl, ?_⟩
    intro i hi
    omega
  | succ k ih =>
    intro s s1 locs h
    simp only [sample_loop, Option.bind_eq_bind, Option.bind_eq_some, Option.pure_def,
      Option.some.injEq, Prod.mk.injEq] at h
    obtain ⟨⟨x, s2⟩, hx, ⟨ys, s3⟩, hrec, hlocs, hs⟩ := h
    obtain ⟨hstate, hidx⟩ := ih s2 s3 ys hrec
    subst hs
    subst hlocs
    refine ⟨by simp [state_after, hx, hstate], ?_⟩
    intro i hi
    cases i with
    | zero => exact ⟨s, x, s2, rfl, hx, by simp⟩
    | succ i =>
      obtain ⟨si, y, sj, hsi, hy, hget⟩ := hidx i (by omega)
      exact ⟨si, y, sj, by simp [state_after, hx, hsi], hy, by simpa using hget⟩

/-- What `from_distribution` returns once the `n >= 1` draws are made. -/
theorem from_distribution_of_samples {S : Type} (sample : S → Option (V × S)) (s s1 : S)
    (d : DiscreteDistribution ℝ V) (n : Nat) (hn : 1 ≤ n) (locs : List (Option V))
    (hloop : sample_loop sample n s = some (locs, s1)) :
    ∃ d1, from_distribution Real.exp Real.log sample s d (n : Int) = some (d1, s1) ∧
      size d1 = n ∧ d1.prob_mass_ = List.replicate n (1 / (n : ℝ)) ∧ d1.locations_ = locs := by
  have hne : List.replicate n (0 : ℝ) ≠ [] := by
    apply List.ne_nil_of_length_pos; simp; omega
  obtain ⟨cd, _, h⟩ := log_unnormalized_prob_mass_closed d _ hne
  have hneg : ¬ ((n : Int) < 0) := by omega
  have hlen := sample_loop_length sample n s s1 locs hloop
  have hfd : from_distribution Real.exp Real.log sample s d (n : Int)
      = some ({ locations_ := locs
                log_prob_mass_ := log_softmax Real.exp Real.log (List.replicate n 0)
                prob_mass_ := softmax Real.exp (List.replicate n 0)
                cumul_distr_ := cd }, s1) := by
    simp only [from_distribution, if_neg hneg, Int.toNat_ofNat, hloop, set_uniform_ofNat, h,
      Option.bind_eq_bind, Option.some_bind, Option.pure_def]
  refine ⟨_, hfd, ?_, ?_, rfl⟩
  · simp [size, hlen]
  · exact softmax_replicate_zero n

/-- A variate drawn from the population is one of its written locations. -/
theorem sample_variate_mem {S : Type} (erf : ℝ → ℝ) (gaussian : S → ℝ × S)
    (d : DiscreteDistribution ℝ V) (s s1 : S) (x : V)
    (h : sample_variate Real.sqrt erf gaussian d s = some (x, s1)) :
    some x ∈ d.locations_ := by
  unfold sample_variate at h
  split at h
  · next y idx s2 heq =>
    simp only [Option.some.injEq, Prod.mk.injEq] at h
    have h1 : (sample Real.sqrt erf gaussian d s).1.1 = some (some y) := by rw [heq]
    simp only [sample, map_standard_normal, map_standard_uniform] at h1
    rw [← h.1]
    exact List.getElem?_mem h1
  · exact absurd h (by simp)

/-- The sampling loop run on the object itself leaves the members as it found them, and the
array it fills is the one filled by successive draws from those members. -/
theorem sample_loop_self_eq {S : Type} (erf : ℝ → ℝ) (gaussian : S → ℝ × S) :
    ∀ (k : Nat) (d : DiscreteDistribution ℝ V) (s : S),
      sample_loop_self Real.sqrt erf gaussian k d s
        = (sample_loop (sample_variate Real.sqrt erf gaussian d) k s).map
            (fun r => (r.1, d, r.2)) := by
  intro k
  induction k with
  | zero => intro d s; rfl
  | succ k ih =>
    intro d s
    simp only [sample_loop_self, sample_loop, Option.bind_eq_bind, Option.pure_def]
    cases hx : sample_variate Real.sqrt erf gaussian d s with
    | none => rfl
    | some p =>
      obtain ⟨x, s1⟩ := p
      simp only [Option.some_bind]
      rw [ih d s1]
      cases hrec : sample_loop (sample_variate Real.sqrt erf gaussian d) k s1 with
      | none => rfl
      | some q =>
        obtain ⟨xs, s2⟩ := q
        rfl

/-- The call on the object itself returns what the call returns for a separate distribution
object that holds the weights and locations the object had before the call. -/
theorem from_distribution_self_eq {S : Type} (erf : ℝ → ℝ) (gaussian : S → ℝ × S) (s : S)
    (d : DiscreteDistribution ℝ V) (new_size : Int) :
    from_distribution_self Real.exp Real.log Real.sqrt erf gaussian s d new_size
      = from_distribution Real.exp Real.log (sample_variate Real.sqrt erf gaussian d) s d
          new_size := by
  simp only [from_distribution_self, from_distribution]
  by_cases hneg : new_size < 0
  · simp only [if_pos hneg]
  · simp only [if_neg hneg, sample_loop_self_eq, Option.bind_eq_bind, Option.pure_def]
    cases hloop : sample_loop (sample_variate Real.sqrt erf gaussian d) new_size.toNat s with
    | none => rfl
    | some q =>
      obtain ⟨xs, s2⟩ := q
      rfl

/-- No draw is defined on a population none of whose locations is written. -/
theorem sample_variate_unwritten {S : Type} (erf : ℝ → ℝ) (gaussian : S → ℝ × S)
    (d : DiscreteDistribution ℝ V) (s : S) (h : ∀ x, some x ∉ d.locations_) :
    sample_variate Real.sqrt erf gaussian d s = none := by
  cases hs : sample_variate Real.sqrt erf gaussian d s with
  | none => rfl
  | some p =>
    obtain ⟨x, s1⟩ := p
    exact absurd (sample_variate_mem erf gaussian d s s1 x hs) (h x)

/-- The order of the statements matters when the object is its own argument: after
`set_uniform(n)` with `n` other than the size, the location array is reallocated, and a draw
from the object as rebuilt so far is undefined. -/
theorem sample_variate_after_set_uniform {S : Type} (erf : ℝ → ℝ) (gaussian : S → ℝ × S)
    (d d2 : DiscreteDistribution ℝ V) (n : Nat) (s : S) (hn : n ≠ size d)
    (h : set_uniform Real.exp Real.log d (n : Int) = some d2) :
    sample_variate Real.sqrt erf gaussian d2 s = none := by
  rw [set_uniform_ofNat] at h
  obtain ⟨_, _, _, _, hloc⟩ := log_unnormalized_prob_mass_some d d2 _ h
  apply sample_variate_unwritten
  intro x hx
  have hne : ¬ d.locations_.length = n := fun h => hn h.symm
  rw [hloc, List.length_replicate, resize, if_neg hne] at hx
  have := List.eq_of_mem_replicate hx
  exact absurd this (by simp)

/-- C27: `from_distribution(distribution, n)` with `n >= 1` defined draws returns an
equally-weighted population: `size() == n`, `prob_mass(i) == 1/n` for every `i < n`, and
`location(i)` is the variate of draw number `i` of `n` successive draws.  When the
distribution is the object itself, the call, in which every draw reads the members of the
object at the moment of the draw, returns what it returns for a separate distribution object
holding the weights and locations of before the call: every one of the `n` draws is made
from the population as it was before the call, and each new location is a location of that
population. -/
theorem from_distribution_resample :
    (∀ (V S : Type) (sample : S → Option (V × S)) (s s1 : S) (d : DiscreteDistribution ℝ V)
      (n : Nat) (locs : List (Option V)), 1 ≤ n →
      sample_loop sample n s = some (locs, s1) →
      ∃ d1, from_distribution Real.exp Real.log sample s d (n : Int) = some (d1, s1) ∧
        size d1 = n ∧ (∀ i, i < n → prob_mass d1 i = some (1 / (n : ℝ))) ∧
        ∀ i, i < n → ∃ si x sj, state_after sample i s = some si ∧
          sample si = some (x, sj) ∧ location d1 i = some (some x)) ∧
    (∀ (V S : Type) (erf : ℝ → ℝ) (gaussian : S → ℝ × S) (s s1 : S)
      (d d1 : DiscreteDistribution ℝ V) (n : Nat), 1 ≤ n →
      from_distribution_self Real.exp Real.log Real.sqrt erf gaussian s d (n : Int)
        = some (d1, s1) →
      size d1 = n ∧ (∀ i, i < n → prob_mass d1 i = some (1 / (n : ℝ))) ∧
      ∀ i, i < n → ∃ si x sj,
        state_after (sample_variate Real.sqrt erf gaussian d) i s = some si ∧
        sample_variate Real.sqrt erf gaussian d si = some (x, sj) ∧
        location d1 i = some (some x) ∧ some x ∈ d.locations_) ∧
    (∀ (V S : Type) (erf : ℝ → ℝ) (gaussian : S → ℝ × S) (s : S)
      (d : DiscreteDistribution ℝ V) (n : Int),
      from_distribution_self Real.exp Real.log Real.sqrt erf gaussian s d n
        = from_distribution Real.exp Real.log (sample_variate Real.sqrt erf gaussian d) s d
            n) := by
  refine ⟨?_, ?_, ?_⟩
  · intro V S sample s s1 d n locs hn hloop
    obtain ⟨d1, hfd, hsize, hp, hlocs⟩ := from_distribution_of_samples sample s s1 d n hn locs hloop
    obtain ⟨_, hidx⟩ := sample_loop_spec sample n s s1 locs hloop
    refine ⟨d1, hfd, hsize, ?_, ?_⟩
    · intro i hi
      rw [prob_mass, hp]
      simp [hi]
    · intro i hi
      obtain ⟨si, x, sj, hsi, hx, hget⟩ := hidx i hi
      exact ⟨si, x, sj, hsi, hx, by rw [location, hlocs]; exact hget⟩
  · intro V S erf gaussian s s1 d d1 n hn h
    rw [from_distribution_self_eq] at h
    obtain ⟨_, _, _, _, _, _, _, hloop⟩ :=
      from_distribution_some (sample_variate Real.sqrt erf gaussian d) s s1 d d1 (n : Int) h
    rw [Int.toNat_ofNat] at hloop
    obtain ⟨d2, hfd, hsize, hp, hlocs⟩ :=
      from_distribution_of_samples (sample_variate Real.sqrt erf gaussian d) s s1 d n hn _ hloop
    have hd : d2 = d1 := by
      rw [hfd] at h
      simp only [Option.some.injEq, Prod.mk.injEq] at h
      exact h.1
    subst hd
    obtain ⟨_, hidx⟩ := sample_loop_spec _ n s s1 _ hloop
    refine ⟨hsize, ?_, ?_⟩
    · intro i hi
      rw [prob_mass, hp]
      simp [hi]
    · intro i hi
      obtain ⟨si, x, sj, hsi, hx, hget⟩ := hidx i hi
      exact ⟨si, x, sj, hsi, hx, hget, sample_variate_mem erf gaussian d si sj x hx⟩
  · intro V S erf gaussian s d n
    exact from_distribution_self_eq erf gaussian s d n

/-- A distribution whose draws are `0, 1, 2, ...` sampled twice; and the population with
locations `-1, 0, 1` and cumulative table `[0.25, 0.75, 1.0]` resampled to size 2 with a
generator that returns the normal samples `-1` and `1` (the uniform samples are `0.25` and
`0.75` with the function that is `-1/2` below 0 and `1/2` from 0 on in the place of `erf`):
the two draws select the locations `-1` and `0` of the population of before the call. -/
theorem from_distribution_resample_witness :
    (∃ d1, from_distribution Real.exp Real.log (fun k : Nat => some (k, k + 1)) 0
        (empty : DiscreteDistribution ℝ Nat) ((2 : ℕ) : Int) = some (d1, 2) ∧
      size d1 = 2 ∧ (∀ i, i < 2 → prob_mass d1 i = some (1 / ((2 : ℕ) : ℝ))) ∧
      ∀ i, i < 2 → ∃ si x sj,
        state_after (fun k : Nat => some (k, k + 1)) i 0 = some si ∧
        (fun k : Nat => some (k, k + 1)) si = some (x, sj) ∧
        location d1 i = some (some x)) ∧
    ∃ d1, from_distribution_self Real.exp Real.log Real.sqrt
        (fun x : ℝ => if x < 0 then -1 / 2 else 1 / 2)
        (fun k : Nat => ((if k = 0 then -1 else 1 : ℝ), k + 1)) 0
        ({ locations_ := [some (-1), some 0, some 1],
           log_prob_mass_ := [Real.log 0.25, Real.log 0.5, Real.log 0.25],
           prob_mass_ := [0.25, 0.5, 0.25], cumul_distr_ := [0.25, 0.75, 1.0] } :
          DiscreteDistribution ℝ ℤ) ((2 : ℕ) : Int) = some (d1, 2) ∧
      size d1 = 2 ∧ prob_mass d1 0 = some (1 / ((2 : ℕ) : ℝ)) ∧
      location d1 0 = some (some (-1)) ∧ location d1 1 = some (some 0) := by
  constructor
  · exact from_distribution_resample.1 Nat Nat (fun k : Nat => some (k, k + 1)) 0 2 empty 2
      [some 0, some 1] (by decide) rfl
  · have hsqrt : (0 : ℝ) < Real.sqrt 2.0 := Real.sqrt_pos.2 (by norm_num)
    have hneg : (-1 : ℝ) / Real.sqrt 2.0 < 0 := div_neg_of_neg_of_pos (by norm_num) hsqrt
    have hpos : ¬ ((1 : ℝ) / Real.sqrt 2.0 < 0) := not_lt.2 (by positivity)
    have hs0 : sample_variate Real.sqrt (fun x : ℝ => if x < 0 then -1 / 2 else 1 / 2)
        (fun k : Nat => ((if k = 0 then -1 else 1 : ℝ), k + 1))
        ({ locations_ := [some (-1), some 0, some 1],
           log_prob_mass_ := [Real.log 0.25, Real.log 0.5, Real.log 0.25],
           prob_mass_ := [0.25, 0.5, 0.25], cumul_distr_ := [0.25, 0.75, 1.0] } :
          DiscreteDistribution ℝ ℤ) 0 = some (-1, 1) := by
      simp only [sample_variate, sample, map_standard_normal, map_standard_uniform, scan_cdf,
        if_true, if_pos hneg]
      norm_num
    have hs1 : sample_variate Real.sqrt (fun x : ℝ => if x < 0 then -1 / 2 else 1 / 2)
        (fun k : Nat => ((if k = 0 then -1 else 1 : ℝ), k + 1))
        ({ locations_ := [some (-1), some 0, some 1],
           log_prob_mass_ := [Real.log 0.25, Real.log 0.5, Real.log 0.25],
           prob_mass_ := [0.25, 0.5, 0.25], cumul_distr_ := [0.25, 0.75, 1.0] } :
          DiscreteDistribution ℝ ℤ) 1 = some (0, 2) := by
      simp only [sample_variate, sample, map_standard_normal, map_standard_uniform, scan_cdf,
        one_ne_zero, if_false, if_neg hpos]
      norm_num
    have hloop : sample_loop
        (sample_variate Real.sqrt (fun x : ℝ => if x < 0 then -1 / 2 else 1 / 2)
          (fun k : Nat => ((if k = 0 then -1 else 1 : ℝ), k + 1))
          ({ locations_ := [some (-1), some 0, some 1],
             log_prob_mass_ := [Real.log 0.25, Real.log 0.5, Real.log 0.25],
             prob_mass_ := [0.25, 0.5, 0.25], cumul_distr_ := [0.25, 0.75, 1.0] } :
            DiscreteDistribution ℝ ℤ)) 2 0 = some ([some (-1), some 0], 2) := by
      simp only [sample_loop, Option.bind_eq_bind, Option.pure_def, hs0, Option.some_bind, hs1]
    obtain ⟨d1, hfd, _, _, hlocs⟩ := from_distribution_of_samples _ 0 2
      ({ locations_ := [some (-1), some 0, some 1],
         log_prob_mass_ := [Real.log 0.25, Real.log 0.5, Real.log 0.25],
         prob_mass_ := [0.25, 0.5, 0.25], cumul_distr_ := [0.25, 0.75, 1.0] } :
        DiscreteDistribution ℝ ℤ) 2 (by decide) _ hloop
    rw [← from_distribution_self_eq] at hfd
    obtain ⟨hsize, hp, _⟩ := from_distribution_resample.2.1 ℤ Nat
      (fun x : ℝ => if x < 0 then -1 / 2 else 1 / 2)
      (fun k : Nat => ((if k = 0 then -1 else 1 : ℝ), k + 1)) 0 2 _ d1 2 (by decide) hfd
    refine ⟨d1, hfd, hsize, hp 0 (by decide), ?_, ?_⟩
    · rw [location, hlocs]
      rfl
    · rw [location, hlocs]
      rfl

end DiscreteDistribution

end fl

/-! # StandardNormalDistribution: moments, resizing, determinism -/

namespace bfl

namespace StandardNormalDistribution

variable {G : Type}

theorem draw_loop_length (normal : G → ℝ × G) :
    ∀ (k : Nat) (g : G), (draw_loop normal k g).1.length = k := by
  intro k
  induction k with
  | zero => intro g; rfl
  | succ k ih => intro g; simp [draw_loop, ih]

theorem draw_loop_add (normal : G → ℝ × G) :
    ∀ (m n : Nat) (g : G),
      draw_loop normal (m + n) g
        = ((draw_loop normal m g).1 ++ (draw_loop normal n (draw_loop normal m g).2).1,
           (draw_loop normal n (draw_loop normal m g).2).2) := by
  intro m
  induction m with
  | zero => intro n g; simp [draw_loop]
  | succ m ih =>
    intro n g
    have e : m + 1 + n = (m + n) + 1 := by omega
    rw [e]
    simp only [draw_loop, ih, List.cons_append]

/-- One `sample()` on an object whose dimension fits its variate type: the next
`dimension_` numbers of the generator, and only the generator changes. -/
theorem sample_eq (size_at_compile_time : Option Nat) (normal : G → ℝ × G)
    (a : StandardNormalDistribution ℝ G)
    (hfit : ∀ n, size_at_compile_time = some n → a.dimension_ = n) :
    sample size_at_compile_time normal a
      = some ((draw_loop normal a.dimension_ a.generator_).1,
          { a with generator_ := (draw_loop normal a.dimension_ a.generator_).2 }) := by
  cases size_at_compile_time with
  | none => simp [sample]
  | some n => simp [sample, hfit n rfl]

/-- The first `k` samples are the first `k * dimension_` numbers of the generator, cut into
vectors of length `dimension_`. -/
theorem samples_eq (size_at_compile_time : Option Nat) (normal : G → ℝ × G) :
    ∀ (k : Nat) (a : StandardNormalDistribution ℝ G),
      (∀ n, size_at_compile_time = some n → a.dimension_ = n) →
      ∃ vs, samples size_at_compile_time normal k a
          = some (vs, { a with
              generator_ := (draw_loop normal (k * a.dimension_) a.generator_).2 }) ∧
        vs.length = k ∧ (∀ v ∈ vs, v.length = a.dimension_) ∧
        vs.flatten = (draw_loop normal (k * a.dimension_) a.generator_).1 := by
  intro k
  induction k with
  | zero =>
    intro a _
    exact ⟨[], by simp [samples, draw_loop], rfl, by simp, by simp [draw_loop]⟩
  | succ k ih =>
    intro a hfit
    obtain ⟨vs, hvs, hlen, hall, hflat⟩ := ih
      { a with generator_ := (draw_loop normal a.dimension_ a.generator_).2 } hfit
    have e : (k + 1) * a.dimension_ = a.dimension_ + k * a.dimension_ := by ring
    refine ⟨(draw_loop normal a.dimension_ a.generator_).1 :: vs, ?_, by simp [hlen], ?_, ?_⟩
    · simp only [samples, sample_eq size_at_compile_time normal a hfit, hvs,
        Option.bind_eq_bind, Option.some_bind, Option.pure_def, e, draw_loop_add]
    · intro v hv
      rcases List.mem_cons.mp hv with h | h
      · rw [h]; exact draw_loop_length normal _ _
      · exact hall v h
    · rw [List.flatten_cons, hflat, e, draw_loop_add]

theorem new_some (size_at_compile_time : Option Nat) (mt19937_64 : Nat → G) (seed dim : Nat)
    (a : StandardNormalDistribution ℝ G)
    (h : new size_at_compile_time mt19937_64 seed dim = some a) :
    a = { dimension_ := dim, mean_ := List.replicate dim 0, covariance_ := List.replicate dim 1,
          seed_ := seed, generator_ := mt19937_64 seed } ∧
      ∀ n, size_at_compile_time = some n → dim = n := by
  unfold new at h
  cases size_at_compile_time with
  | none =>
    simp only [if_true, Option.some.injEq] at h
    exact ⟨h.symm, by intro n hn; exact absurd hn (by simp)⟩
  | some m =>
    by_cases hm : dim = m
    · simp only [hm, decide_True, if_true, Option.some.injEq] at h
      refine ⟨by rw [← h, hm], ?_⟩
      intro n hn
      simp only [Option.some.injEq] at hn
      omega
    · simp [hm] at h

/-- C23 (the code after a resize): a dynamically-sized distribution constructed with
dimension 2 and resized with `dimension(3)`.  The call succeeds and `dimension()` returns 3,
a sample has 3 rows, but `mean()` is still the zero vector of length 2 and `covariance()` the
identity of size 2: `dimension(new_dimension)` assigns `dimension_` only.  Before any resize,
and in the scalar specialisation, the moments are as claimed. -/
theorem moments_after_resize (mt19937_64 : Nat → G) (normal : G → ℝ × G) (seed : Nat) :
    (∃ a b : StandardNormalDistribution ℝ G, new none mt19937_64 seed 2 = some a ∧
      set_dimension none a 3 = (b, Except.ok ()) ∧ dimension b = 3 ∧
      mean b = [0, 0] ∧ covariance b = [1, 1] ∧
      ∃ v c, sample none normal b = some (v, c) ∧ v.length = 3 ∧
        dimension c = 3 ∧ mean c = [0, 0] ∧ covariance c = [1, 1]) ∧
    (∀ (size_at_compile_time : Option Nat) (dim k : Nat) (a : StandardNormalDistribution ℝ G),
      new size_at_compile_time mt19937_64 seed dim = some a →
      ∃ vs b, samples size_at_compile_time normal k a = some (vs, b) ∧
        mean b = List.replicate (dimension b) 0 ∧
        covariance b = List.replicate (dimension b) 1) ∧
    (∀ k : Nat,
      StandardNormalDistributionScalar.mean
        (StandardNormalDistributionScalar.samples normal k
          (StandardNormalDistributionScalar.new mt19937_64 seed)).2 = 0 ∧
      StandardNormalDistributionScalar.covariance
        (StandardNormalDistributionScalar.samples normal k
          (StandardNormalDistributionScalar.new mt19937_64 seed)).2 = 1) := by
  refine ⟨?_, ?_, ?_⟩
  · refine ⟨_, _, rfl, rfl, rfl, rfl, rfl, ?_⟩
    refine ⟨_, _, rfl, ?_, rfl, rfl, rfl⟩
    exact draw_loop_length normal 3 _
  · intro size_at_compile_time dim k a ha
    obtain ⟨hnew, hfit⟩ := new_some size_at_compile_time mt19937_64 seed dim a ha
    subst hnew
    obtain ⟨vs, hvs, _⟩ := samples_eq size_at_compile_time normal k
      { dimension_ := dim, mean_ := List.replicate dim 0, covariance_ := List.replicate dim 1,
        seed_ := seed, generator_ := mt19937_64 seed } hfit
    exact ⟨vs, _, hvs, rfl, rfl⟩
  · intro k
    have key : ∀ (k : Nat) (a : StandardNormalDistributionScalar ℝ G),
        (StandardNormalDistributionScalar.samples normal k a).2.mean_ = a.mean_ ∧
        (StandardNormalDistributionScalar.samples normal k a).2.var_ = a.var_ := by
      intro k
      induction k with
      | zero => intro a; exact ⟨rfl, rfl⟩
      | succ k ih =>
        intro a
        simp only [StandardNormalDistributionScalar.samples]
        exact ih (StandardNormalDistributionScalar.sample normal a).2
    exact key k (StandardNormalDistributionScalar.new mt19937_64 seed)

/-- C24: `dimension(n)` on a dynamically-sized variate returns and makes `dimension()` return
`n`; on a fixed-size variate a call with `n` different from the current dimension throws, the
thrown report being that of `utils::throw_message`, and leaves the object, hence
`dimension()`, unchanged (a call with the current dimension returns); on the scalar
specialisation every call throws and leaves the object unchanged. -/
theorem set_dimension_spec :
    (∀ (a : StandardNormalDistribution ℝ G) (n : Nat),
      (set_dimension none a n).2 = Except.ok () ∧ dimension (set_dimension none a n).1 = n) ∧
    (∀ (N : Nat) (a : StandardNormalDistribution ℝ G) (n : Nat), n ≠ dimension a →
      ∃ msg, set_dimension (some N) a n = (a, Except.error msg) ∧
        msg = utils.throw_message "STANDARDGAUSSIAN::DIMENSION"
          "Attempt to resize a fixed-size distribution."
          ("Eigen matrix size is: " ++ toString a.dimension_ ++ ". Requested is: "
            ++ toString n ++ ".")) ∧
    (∀ (N : Nat) (a : StandardNormalDistribution ℝ G),
      set_dimension (some N) a (dimension a) = (a, Except.ok ())) ∧
    (∀ (a : StandardNormalDistributionScalar ℝ G) (n : Nat),
      ∃ msg, StandardNormalDistributionScalar.set_dimension a n = (a, Except.error msg)) := by
  refine ⟨?_, ?_, ?_, ?_⟩
  · intro a n
    by_cases h : a.dimension_ = n
    · simp [set_dimension, h, dimension]
    · simp [set_dimension, h, dimension]
  · intro N a n hn
    have h : ¬ (a.dimension_ = n) := fun h => hn (by rw [dimension, h])
    exact ⟨_, by simp [set_dimension, h], rfl⟩
  · intro N a
    simp [set_dimension, dimension]
  · intro a n
    exact ⟨_, rfl⟩

/-- A three-row fixed-size distribution asked for dimension 4, and a dynamic one. -/
theorem set_dimension_spec_witness :
    (∃ msg, set_dimension (some 3)
        ({ dimension_ := 3, mean_ := [0, 0, 0], covariance_ := [1, 1, 1], seed_ := 1,
           generator_ := 0 } : StandardNormalDistribution ℝ Nat) 4
      = (({ dimension_ := 3, mean_ := [0, 0, 0], covariance_ := [1, 1, 1], seed_ := 1,
            generator_ := 0 } : StandardNormalDistribution ℝ Nat), Except.error msg) ∧
      msg = utils.throw_message "STANDARDGAUSSIAN::DIMENSION"
        "Attempt to resize a fixed-size distribution."
        ("Eigen matrix size is: " ++ toString 3 ++ ". Requested is: " ++ toString 4 ++ ".")) ∧
    dimension (set_dimension none
      ({ dimension_ := 3, mean_ := [0, 0, 0], covariance_ := [1, 1, 1], seed_ := 1,
         generator_ := 0 } : StandardNormalDistribution ℝ Nat) 4).1 = 4 :=
  ⟨(@set_dimension_spec Nat).2.1 3 _ 4 (by decide), ((@set_dimension_spec Nat).1 _ 4).2⟩

/-- C25: two instances constructed with the same seed and the same dimension return the same
sequence of samples for every number `k` of `sample()` calls, namely the first `k * dim`
numbers drawn by a generator seeded with `seed`, cut into vectors of `dim` rows; the
constructor without seed is the constructor with seed 1; the same holds for the scalar
specialisation. -/
theorem sample_deterministic (size_at_compile_time : Option Nat) (mt19937_64 : Nat → G)
    (normal : G → ℝ × G) (seed dim k : Nat) (a b : StandardNormalDistribution ℝ G)
    (ha : new size_at_compile_time mt19937_64 seed dim = some a)
    (hb : new size_at_compile_time mt19937_64 seed dim = some b) :
    (∃ vs a1 b1, samples size_at_compile_time normal k a = some (vs, a1) ∧
      samples size_at_compile_time normal k b = some (vs, b1) ∧
      vs.length = k ∧ (∀ v ∈ vs, v.length = dim) ∧
      vs.flatten = (draw_loop normal (k * dim) (mt19937_64 seed)).1) ∧
    (new_default size_at_compile_time mt19937_64 dim
      = (new size_at_compile_time mt19937_64 1 dim : Option (StandardNormalDistribution ℝ G))) ∧
    (StandardNormalDistributionScalar.samples normal k
        (StandardNormalDistributionScalar.new mt19937_64 seed)).1
      = (draw_loop normal k (mt19937_64 seed)).1 ∧
    (StandardNormalDistributionScalar.new_default mt19937_64
      = (StandardNormalDistributionScalar.new mt19937_64 1 :
          StandardNormalDistributionScalar ℝ G)) := by
  obtain ⟨hnewa, hfit⟩ := new_some size_at_compile_time mt19937_64 seed dim a ha
  obtain ⟨hnewb, _⟩ := new_some size_at_compile_time mt19937_64 seed dim b hb
  refine ⟨?_, rfl, ?_, rfl⟩
  · obtain ⟨vs, hvs, hlen, hall, hflat⟩ := samples_eq size_at_compile_time normal k
      { dimension_ := dim, mean_ := List.replicate dim 0, covariance_ := List.replicate dim 1,
        seed_ := seed, generator_ := mt19937_64 seed } hfit
    subst hnewa
    subst hnewb
    exact ⟨vs, _, _, hvs, hvs, hlen, hall, hflat⟩
  · have key : ∀ (k : Nat) (c : StandardNormalDistributionScalar ℝ G),
        (StandardNormalDistributionScalar.samples normal k c).1
          = (draw_loop normal k c.generator_).1 := by
      intro k
      induction k with
      | zero => intro c; rfl
      | succ k ih =>
        intro c
        simp only [StandardNormalDistributionScalar.samples, draw_loop]
        rw [ih]
        rfl
    exact key k _

/-- A counter as generator (`normal g = (g, g + 1)`), seed 5, dimension 2, three samples. -/
theorem sample_deterministic_witness :
    ∃ vs a1 b1,
      samples none (fun g : Nat => ((g : ℝ), g + 1)) 3
        ({ dimension_ := 2, mean_ := List.replicate 2 0, covariance_ := List.replicate 2 1,
           seed_ := 5, generator_ := 5 } : StandardNormalDistribution ℝ Nat) = some (vs, a1) ∧
      samples none (fun g : Nat => ((g : ℝ), g + 1)) 3
        ({ dimension_ := 2, mean_ := List.replicate 2 0, covariance_ := List.replicate 2 1,
           seed_ := 5, generator_ := 5 } : StandardNormalDistribution ℝ Nat) = some (vs, b1) ∧
      vs.length = 3 ∧ (∀ v ∈ vs, v.length = 2) ∧
      vs.flatten = (draw_loop (fun g : Nat => ((g : ℝ), g + 1)) (3 * 2) 5).1 :=
  (sample_deterministic none (fun seed => seed) (fun g : Nat => ((g : ℝ), g + 1)) 5 2 3
    _ _ rfl rfl).1

end StandardNormalDistribution

end bfl

/-! # JointDistribution: composition of the moments -/

namespace fl

namespace JointDistribution

theorem foldl_dimension (ds : List (Marginal ℝ)) : ∀ acc : Nat,
    ds.foldl (fun joint_dim distribution => joint_dim + distribution.dimension) acc
      = acc + (ds.map (fun distribution => distribution.dimension)).sum := by
  induction ds with
  | nil => intro acc; simp
  | cons d ds ih =>
    intro acc
    simp only [List.foldl_cons, ih, List.map_cons, List.sum_cons]
    omega

theorem dimension_eq_sum (ds : List (Marginal ℝ)) :
    dimension ds = (ds.map (fun distribution => distribution.dimension)).sum := by
  rw [dimension, expend_dimension, foldl_dimension]
  simp

theorem middleRows_assign_spec (pre v : List ℝ) (offset dim r : Nat)
    (hpre : pre.length = offset) (hv : v.length = dim) :
    middleRows_assign (pre.map some ++ List.replicate (dim + r) none) offset dim v
      = some ((pre ++ v).map some ++ List.replicate r none) := by
  have hlen : (pre.map some).length = offset := by simp [hpre]
  have htake : (pre.map some ++ List.replicate (dim + r) (none : Option ℝ)).take offset
      = pre.map some := by
    rw [← hlen, List.take_left']
    rfl
  have hdrop : (pre.map some ++ List.replicate (dim + r) (none : Option ℝ)).drop (offset + dim)
      = List.replicate r none := by
    rw [← hlen, List.drop_append]
    simp
  have hcond : offset + dim ≤ (pre.map some ++ List.replicate (dim + r) (none : Option ℝ)).length
      ∧ v.length = dim := by
    refine ⟨?_, hv⟩
    simp only [List.length_append, List.length_map, List.length_replicate, hpre]
    omega
  rw [middleRows_assign, if_pos hcond, htake, hdrop]
  simp

/-- The vector filled by `mean_`: the marginal means are written one after the other from
`offset` on. -/
theorem mean__spec (ds : List (Marginal ℝ)) :
    ∀ (pre : List ℝ) (offset r : Nat), ds ≠ [] → pre.length = offset →
      (∀ d ∈ ds, well_formed d) →
      mean_ ds (pre.map some
          ++ List.replicate ((ds.map (fun d => d.dimension)).sum + r) none) offset
        = some ((pre ++ (ds.map (fun d => d.mean)).flatten).map some
            ++ List.replicate r none) := by
  induction ds with
  | nil => intro pre offset r h; exact absurd rfl h
  | cons d rest ih =>
    intro pre offset r _ hpre hwf
    have hd : well_formed d := hwf d (by simp)
    cases rest with
    | nil =>
      simp only [mean_, List.map_cons, List.map_nil, List.sum_cons, List.sum_nil, add_zero,
        List.flatten_cons, List.flatten_nil, List.append_nil]
      exact middleRows_assign_spec pre d.mean offset d.dimension r hpre hd.1
    | cons e rest =>
      have hsum : ((d :: e :: rest).map (fun d => d.dimension)).sum + r
          = d.dimension + (((e :: rest).map (fun d => d.dimension)).sum + r) := by
        simp only [List.map_cons, List.sum_cons]
        omega
      rw [hsum]
      simp only [mean_, middleRows_assign_spec pre d.mean offset d.dimension _ hpre hd.1,
        Option.bind_eq_bind, Option.some_bind]
      rw [ih (pre ++ d.mean) (offset + d.dimension) r (by simp)
        (by rw [List.length_append, hpre, hd.1]) (fun x hx => hwf x (by simp [hx]))]
      simp

theorem offset_of_zero (ds : List (Marginal ℝ)) : offset_of ds 0 = 0 := by
  simp [offset_of]

theorem offset_of_succ (d : Marginal ℝ) (ds : List (Marginal ℝ)) (k : Nat) :
    offset_of (d :: ds) (k + 1) = d.dimension + offset_of ds k := by
  simp [offset_of]

theorem block_assign_spec (cov m : Mat ℝ) (offset dim : Nat)
    (hr : offset + dim ≤ cov.rows) (hc : offset + dim ≤ cov.cols)
    (hmr : m.rows = dim) (hmc : m.cols = dim) :
    ∃ cov1, block_assign cov offset dim m = some cov1 ∧ cov1.rows = cov.rows ∧
      cov1.cols = cov.cols ∧
      ∀ i j, cov1.coeff i j
        = if offset ≤ i ∧ i < offset + dim ∧ offset ≤ j ∧ j < offset + dim then
            m.coeff (i - offset) (j - offset)
          else cov.coeff i j := by
  rw [block_assign, if_pos ⟨hr, hc, hmr, hmc⟩]
  exact ⟨_, rfl, rfl, rfl, fun i j => rfl⟩

/-- The matrix filled by `covariance_`: nothing outside the rows and columns from `offset` on
is touched, marginal `k` lands on the diagonal block at its offset, and no coefficient in the
rows of one marginal and the columns of another is touched. -/
theorem covariance__spec (ds : List (Marginal ℝ)) :
    ∀ (cov : Mat ℝ) (offset : Nat), ds ≠ [] → (∀ d ∈ ds, well_formed d) →
      offset + (ds.map (fun d => d.dimension)).sum ≤ cov.rows →
      offset + (ds.map (fun d => d.dimension)).sum ≤ cov.cols →
      ∃ cov1, covariance_ ds cov offset = some cov1 ∧ cov1.rows = cov.rows ∧
        cov1.cols = cov.cols ∧
        (∀ i j, (i < offset ∨ j < offset) → cov1.coeff i j = cov.coeff i j) ∧
        (∀ (k : Nat) (d : Marginal ℝ), ds[k]? = some d → ∀ a b, a < d.dimension →
          b < d.dimension →
          cov1.coeff (offset + offset_of ds k + a) (offset + offset_of ds k + b)
            = d.covariance.coeff a b) ∧
        (∀ (k l : Nat) (d e : Marginal ℝ), ds[k]? = some d → ds[l]? = some e → k ≠ l →
          ∀ a b, a < d.dimension → b < e.dimension →
          cov1.coeff (offset + offset_of ds k + a) (offset + offset_of ds l + b)
            = cov.coeff (offset + offset_of ds k + a) (offset + offset_of ds l + b)) := by
  induction ds with
  | nil => intro cov offset h; exact absurd rfl h
  | cons d rest ih =>
    intro cov offset _ hwf hrows hcols
    have hd : well_formed d := hwf d (by simp)
    simp only [List.map_cons, List.sum_cons] at hrows hcols
    obtain ⟨cov1, hb, hr1, hc1, hcoeff⟩ := block_assign_spec cov d.covariance offset d.dimension
      (by omega) (by omega) hd.2.1 hd.2.2
    cases rest with
    | nil =>
      refine ⟨cov1, by simp only [covariance_, hb], hr1, hc1, ?_, ?_, ?_⟩
      · intro i j hij
        rw [hcoeff, if_neg (by omega)]
      · intro k e hk a b ha hb2
        cases k with
        | zero =>
          simp only [List.getElem?_cons_zero, Option.some.injEq] at hk
          subst hk
          rw [hcoeff, offset_of_zero, if_pos (by omega)]
          congr 1 <;> omega
        | succ k => simp at hk
      · intro k l e f hk hl hkl a b _ _
        cases k with
        | zero =>
          cases l with
          | zero => exact absurd rfl hkl
          | succ l => simp at hl
        | succ k => simp at hk
    | cons e rest =>
      obtain ⟨cov2, hrec, hr2, hc2, hframe, hdiag, hoff⟩ := ih cov1 (offset + d.dimension)
        (by simp) (fun x hx => hwf x (by simp [hx])) (by rw [hr1]; omega) (by rw [hc1]; omega)
      refine ⟨cov2, ?_, by rw [hr2, hr1], by rw [hc2, hc1], ?_, ?_, ?_⟩
      · simp only [covariance_, hb, Option.bind_eq_bind, Option.some_bind, hrec]
      · intro i j hij
        rw [hframe i j (by omega), hcoeff, if_neg (by omega)]
      · intro k f hk a b ha hb2
        cases k with
        | zero =>
          simp only [List.getElem?_cons_zero, Option.some.injEq] at hk
          subst hk
          rw [offset_of_zero, hframe _ _ (by omega), hcoeff, if_pos (by omega)]
          congr 1 <;> omega
        | succ k =>
          simp only [List.getElem?_cons_succ] at hk
          rw [offset_of_succ]
          have := hdiag k f hk a b ha hb2
          have e1 : offset + (d.dimension + offset_of (e :: rest) k) + a
              = offset + d.dimension + offset_of (e :: rest) k + a := by omega
          have e2 : offset + (d.dimension + offset_of (e :: rest) k) + b
              = offset + d.dimension + offset_of (e :: rest) k + b := by omega
          rw [e1, e2]
          exact this
      · intro k l f g hk hl hkl a b ha hb2
        cases k with
        | zero =>
          simp only [List.getElem?_cons_zero, Option.some.injEq] at hk
          subst hk
          cases l with
          | zero => exact absurd rfl hkl
          | succ l =>
            rw [offset_of_zero, offset_of_succ, hframe _ _ (by omega), hcoeff,
              if_neg (by omega)]
        | succ k =>
          simp only [List.getElem?_cons_succ] at hk
          cases l with
          | zero =>
            simp only [List.getElem?_cons_zero, Option.some.injEq] at hl
            subst hl
            rw [offset_of_zero, offset_of_succ, hframe _ _ (by omega), hcoeff,
              if_neg (by omega)]
          | succ l =>
            simp only [List.getElem?_cons_succ] at hl
            rw [offset_of_succ, offset_of_succ]
            have := hoff k l f g hk hl (by omega) a b ha hb2
            have e1 : offset + (d.dimension + offset_of (e :: rest) k) + a
                = offset + d.dimension + offset_of (e :: rest) k + a := by omega
            have e2 : offset + (d.dimension + offset_of (e :: rest) l) + b
                = offset + d.dimension + offset_of (e :: rest) l + b := by omega
            rw [e1, e2, this, hcoeff, if_neg (by omega)]

/-- In the concatenation of the marginal means, marginal `k` starts at its offset. -/
theorem flatten_mean_at_offset (ds : List (Marginal ℝ)) :
    (∀ d ∈ ds, well_formed d) → ∀ (k : Nat) (d : Marginal ℝ), ds[k]? = some d →
      ∀ a, a < d.dimension →
      ((ds.map (fun d => d.mean)).flatten)[offset_of ds k + a]? = d.mean[a]? := by
  induction ds with
  | nil => intro _ k d hk; simp at hk
  | cons d0 rest ih =>
    intro hwf k d hk a ha
    have hd0 : well_formed d0 := hwf d0 (by simp)
    cases k with
    | zero =>
      simp only [List.getElem?_cons_zero, Option.some.injEq] at hk
      subst hk
      rw [offset_of_zero, List.map_cons, List.flatten_cons, Nat.zero_add,
        List.getElem?_append_left (by rw [hd0.1]; exact ha)]
    | succ k =>
      simp only [List.getElem?_cons_succ] at hk
      rw [offset_of_succ, List.map_cons, List.flatten_cons,
        List.getElem?_append_right (by rw [hd0.1]; omega)]
      have e : d0.dimension + offset_of rest k + a - d0.mean.length = offset_of rest k + a := by
        rw [hd0.1]; omega
      rw [e]
      exact ih (fun x hx => hwf x (by simp [hx])) k d hk a ha

/-- C28: for a joint distribution of at least one marginal (each with a mean of `dimension()`
rows and a square covariance of that size), `dimension()` is the sum of the marginal
dimensions; `mean()` is the concatenation of the marginal means in order, marginal `k`
starting at `offset = sum of the preceding dimensions`; and `covariance()` is square of size
`dimension()`, holds the covariance of marginal `k` in the diagonal block at that offset and
is zero in the rows of one marginal and the columns of another. -/
theorem joint_moments (ds : List (Marginal ℝ)) (hne : ds ≠ [])
    (hwf : ∀ d ∈ ds, well_formed d) :
    dimension ds = (ds.map (fun d => d.dimension)).sum ∧
    mean ds = some ((ds.map (fun d => d.mean)).flatten.map some) ∧
    (∀ (k : Nat) (d : Marginal ℝ), ds[k]? = some d → ∀ a, a < d.dimension →
      ((ds.map (fun d => d.mean)).flatten)[offset_of ds k + a]? = d.mean[a]?) ∧
    ∃ cov, covariance ds = some cov ∧ cov.rows = dimension ds ∧ cov.cols = dimension ds ∧
      (∀ (k : Nat) (d : Marginal ℝ), ds[k]? = some d → ∀ a b, a < d.dimension →
        b < d.dimension →
        cov.coeff (offset_of ds k + a) (offset_of ds k + b) = d.covariance.coeff a b) ∧
      (∀ (k l : Nat) (d e : Marginal ℝ), ds[k]? = some d → ds[l]? = some e → k ≠ l →
        ∀ a b, a < d.dimension → b < e.dimension →
        cov.coeff (offset_of ds k + a) (offset_of ds l + b) = 0) := by
  have hdim := dimension_eq_sum ds
  refine ⟨hdim, ?_, flatten_mean_at_offset ds hwf, ?_⟩
  · have h := mean__spec ds [] 0 0 hne rfl hwf
    simp only [List.map_nil, List.nil_append, add_zero, List.replicate_zero,
      List.append_nil] at h
    rw [mean, hdim]
    exact h
  · obtain ⟨cov, hcov, hr, hc, _, hdiag, hoff⟩ := covariance__spec ds
      { rows := dimension ds, cols := dimension ds, coeff := fun _ _ => 0 } 0 hne hwf
      (by simp [hdim]) (by simp [hdim])
    refine ⟨cov, hcov, hr, hc, ?_, ?_⟩
    · intro k d hk a b ha hb
      have := hdiag k d hk a b ha hb
      simpa using this
    · intro k l d e hk hl hkl a b ha hb
      have := hoff k l d e hk hl hkl a b ha hb
      simpa using this

/-- Marginals of dimensions 1 and 2: the joint dimension is 3, the joint mean is
`[5, 7, 9]`, the second marginal's covariance `[[1, 2], [3, 4]]` sits in rows and columns
1..2, and the coefficients (0, 1) and (2, 0) are zero. -/
theorem joint_moments_witness :
    dimension
      ([{ dimension := 1, mean := [5], covariance := ⟨1, 1, fun _ _ => 6⟩ },
        { dimension := 2, mean := [7, 9],
          covariance := ⟨2, 2, fun i j => 2 * (i : ℝ) + j + 1⟩ }] : List (Marginal ℝ)) = 3 ∧
    mean
      ([{ dimension := 1, mean := [5], covariance := ⟨1, 1, fun _ _ => 6⟩ },
        { dimension := 2, mean := [7, 9],
          covariance := ⟨2, 2, fun i j => 2 * (i : ℝ) + j + 1⟩ }] : List (Marginal ℝ))
      = some [some 5, some 7, some 9] ∧
    ∃ cov, covariance
      ([{ dimension := 1, mean := [5], covariance := ⟨1, 1, fun _ _ => 6⟩ },
        { dimension := 2, mean := [7, 9],
          covariance := ⟨2, 2, fun i j => 2 * (i : ℝ) + j + 1⟩ }] : List (Marginal ℝ))
        = some cov ∧
      cov.coeff 0 0 = 6 ∧ cov.coeff 2 1 = 3 ∧ cov.coeff 0 1 = 0 ∧ cov.coeff 2 0 = 0 := by
  obtain ⟨hdim, hmean, _, cov, hcov, _, _, hdiag, hoff⟩ := joint_moments
    ([{ dimension := 1, mean := [5], covariance := ⟨1, 1, fun _ _ => 6⟩ },
      { dimension := 2, mean := [7, 9],
        covariance := ⟨2, 2, fun i j => 2 * (i : ℝ) + j + 1⟩ }] : List (Marginal ℝ))
    (by simp) (by
      intro d hd
      simp only [List.mem_cons, List.mem_singleton, List.not_mem_nil, or_false] at hd
      rcases hd with rfl | rfl <;> exact ⟨rfl, rfl, rfl⟩)
  refine ⟨by rw [hdim]; rfl, by rw [hmean]; rfl, cov, hcov, ?_, ?_, ?_, ?_⟩
  · have := hdiag 0 _ rfl 0 0 (by decide) (by decide)
    simpa [offset_of] using this
  · have := hdiag 1 _ rfl 1 0 (by decide) (by decide)
    simp [offset_of] at this
    rw [this]; norm_num
  · have := hoff 0 1 _ _ rfl rfl (by decide) 0 0 (by decide) (by decide)
    simpa [offset_of] using this
  · have := hoff 1 0 _ _ rfl rfl (by decide) 1 0 (by decide) (by decide)
    simpa [offset_of] using this

end JointDistribution

end fl

/-! ## Parameter -/

namespace bfl

namespace Parameter

variable {F D : Type}

/-- The six `operator=(datum)` return on an object whose `pimpl_` is not null, with the
datum and its type tag stored whatever was held before. -/
theorem assign_datum_some (p : Parameter F D) (hp : p.pimpl_ ≠ none) (datum : Data F D)
    (type : DatumType) :
    assign_datum p datum type = some { pimpl_ := some { datum_ := datum, type_ := type } } := by
  cases h : p.pimpl_ with
  | none => exact absurd h hp
  | some impl => simp [assign_datum, h]

/-- C29: store/read round trip of `Parameter`.  For every `bool`, `int`, `unsigned int`,
`float`, `double` and `std::string` value, the `Parameter` constructed from the value returns
exactly that value from the accessor of the same type (`as_bool`, `as_int`, `as_uint`,
`as_float`, `as_double`, `as_string`) without throwing; and on any `Parameter` `p` that owns
its contents (it was not moved from), whatever it held before, the assignment of the value
returns and leaves a `Parameter` whose accessor of the same type returns exactly the value. -/
theorem store_read_round_trip (ops : FloatOps F D) (p : Parameter F D)
    (hp : p.pimpl_ ≠ none) (b : Bool) (i : Int) (u : Nat) (f : F) (x : D) (s : String) :
    (as_bool ops (of_bool b : Parameter F D) = some (Except.ok b) ∧
      as_int ops (of_int i : Parameter F D) = some (Except.ok i) ∧
      as_uint ops (of_uint u : Parameter F D) = some (Except.ok u) ∧
      as_float ops (of_float f : Parameter F D) = some (Except.ok f) ∧
      as_double ops (of_double x : Parameter F D) = some (Except.ok x) ∧
      as_string ops (of_string s : Parameter F D) = some (Except.ok s)) ∧
    (∃ q, assign_bool p b = some q ∧ as_bool ops q = some (Except.ok b)) ∧
    (∃ q, assign_int p i = some q ∧ as_int ops q = some (Except.ok i)) ∧
    (∃ q, assign_uint p u = some q ∧ as_uint ops q = some (Except.ok u)) ∧
    (∃ q, assign_float p f = some q ∧ as_float ops q = some (Except.ok f)) ∧
    (∃ q, assign_double p x = some q ∧ as_double ops q = some (Except.ok x)) ∧
    (∃ q, assign_string p s = some q ∧ as_string ops q = some (Except.ok s)) := by
  refine ⟨⟨rfl, rfl, rfl, rfl, rfl, rfl⟩, ?_, ?_, ?_, ?_, ?_, ?_⟩
  · exact ⟨_, assign_datum_some p hp _ _, rfl⟩
  · exact ⟨_, assign_datum_some p hp _ _, rfl⟩
  · exact ⟨_, assign_datum_some p hp _ _, rfl⟩
  · exact ⟨_, assign_datum_some p hp _ _, rfl⟩
  · exact ⟨_, assign_datum_some p hp _ _, rfl⟩
  · exact ⟨_, assign_datum_some p hp _ _, rfl⟩

/-- A `Parameter` constructed from the `int` 1 and then assigned the string `"abc"`, the
`double` 5/2 and the `bool` `true` in turn reads each back through the matching accessor. -/
theorem store_read_round_trip_witness :
    (∃ q, assign_string (of_int 1 : Parameter ℚ ℚ) "abc" = some q ∧
      as_string FloatOps.rational q = some (Except.ok "abc")) ∧
    (∃ q, assign_double (of_int 1 : Parameter ℚ ℚ) (5 / 2) = some q ∧
      as_double FloatOps.rational q = some (Except.ok (5 / 2))) ∧
    (∃ q, assign_bool (of_int 1 : Parameter ℚ ℚ) true = some q ∧
      as_bool FloatOps.rational q = some (Except.ok true)) ∧
    as_uint FloatOps.rational (of_uint 7 : Parameter ℚ ℚ) = some (Except.ok 7) := by
  have h := store_read_round_trip FloatOps.rational (of_int 1 : Parameter ℚ ℚ)
    (by simp [of_int]) true 0 7 0 (5 / 2) "abc"
  exact ⟨h.2.2.2.2.2.2, h.2.2.2.2.2.1, h.2.1, h.1.2.2.1⟩

end Parameter

/-! ## ParameterContainer -/

namespace ParameterContainer

variable {F D : Type}

/-- Overwriting the element under a label that is in the map puts the new value there. -/
theorem find_replace_self (data : List (String × Parameter F D)) (label : String)
    (value : Parameter F D) (h : find data label ≠ none) :
    find (replace data label value) label = some value := by
  induction data with
  | nil => exact absurd rfl h
  | cons e rest ih =>
    obtain ⟨key, old⟩ := e
    by_cases hk : key = label
    · simp [replace, find, hk]
    · simp only [find, if_neg hk] at h
      simp [replace, find, hk, ih h]

/-- Overwriting the element under one label leaves the element under another label. -/
theorem find_replace_other (data : List (String × Parameter F D)) (label l : String)
    (value : Parameter F D) (hl : l ≠ label) :
    find (replace data label value) l = find data l := by
  induction data with
  | nil => rfl
  | cons e rest ih =>
    obtain ⟨key, old⟩ := e
    by_cases hk : key = label
    · have hkl : ¬ key = l := fun h => hl (h.symm.trans hk)
      simp only [replace, if_pos hk, find, if_neg hkl]
    · simp only [replace, if_neg hk, find, ih]

/-- Inserting under a label that is not in the map puts the value there. -/
theorem find_append_self (data : List (String × Parameter F D)) (label : String)
    (value : Parameter F D) (h : find data label = none) :
    find (data ++ [(label, value)]) label = some value := by
  induction data with
  | nil => simp [find]
  | cons e rest ih =>
    obtain ⟨key, old⟩ := e
    by_cases hk : key = label
    · simp [find, hk] at h
    · simp only [find, if_neg hk] at h
      simp [find, hk, ih h]

/-- Inserting under one label leaves the element under another label. -/
theorem find_append_other (data : List (String × Parameter F D)) (label l : String)
    (value : Parameter F D) (hl : l ≠ label) :
    find (data ++ [(label, value)]) l = find data l := by
  induction data with
  | nil =>
    have h : ¬ label = l := fun h => hl h.symm
    simp [find, h]
  | cons e rest ih =>
    obtain ⟨key, old⟩ := e
    by_cases hkl : key = l
    · simp [find, hkl]
    · simp [find, hkl, ih]

/-- The data of the container after `operator[]`: the label is in the map, with the element
it had or a default-constructed one, and the other labels are as before. -/
theorem index_spec (c : ParameterContainer F D) (data : List (String × Parameter F D))
    (hc : c.pimpl_ = some data) (label : String) :
    ∃ value data0, index c label = some (value, { pimpl_ := some data0 }) ∧
      find data0 label = some value ∧
      (find data label = none → value = Parameter.new) ∧
      (∀ v, find data label = some v → value = v ∧ data0 = data) ∧
      ∀ l, l ≠ label → find data0 l = find data l := by
  cases hf : find data label with
  | none =>
    refine ⟨Parameter.new, data ++ [(label, Parameter.new)], ?_, ?_, fun _ => rfl, ?_, ?_⟩
    · simp [index, hc, hf]
    · exact find_append_self data label _ hf
    · intro v hv
      exact absurd hv (by simp)
    · intro l hl
      exact find_append_other data label l _ hl
  | some value =>
    refine ⟨value, data, ?_, hf, ?_, ?_, fun _ _ => rfl⟩
    · have : c = { pimpl_ := some data } := by
        cases c
        simp only at hc
        rw [hc]
      simp [index, hc, hf, this]
    · intro h
      exact absurd h (by simp)
    · intro v hv
      exact ⟨(Option.some.inj hv), rfl⟩

/-- C30: `ParameterContainer` behaves as a map from labels to `Parameter`s.  On a container
that owns its map, a statement `container[label] = ...` whose assignment leaves the value
`q` in the referenced element returns, and then (1) `container[label]` returns `q` and
leaves the container as it is, (2) the element under every other label `l` is the one from
before the assignment, so that a later assignment under another label does not change what
`container[label]` returns, and (3) reading a label that is not in the map returns a
default-constructed (empty) `Parameter`, which is in the map under that label afterwards. -/
theorem container_is_map (ops : FloatOps F D) (c : ParameterContainer F D)
    (data : List (String × Parameter F D)) (hc : c.pimpl_ = some data) (label : String)
    (op : Parameter F D → Option (Parameter F D)) (q : Parameter F D)
    (hop : ∀ value c0, index c label = some (value, c0) → op value = some q) :
    (∃ c1 data1, assign_at c label op = some c1 ∧ c1.pimpl_ = some data1 ∧
      index c1 label = some (q, c1) ∧
      (∀ l, l ≠ label → find data1 l = find data l) ∧
      (∀ l v, l ≠ label → find data l = some v → index c1 l = some (v, c1)) ∧
      (∀ l q2 c2, l ≠ label → assign_at c1 l (fun _ => some q2) = some c2 →
        index c2 label = some (q, c2))) ∧
    (find data label = none →
      ∃ c0 data0, index c label = some (Parameter.new, c0) ∧ c0.pimpl_ = some data0 ∧
        find data0 label = some Parameter.new ∧
        index c0 label = some (Parameter.new, c0) ∧
        (∀ l, l ≠ label → find data0 l = find data l) ∧
        (Parameter.new : Parameter F D).pimpl_
          = some { datum_ := Data.empty, type_ := DatumType.Empty } ∧
        Parameter.as_string ops (Parameter.new : Parameter F D)
          = some (Except.ok "Empty")) := by
  obtain ⟨value, data0, hidx, hfind0, hnew, _, hother0⟩ := index_spec c data hc label
  have hq := hop value _ hidx
  have hassign : assign_at c label op = some { pimpl_ := some (replace data0 label q) } := by
    simp [assign_at, hidx, hq]
  have hself : find (replace data0 label q) label = some q :=
    find_replace_self data0 label q (by simp [hfind0])
  have hread : ∀ (d : List (String × Parameter F D)) l v, find d l = some v →
      index ({ pimpl_ := some d } : ParameterContainer F D) l
        = some (v, { pimpl_ := some d }) := by
    intro d l v h
    simp [index, h]
  refine ⟨⟨_, _, hassign, rfl, hread _ _ _ hself, ?_, ?_, ?_⟩, ?_⟩
  · intro l hl
    rw [find_replace_other data0 label l q hl, hother0 l hl]
  · intro l v hl hv
    apply hread
    rw [find_replace_other data0 label l q hl, hother0 l hl, hv]
  · intro l q2 c2 hl h2
    obtain ⟨value2, data2, hidx2, _, _, _, hother2⟩ :=
      index_spec ({ pimpl_ := some (replace data0 label q) } : ParameterContainer F D)
        _ rfl l
    simp only [assign_at, hidx2, Option.some.injEq] at h2
    subst h2
    apply hread
    rw [find_replace_other data2 l label q2 (Ne.symm hl), hother2 label (Ne.symm hl), hself]
  · intro habs
    have hv := hnew habs
    subst hv
    exact ⟨_, _, hidx, rfl, hfind0, hread _ _ _ hfind0, hother0, rfl, rfl⟩

/-- On a new container, `container["a"] = 3` then `container["b"] = true`: reading `"a"`
returns the `Parameter` holding the `int` 3, and reading `"a"` on the new container returns
an empty `Parameter`. -/
theorem container_is_map_witness :
    (∃ c1 c2, assign_at (new : ParameterContainer ℚ ℚ) "a" (fun p => Parameter.assign_int p 3)
        = some c1 ∧
      assign_at c1 "b" (fun _ => some (Parameter.of_bool true)) = some c2 ∧
      index c2 "a" = some (Parameter.of_int 3, c2)) ∧
    ∃ c0, index (new : ParameterContainer ℚ ℚ) "a" = some (Parameter.new, c0) ∧
      index c0 "a" = some (Parameter.new, c0) := by
  have h := container_is_map FloatOps.rational (new : ParameterContainer ℚ ℚ) [] rfl "a"
    (fun p => Parameter.assign_int p 3) (Parameter.of_int 3)
    (by
      intro value c0 h
      simp only [index, new, find, Option.some.injEq, Prod.mk.injEq] at h
      rw [← h.1]
      rfl)
  obtain ⟨⟨c1, data1, h1, _, _, _, _, hlater⟩, hempty⟩ := h
  obtain ⟨c0, data0, hi0, _, _, hi1, _⟩ := hempty rfl
  have hc2 : ∃ c2, assign_at c1 "b" (fun _ => some (Parameter.of_bool true)) = some c2 := by
    simp only [assign_at, new, index, find, Parameter.assign_int, Parameter.assign_datum,
      Parameter.new, Option.some.injEq] at h1
    subst h1
    exact ⟨_, rfl⟩
  obtain ⟨c2, h2⟩ := hc2
  exact ⟨⟨c1, c2, h1, h2, hlater "b" _ c2 (by decide) h2⟩, c0, hi0, hi1⟩

end ParameterContainer

end bfl

/-! ## Parameter: the empty object and the conversion to `bool` -/

namespace bfl

namespace Parameter

variable {F D : Type}

/-- C31: a default-constructed `Parameter` is empty.  `as_string()` returns `"Empty"`,
`operator<<` writes `"Empty"` and does not throw, and each of `as_bool`, `as_int`, `as_uint`,
`as_float` and `as_double` throws the `std::runtime_error` of its `default` branch. -/
theorem default_constructed_empty (ops : FloatOps F D) :
    as_string ops (new : Parameter F D) = some (Except.ok "Empty") ∧
    stream_out ops (new : Parameter F D) = some (Except.ok "Empty") ∧
    as_bool ops (new : Parameter F D) = some (Except.error
      "ERROR::PARAMETER::OPERATOR::AS_BOOL\nERROR:\n\tType of datum is Unknown or Any. Cannot convert safely.") ∧
    as_int ops (new : Parameter F D) = some (Except.error
      "ERROR::PARAMETER::OPERATOR::AS_INT\nERROR:\n\tType of datum is Unknown or Any. Cannot convert safely.") ∧
    as_uint ops (new : Parameter F D) = some (Except.error
      "ERROR::PARAMETER::OPERATOR::AS_UINT\nERROR:\n\tType of datum is Unknown or Any. Cannot convert safely.") ∧
    as_float ops (new : Parameter F D) = some (Except.error
      "ERROR::PARAMETER::OPERATOR::AS_FLOAT\nERROR:\n\tType of datum is Unknown or Any. Cannot convert safely.") ∧
    as_double ops (new : Parameter F D) = some (Except.error
      "ERROR::PARAMETER::OPERATOR::AS_DOUBLE\nERROR:\n\tType of datum is Unknown or Any. Cannot convert safely.") := by
  refine ⟨rfl, ?_, rfl, rfl, rfl, rfl, rfl⟩
  simp [stream_out, new, as_string]

/-- C40 on the code: `as_bool()` of a stored `int`, `unsigned int`, `float` or `double` is
`true` exactly when the value is non-zero, but of a stored `std::string` it is the result of
`data.empty()`: `true` for the empty string and `false` for every non-empty one, such as
`"hello"`. -/
theorem as_bool_string_is_empty (ops : FloatOps F D) (i : Int) (u : Nat) (f : F) (x : D)
    (s : String) :
    as_bool ops (of_int i : Parameter F D) = some (Except.ok (decide (i ≠ 0))) ∧
    as_bool ops (of_uint u : Parameter F D) = some (Except.ok (decide (u ≠ 0))) ∧
    as_bool ops (of_float f : Parameter F D) = some (Except.ok (ops.float_nonzero f)) ∧
    as_bool ops (of_double x : Parameter F D) = some (Except.ok (ops.double_nonzero x)) ∧
    as_bool ops (of_string s : Parameter F D) = some (Except.ok s.isEmpty) ∧
    as_bool ops (of_string "hello" : Parameter F D) = some (Except.ok false) ∧
    as_bool ops (of_string "" : Parameter F D) = some (Except.ok true) := by
  refine ⟨?_, ?_, ?_, ?_, rfl, ?_, ?_⟩
  · by_cases h : i = 0 <;>
      simp [as_bool, of_int, as_bool_helper, any_cast_int, h, bind, Except.bind, pure, Except.pure]
  · by_cases h : u = 0 <;>
      simp [as_bool, of_uint, as_bool_helper, any_cast_uint, h, bind, Except.bind, pure,
        Except.pure]
  · cases h : ops.float_nonzero f <;>
      simp [as_bool, of_float, as_bool_helper, any_cast_float, h, bind, Except.bind, pure,
        Except.pure]
  · cases h : ops.double_nonzero x <;>
      simp [as_bool, of_double, as_bool_helper, any_cast_double, h, bind, Except.bind, pure,
        Except.pure]
  · have h : ("hello" : String).isEmpty = false := by decide
    simp [as_bool, of_string, as_bool_helper_string, any_cast_string, h, bind, Except.bind,
      pure, Except.pure]
  · have h : ("" : String).isEmpty = true := by decide
    simp [as_bool, of_string, as_bool_helper_string, any_cast_string, h, bind, Except.bind,
      pure, Except.pure]

end Parameter

end bfl

/-! ## utils -/

namespace bfl

namespace utils

/-- A report that starts with `"ERROR::"` is not the empty-report text. -/
theorem error_prefix_ne (t : String) :
    "ERROR::" ++ t ≠ "UTILS::THROW_MESSAGE::EMPTY_THROW_REPORT" := by
  intro h
  have h1 := congrArg String.data h
  rw [String.data_append] at h1
  have h2 := congrArg List.head? h1
  simp at h2

/-- C32: `utils::throw_message(from_where, error_message, data_log)` returns
`"UTILS::THROW_MESSAGE::EMPTY_THROW_REPORT"` if and only if `from_where` or `error_message` is
empty; otherwise it returns `"ERROR::" + from_where + "\nMESSAGE:\n\t" + error_message + "\n"`,
followed by `"LOG:\n\t" + data_log + "\n"` exactly when `data_log` is not empty. -/
theorem throw_message_spec (from_where error_message data_log : String) :
    (throw_message from_where error_message data_log
        = "UTILS::THROW_MESSAGE::EMPTY_THROW_REPORT" ↔
      (from_where = "" ∨ error_message = "")) ∧
    throw_message from_where error_message data_log
      = if from_where = "" ∨ error_message = "" then
          "UTILS::THROW_MESSAGE::EMPTY_THROW_REPORT"
        else if data_log = "" then
          "ERROR::" ++ from_where ++ "\nMESSAGE:\n\t" ++ error_message ++ "\n"
        else
          "ERROR::" ++ from_where ++ "\nMESSAGE:\n\t" ++ error_message ++ "\n"
            ++ ("LOG:\n\t" ++ data_log ++ "\n") := by
  have hform : throw_message from_where error_message data_log
      = if from_where = "" ∨ error_message = "" then
          "UTILS::THROW_MESSAGE::EMPTY_THROW_REPORT"
        else if data_log = "" then
          "ERROR::" ++ from_where ++ "\nMESSAGE:\n\t" ++ error_message ++ "\n"
        else
          "ERROR::" ++ from_where ++ "\nMESSAGE:\n\t" ++ error_message ++ "\n"
            ++ ("LOG:\n\t" ++ data_log ++ "\n") := by
    by_cases h : from_where = "" ∨ error_message = ""
    · have h1 : (from_where.isEmpty || error_message.isEmpty) = true := by
        simpa [String.isEmpty_iff] using h
      simp only [throw_message, h1, if_pos h, if_true]
    · have h1 : ¬ (from_where.isEmpty || error_message.isEmpty) = true := by
        simpa [String.isEmpty_iff] using h
      have hcat : ∀ a b c : String, a ++ "\n" ++ "MESSAGE:\n" ++ ("\t" ++ b ++ "\n") ++ c
          = a ++ "\nMESSAGE:\n\t" ++ b ++ "\n" ++ c := by
        intro a b c
        simp only [String.append_assoc]
        rfl
      by_cases hd : data_log = ""
      · have h2 : ¬ (!data_log.isEmpty) = true := by
          simp [String.isEmpty_iff, hd]
        simp only [throw_message, if_neg h1, if_neg h, if_pos hd, if_neg h2]
        have := hcat ("ERROR::" ++ from_where) error_message ""
        simpa [String.append_empty] using this
      · have h3 : data_log.isEmpty = false := by
          cases hb : data_log.isEmpty
          · rfl
          · exact absurd ((String.isEmpty_iff _).1 hb) hd
        have h2 : (!data_log.isEmpty) = true := by rw [h3]; rfl
        simp only [throw_message, if_neg h1, if_neg h, if_neg hd, if_pos h2]
        have := hcat ("ERROR::" ++ from_where) error_message ("LOG:\n" ++ ("\t" ++ data_log ++ "\n"))
        simp only [String.append_assoc] at this ⊢
        exact this
  refine ⟨?_, hform⟩
  rw [hform]
  constructor
  · intro h
    by_contra hne
    rw [if_neg hne] at h
    by_cases hd : data_log = ""
    · rw [if_pos hd] at h
      simp only [String.append_assoc] at h
      exact error_prefix_ne _ h
    · rw [if_neg hd] at h
      simp only [String.append_assoc] at h
      exact error_prefix_ne _ h
  · intro h
    rw [if_pos h]

/-- C33: for a non-empty list of reals, `utils::log_sum_exp(data)` returns
`log(sum_i exp(data_i))`, whatever maximum is subtracted inside; and
`log_unnormalized_prob_mass(data)` returns with `log_prob_mass(i) = data[i] - log_sum_exp(data)`
for every `i`. -/
theorem log_sum_exp_spec {V : Type} (data : List ℝ) (hne : data ≠ [])
    (d : fl.DiscreteDistribution ℝ V) :
    log_sum_exp Real.exp Real.log data = some (Real.log (data.map Real.exp).sum) ∧
    ∃ d1, fl.DiscreteDistribution.log_unnormalized_prob_mass Real.exp Real.log d data = some d1 ∧
      d1.log_prob_mass_.length = data.length ∧
      ∀ (i : Nat) (x lse : ℝ), data[i]? = some x →
        log_sum_exp Real.exp Real.log data = some lse →
        fl.DiscreteDistribution.log_prob_mass d1 i = some (x - lse) := by
  have hlse : log_sum_exp Real.exp Real.log data = some (Real.log (data.map Real.exp).sum) := by
    obtain ⟨m, hm⟩ := fl.DiscreteDistribution.maxCoeff_isSome data hne
    have hpos := fl.DiscreteDistribution.sum_exp_pos data hne
    simp only [log_sum_exp, hm, Option.bind_eq_bind, Option.some_bind, Option.pure_def,
      Option.some.injEq]
    rw [fl.DiscreteDistribution.sum_exp_shift data m,
      Real.log_mul (ne_of_gt hpos) (Real.exp_ne_zero _), Real.log_exp]
    ring
  refine ⟨hlse, ?_⟩
  obtain ⟨cd, _, hd1⟩ := fl.DiscreteDistribution.log_unnormalized_prob_mass_closed d data hne
  refine ⟨_, hd1, ?_, ?_⟩
  · simp [fl.DiscreteDistribution.log_softmax]
  · intro i x lse hx hl
    rw [hlse] at hl
    have hl := Option.some.inj hl
    subst hl
    simp [fl.DiscreteDistribution.log_prob_mass, fl.DiscreteDistribution.log_softmax, hx]

/-- The weights `[0, log 3]`: `log_sum_exp` is `log 4`. -/
theorem log_sum_exp_spec_witness :
    log_sum_exp Real.exp Real.log [0, Real.log 3] = some (Real.log 4) := by
  have h := (@log_sum_exp_spec Unit [0, Real.log 3] (by simp)
    fl.DiscreteDistribution.empty).1
  rw [h]
  have h3 : Real.exp (Real.log 3) = 3 := Real.exp_log (by norm_num)
  simp only [List.map_cons, List.map_nil, List.sum_cons, List.sum_nil, Real.exp_zero, h3]
  norm_num

end utils

end bfl

/-! ## Binary search over the cumulative table -/

namespace fl

namespace DiscreteDistribution

variable {V : Type}

/-- On a non-decreasing table the scan stops at `s` exactly when the coefficients before `s`
are smaller than the sample and the others are not. -/
theorem scan_cdf_lt_iff (u : ℝ) (cs : List ℝ)
    (hmono : ∀ (i j : Nat) (a b : ℝ), i ≤ j → cs[i]? = some a → cs[j]? = some b → a ≤ b)
    (j : Nat) (c : ℝ) (hj : cs[j]? = some c) : c < u ↔ j < scan_cdf u cs 0 := by
  constructor
  · intro hc
    by_contra hnot
    have hle : scan_cdf u cs 0 ≤ j := Nat.le_of_not_lt hnot
    have hjlen : j < cs.length := by
      rcases Nat.lt_or_ge j cs.length with h | h
      · exact h
      · rw [List.getElem?_eq_none h] at hj
        exact absurd hj (by simp)
    obtain ⟨c0, hc0, hu⟩ := scan_cdf_at u cs (lt_of_le_of_lt hle hjlen)
    have := hmono _ _ _ _ hle hc0 hj
    linarith
  · intro hlt
    exact scan_cdf_before u cs j hlt c hj

/-- The binary search on a range that contains the index of the scan returns that index. -/
theorem lower_bound_eq_scan (u : ℝ) (cs : List ℝ)
    (hmono : ∀ (i j : Nat) (a b : ℝ), i ≤ j → cs[i]? = some a → cs[j]? = some b → a ≤ b) :
    ∀ (n lo hi : Nat), hi - lo = n → lo ≤ scan_cdf u cs 0 → scan_cdf u cs 0 ≤ hi →
      hi ≤ cs.length → lower_bound cs u lo hi = scan_cdf u cs 0 := by
  intro n
  induction n using Nat.strong_induction_on with
  | _ n ih =>
    intro lo hi hn hlo hhi hlen
    rw [lower_bound]
    by_cases hlt : lo < hi
    · rw [if_pos hlt]
      have hmid : lo + (hi - lo) / 2 < cs.length := by omega
      obtain ⟨c, hc⟩ : ∃ c, cs[lo + (hi - lo) / 2]? = some c :=
        ⟨_, List.getElem?_eq_getElem hmid⟩
      simp only [hc]
      have hiff := scan_cdf_lt_iff u cs hmono _ c hc
      by_cases hcu : c < u
      · rw [if_pos hcu]
        have := hiff.1 hcu
        exact ih (hi - (lo + (hi - lo) / 2 + 1)) (by omega) _ _ rfl (by omega) hhi hlen
      · rw [if_neg hcu]
        have : ¬ (lo + (hi - lo) / 2 < scan_cdf u cs 0) := fun h => hcu (hiff.2 h)
        exact ih (lo + (hi - lo) / 2 - lo) (by omega) _ _ rfl hlo (by omega) (by omega)
    · rw [if_neg hlt]
      omega

/-- C35: for every population whose cumulative table is non-decreasing and every uniform
sample `u`, the lower-bound binary search over the table returns the same index and the same
location as the linear scan of `map_standard_uniform`: the least index whose cumulative value
is at least `u` (the same tie-break).  When `u` is not above the last cumulative value this
index is inside the table. -/
theorem binary_search_eq_scan (d : DiscreteDistribution ℝ V) (u : ℝ)
    (hmono : ∀ (i j : Nat) (a b : ℝ), i ≤ j → d.cumul_distr_[i]? = some a →
      d.cumul_distr_[j]? = some b → a ≤ b) :
    map_standard_uniform_binary_search d u = map_standard_uniform d u ∧
    (∀ (j : Nat) (c : ℝ), j < (map_standard_uniform_binary_search d u).2 →
      d.cumul_distr_[j]? = some c → c < u) ∧
    (∀ c, d.cumul_distr_.getLast? = some c → u ≤ c →
      (map_standard_uniform_binary_search d u).2 < d.cumul_distr_.length ∧
      ∃ c0, d.cumul_distr_[(map_standard_uniform_binary_search d u).2]? = some c0 ∧
        u ≤ c0) := by
  have hidx : lower_bound d.cumul_distr_ u 0 d.cumul_distr_.length
      = scan_cdf u d.cumul_distr_ 0 :=
    lower_bound_eq_scan u d.cumul_distr_ hmono _ 0 _ rfl (Nat.zero_le _)
      (scan_cdf_le_length u _) (le_refl _)
  have heq : map_standard_uniform_binary_search d u = map_standard_uniform d u := by
    simp only [map_standard_uniform_binary_search, map_standard_uniform, hidx]
  refine ⟨heq, ?_, ?_⟩
  · intro j c hj hc
    rw [heq] at hj
    exact scan_cdf_before u _ j hj c hc
  · intro c hlast hu
    rw [heq]
    have hmem : c ∈ d.cumul_distr_ := List.mem_of_getLast?_eq_some hlast
    have hlt := scan_cdf_lt_length u d.cumul_distr_ ⟨c, hmem, hu⟩
    exact ⟨hlt, scan_cdf_at u _ hlt⟩

/-- The table `[0.25, 0.75, 1]` and the sample `0.75`: the binary search stops at index 1,
as the scan does. -/
theorem binary_search_eq_scan_witness :
    map_standard_uniform_binary_search
      ({ locations_ := [some (-1), some 0, some 1],
         log_prob_mass_ := [Real.log 0.25, Real.log 0.5, Real.log 0.25],
         prob_mass_ := [0.25, 0.5, 0.25], cumul_distr_ := [0.25, 0.75, 1.0] } :
        DiscreteDistribution ℝ ℤ) 0.75
      = map_standard_uniform
      ({ locations_ := [some (-1), some 0, some 1],
         log_prob_mass_ := [Real.log 0.25, Real.log 0.5, Real.log 0.25],
         prob_mass_ := [0.25, 0.5, 0.25], cumul_distr_ := [0.25, 0.75, 1.0] } :
        DiscreteDistribution ℝ ℤ) 0.75 ∧
    map_standard_uniform
      ({ locations_ := [some (-1), some 0, some 1],
         log_prob_mass_ := [Real.log 0.25, Real.log 0.5, Real.log 0.25],
         prob_mass_ := [0.25, 0.5, 0.25], cumul_distr_ := [0.25, 0.75, 1.0] } :
        DiscreteDistribution ℝ ℤ) 0.75 = (some (some 0), 1) := by
  refine ⟨(binary_search_eq_scan _ 0.75 ?_).1, ?_⟩
  · intro i j a b hij ha hb
    simp only at ha hb
    rcases j with _ | _ | _ | j
    · have : i = 0 := by omega
      subst this
      simp at ha hb
      linarith
    · rcases i with _ | _ | i
      · simp at ha hb
        rw [← ha, ← hb]; norm_num
      · simp at ha hb
        linarith
      · omega
    · rcases i with _ | _ | _ | i
      · simp at ha hb
        rw [← ha, ← hb]; norm_num
      · simp at ha hb
        rw [← ha, ← hb]; norm_num
      · simp at ha hb
        linarith
      · omega
    · simp at hb
  · simp only [map_standard_uniform, scan_cdf]
    norm_num

end DiscreteDistribution

end fl

/-! ## Locations across a change of weights, the range of the sampled index, the covariance -/

namespace fl

namespace DiscreteDistribution

variable {V : Type}

/-- A population of size 2 with the locations 7 and 9, given one weight:
`log_unnormalized_prob_mass` returns, and `location(0)`, which held 7 before the call, is a
slot of the reallocated array that was never written. -/
theorem install_shorter_loses_locations :
    ∃ d1, log_unnormalized_prob_mass Real.exp Real.log
        ({ locations_ := [some 7, some 9],
           log_prob_mass_ := [Real.log 0.5, Real.log 0.5],
           prob_mass_ := [0.5, 0.5], cumul_distr_ := [0.5, 1.0] } :
          DiscreteDistribution ℝ ℤ) [0] = some d1 ∧
      location
        ({ locations_ := [some 7, some 9],
           log_prob_mass_ := [Real.log 0.5, Real.log 0.5],
           prob_mass_ := [0.5, 0.5], cumul_distr_ := [0.5, 1.0] } :
          DiscreteDistribution ℝ ℤ) 0 = some (some 7) ∧
      location d1 0 = some none := by
  obtain ⟨cd, _, h⟩ := log_unnormalized_prob_mass_closed
    ({ locations_ := [some 7, some 9],
       log_prob_mass_ := [Real.log 0.5, Real.log 0.5],
       prob_mass_ := [0.5, 0.5], cumul_distr_ := [0.5, 1.0] } :
      DiscreteDistribution ℝ ℤ) [0] (by simp)
  refine ⟨_, h, rfl, ?_⟩
  simp [location, resize]

/-- C36 as amended: on a population of size `N >= 1`, `log_unnormalized_prob_mass` with a
vector of length `N`, `delta_log_prob_mass` (whose argument must have length `N`) and
`set_uniform()` with its default argument return and leave every `location(i)` as it was
before the call; `log_unnormalized_prob_mass` with a vector of another length `M >= 1`
returns with a reallocated location array, in which every one of the `M` slots is
unwritten. -/
theorem install_same_size_keeps_locations (d : DiscreteDistribution ℝ V) (N : Nat)
    (hN : 0 < N) (hd : has_size d N) :
    (∀ v : List ℝ, v.length = N →
      ∃ d1, log_unnormalized_prob_mass Real.exp Real.log d v = some d1 ∧
        ∀ i, location d1 i = location d i) ∧
    (∀ delta : List ℝ, delta.length = N →
      ∃ d1, delta_log_prob_mass Real.exp Real.log d delta = some d1 ∧
        ∀ i, location d1 i = location d i) ∧
    (∃ d1, set_uniform Real.exp Real.log d (-1) = some d1 ∧
      ∀ i, location d1 i = location d i) ∧
    (∀ v : List ℝ, v ≠ [] → v.length ≠ N →
      ∃ d1, log_unnormalized_prob_mass Real.exp Real.log d v = some d1 ∧
        size d1 = v.length ∧ ∀ i, i < v.length → location d1 i = some none) := by
  obtain ⟨hl, hlp, _, _, _⟩ := hd
  have hne : ∀ v : List ℝ, v.length = N → v ≠ [] := by
    intro v hv h0
    rw [h0] at hv
    simp at hv
    omega
  have hkeep : ∀ v : List ℝ, v.length = N →
      ∃ d1, log_unnormalized_prob_mass Real.exp Real.log d v = some d1 ∧
        ∀ i, location d1 i = location d i := by
    intro v hv
    obtain ⟨cd, _, h⟩ := log_unnormalized_prob_mass_closed d v (hne v hv)
    refine ⟨_, h, fun i => ?_⟩
    simp [location, resize, hl, hv]
  refine ⟨hkeep, ?_, ?_, ?_⟩
  · intro delta hdelta
    have hz : (List.zipWith (fun a b => a + b) d.log_prob_mass_ delta).length = N := by
      simp [hlp, hdelta]
    obtain ⟨d1, h1, h2⟩ := hkeep _ hz
    refine ⟨d1, ?_, h2⟩
    rw [delta_log_prob_mass, if_pos (by rw [hlp, hdelta])]
    exact h1
  · obtain ⟨d1, h1, h2⟩ := hkeep (List.replicate N 0) (by simp)
    refine ⟨d1, ?_, h2⟩
    have hs : size d = N := hl
    simp only [set_uniform, if_true, hs]
    rw [if_neg (by omega)]
    simpa using h1
  · intro v hv hlen
    obtain ⟨cd, _, h⟩ := log_unnormalized_prob_mass_closed d v hv
    refine ⟨_, h, ?_, fun i hi => ?_⟩
    · simp [size, resize_length]
    · have hne2 : ¬ d.locations_.length = v.length := by
        rw [hl]
        exact fun h => hlen h.symm
      simp [location, resize, hne2, hi]

/-- A population of size 2 with the locations 7 and 9: new weights of length 2 leave both
locations in place. -/
theorem install_same_size_keeps_locations_witness :
    ∃ d1, log_unnormalized_prob_mass Real.exp Real.log
        ({ locations_ := [some 7, some 9],
           log_prob_mass_ := [Real.log 0.5, Real.log 0.5],
           prob_mass_ := [0.5, 0.5], cumul_distr_ := [0.5, 1.0] } :
          DiscreteDistribution ℝ ℤ) [0, 1] = some d1 ∧
      location d1 0 = some (some 7) ∧ location d1 1 = some (some 9) := by
  obtain ⟨d1, h1, h2⟩ := (install_same_size_keeps_locations
    ({ locations_ := [some 7, some 9],
       log_prob_mass_ := [Real.log 0.5, Real.log 0.5],
       prob_mass_ := [0.5, 0.5], cumul_distr_ := [0.5, 1.0] } :
      DiscreteDistribution ℝ ℤ) 2 (by decide) ⟨rfl, rfl, rfl, rfl, rfl⟩).1 [0, 1] rfl
  exact ⟨d1, h1, by rw [h2 0]; rfl, by rw [h2 1]; rfl⟩

/-- The last entry of the cumulative table built by `log_unnormalized_prob_mass` is 1. -/
theorem cumul_last_eq_one (d0 d : DiscreteDistribution ℝ V) (v : List ℝ)
    (hd : log_unnormalized_prob_mass Real.exp Real.log d0 v = some d) :
    d.cumul_distr_.length = v.length ∧ d.cumul_distr_[v.length - 1]? = some 1 := by
  obtain ⟨hv, _, _, hcd, _⟩ := log_unnormalized_prob_mass_some d0 d v hd
  obtain ⟨hlen, hget⟩ := compute_cdf_spec _ _ hcd
  rw [softmax_length] at hlen hget
  have hpos : 0 < v.length := List.length_pos.2 hv
  refine ⟨hlen, ?_⟩
  rw [hget (v.length - 1) (by omega)]
  have h1 : v.length - 1 + 1 = (softmax Real.exp v).length := by
    rw [softmax_length]
    omega
  rw [h1, List.take_length, softmax_sum v hv]

/-- In exact real arithmetic (no rounding), for a population produced by
`log_unnormalized_prob_mass` and every real standard-normal sample `z`, with an error function
that is at most 1, `map_standard_normal(z, index)` yields an index below the size `N`: the
uniform sample `0.5 * (1 + erf(z / sqrt 2))` is at most `1 = cumulative[N-1]`.  The scan
itself does not bound the index, and with the rounded values of double precision the
conclusion fails (the theorem on `DiscreteDistribution d(10)` below). -/
theorem map_standard_normal_in_range (erf : ℝ → ℝ) (herf : ∀ x, erf x ≤ 1)
    (d0 d : DiscreteDistribution ℝ V) (v : List ℝ)
    (hd : log_unnormalized_prob_mass Real.exp Real.log d0 v = some d) (z : ℝ) :
    1 ≤ size d ∧ size d = v.length ∧ d.cumul_distr_[size d - 1]? = some 1 ∧
    (map_standard_normal Real.sqrt erf d z).2 < size d ∧
    ∃ slot, location d (map_standard_normal Real.sqrt erf d z).2 = some slot ∧
      (map_standard_normal Real.sqrt erf d z).1 = some slot := by
  obtain ⟨hv, _, _, _, hloc⟩ := log_unnormalized_prob_mass_some d0 d v hd
  obtain ⟨hclen, hlast⟩ := cumul_last_eq_one d0 d v hd
  have hsize : size d = v.length := by rw [size, hloc, resize_length]
  have hpos : 0 < v.length := List.length_pos.2 hv
  have hu : (0.5 : ℝ) * (1.0 + erf (z / Real.sqrt 2.0)) ≤ 1 := by
    have := herf (z / Real.sqrt 2.0)
    norm_num
    linarith
  have hlt : scan_cdf ((0.5 : ℝ) * (1.0 + erf (z / Real.sqrt 2.0))) d.cumul_distr_ 0
      < d.cumul_distr_.length :=
    scan_cdf_lt_length _ _ ⟨1, List.getElem?_mem hlast, hu⟩
  have hidx : (map_standard_normal Real.sqrt erf d z).2 < size d := by
    rw [hsize, ← hclen]
    exact hlt
  refine ⟨by omega, hsize, by rw [hsize]; exact hlast, hidx, ?_⟩
  have hidx2 : (map_standard_normal Real.sqrt erf d z).2 < d.locations_.length := hidx
  refine ⟨d.locations_[(map_standard_normal Real.sqrt erf d z).2], ?_, ?_⟩
  · rw [location]
    exact List.getElem?_eq_getElem hidx2
  · have : (map_standard_normal Real.sqrt erf d z).1
        = d.locations_[(map_standard_normal Real.sqrt erf d z).2]? := rfl
    rw [this]
    exact List.getElem?_eq_getElem hidx2

/-- Two equal weights and the sample `z = 0` in exact real arithmetic, with `x / (1 + |x|)`
in the place of the error function: the index is below 2. -/
theorem map_standard_normal_in_range_witness :
    ∃ d : DiscreteDistribution ℝ ℤ,
      log_unnormalized_prob_mass Real.exp Real.log empty [0, 0] = some d ∧
      (map_standard_normal Real.sqrt (fun x => x / (1 + |x|)) d 0).2 < size d := by
  obtain ⟨cd, _, h⟩ := log_unnormalized_prob_mass_closed
    (empty : DiscreteDistribution ℝ ℤ) [0, 0] (by simp)
  refine ⟨_, h, (map_standard_normal_in_range (fun x => x / (1 + |x|)) ?_ _ _ _ h 0).2.2.2.1⟩
  intro x
  have hpos : (0 : ℝ) < 1 + |x| := by positivity
  rw [div_le_one hpos]
  have := le_abs_self x
  linarith

/-- C37 on the code, with the values of double precision.  After `DiscreteDistribution d(10)`
every weight is the double nearest to `0.1` and the cumulative table holds the rounded prefix
sums `0.1, 0.2, 0.30000000000000004, ..., 0.8999999999999999, 0.9999999999999999`: its last
entry is `1 - 2^-53`, not 1.  For `z = 8.5` the argument `8.5 / sqrt 2` of `std::erf` is above
6, where `std::erf` returns exactly `1.0`, so the uniform sample is `0.5 * (1.0 + 1.0) = 1.0`.
No entry of the table reaches it: the scan of `map_standard_normal(8.5, index)` leaves
`index = 10 = N` and the returned variate `locations_[10]` is outside the array.  This is the
missing bound on `index` after the loop of `map_standard_uniform`. -/
theorem map_standard_normal_rounding_past_end (erf : ℝ → ℝ) :
    map_standard_normal Real.sqrt (fun x => if 6 ≤ x then 1 else erf x)
      ({ locations_ := List.replicate 10 none
         log_prob_mass_ := List.replicate 10 (-2592480341699211 / 1125899906842624)
         prob_mass_ := List.replicate 10 (3602879701896397 / 36028797018963968)
         cumul_distr_ :=
           [3602879701896397 / 36028797018963968, 3602879701896397 / 18014398509481984,
            1351079888211149 / 4503599627370496, 3602879701896397 / 9007199254740992,
            1 / 2, 5404319552844595 / 9007199254740992,
            3152519739159347 / 4503599627370496, 7205759403792793 / 9007199254740992,
            2026619832316723 / 2251799813685248, 9007199254740991 / 9007199254740992] } :
        DiscreteDistribution ℝ ℤ) 8.5 = (none, 10) ∧
    size
      ({ locations_ := List.replicate 10 none
         log_prob_mass_ := List.replicate 10 (-2592480341699211 / 1125899906842624)
         prob_mass_ := List.replicate 10 (3602879701896397 / 36028797018963968)
         cumul_distr_ :=
           [3602879701896397 / 36028797018963968, 3602879701896397 / 18014398509481984,
            1351079888211149 / 4503599627370496, 3602879701896397 / 9007199254740992,
            1 / 2, 5404319552844595 / 9007199254740992,
            3152519739159347 / 4503599627370496, 7205759403792793 / 9007199254740992,
            2026619832316723 / 2251799813685248, 9007199254740991 / 9007199254740992] } :
        DiscreteDistribution ℝ ℤ) = 10 ∧
    (9007199254740991 / 9007199254740992 : ℝ) = 1 - 1 / 2 ^ 53 := by
  have hsqrt : Real.sqrt 2.0 ≤ 17 / 12 := by
    rw [Real.sqrt_le_iff]
    constructor <;> norm_num
  have hpos : (0 : ℝ) < Real.sqrt 2.0 := Real.sqrt_pos.2 (by norm_num)
  have h6 : (6 : ℝ) ≤ 8.5 / Real.sqrt 2.0 := by
    rw [le_div_iff₀ hpos]
    have : (6 : ℝ) * Real.sqrt 2.0 ≤ 6 * (17 / 12) := by
      apply mul_le_mul_of_nonneg_left hsqrt
      norm_num
    calc (6 : ℝ) * Real.sqrt 2.0 ≤ 6 * (17 / 12) := this
      _ = 8.5 := by norm_num
  refine ⟨?_, ?_, by norm_num⟩
  · simp only [map_standard_normal, if_pos h6, map_standard_uniform, scan_cdf]
    norm_num
  · simp [size]

end DiscreteDistribution

end fl

/-! ## The covariance is positive semidefinite -/

namespace fl

namespace DiscreteDistribution

/-- A weighted sum with non-negative weights of non-negative terms is non-negative. -/
theorem zipWith_sum_nonneg {A : Type} (G : ℝ → A → ℝ) (hG : ∀ w x, 0 ≤ w → 0 ≤ G w x) :
    ∀ (p : List ℝ) (xs : List A), (∀ w ∈ p, 0 ≤ w) → 0 ≤ (List.zipWith G p xs).sum := by
  intro p
  induction p with
  | nil => intro xs _; simp
  | cons w p ih =>
    intro xs hp
    cases xs with
    | nil => simp
    | cons x xs =>
      simp only [List.zipWith_cons_cons, List.sum_cons]
      have h1 := hG w x (hp w (List.mem_cons_self _ _))
      have h2 := ih xs (fun w hw => hp w (List.mem_cons_of_mem _ hw))
      linarith

/-- The quadratic form of the weighted sum of outer products is the weighted sum of the squares
of the projections. -/
theorem quadratic_form_zipWith {n : Nat} (y m : Fin n → ℝ) :
    ∀ (p : List ℝ) (xs : List (Fin n → ℝ)),
      (∑ a, y a * ∑ b,
          (List.zipWith (fun w x => w * (x a - m a) * (x b - m b)) p xs).sum * y b)
        = (List.zipWith (fun w x => w * (∑ a, y a * (x a - m a)) ^ 2) p xs).sum := by
  intro p
  induction p with
  | nil => intro xs; simp
  | cons w p ih =>
    intro xs
    cases xs with
    | nil => simp
    | cons x xs =>
      simp only [List.zipWith_cons_cons, List.sum_cons]
      rw [← ih xs]
      have hsq : w * (∑ a, y a * (x a - m a)) ^ 2
          = ∑ a, y a * ∑ b, w * (x a - m a) * (x b - m b) * y b := by
        rw [sq, Finset.sum_mul_sum, Finset.mul_sum]
        refine Finset.sum_congr rfl (fun a _ => ?_)
        rw [Finset.mul_sum, Finset.mul_sum]
        refine Finset.sum_congr rfl (fun b _ => ?_)
        ring
      rw [hsq, ← Finset.sum_add_distrib]
      refine Finset.sum_congr rfl (fun a _ => ?_)
      rw [← mul_add, ← Finset.sum_add_distrib]
      congr 1
      refine Finset.sum_congr rfl (fun b _ => ?_)
      ring

/-- Expansion of the weighted sum of centred products. -/
theorem centred_sum_expand {n : Nat} (m : Fin n → ℝ) (a b : Fin n) :
    ∀ (p : List ℝ) (xs : List (Fin n → ℝ)), p.length = xs.length →
      (List.zipWith (fun w x => w * (x a - m a) * (x b - m b)) p xs).sum
        = (List.zipWith (fun w x => w * x a * x b) p xs).sum
          - m b * (List.zipWith (fun w x => w * x a) p xs).sum
          - m a * (List.zipWith (fun w x => w * x b) p xs).sum
          + m a * m b * p.sum := by
  intro p
  induction p with
  | nil => intro xs _; simp
  | cons w p ih =>
    intro xs hlen
    cases xs with
    | nil => simp at hlen
    | cons x xs =>
      simp only [List.length_cons, Nat.succ.injEq, add_left_inj] at hlen
      simp only [List.zipWith_cons_cons, List.sum_cons]
      rw [ih xs hlen]
      ring

/-- C38: for a non-empty normalized population (every location written, as many weights as
locations, the weights non-negative with sum 1), `covariance()` returns a symmetric positive
semidefinite matrix, with non-negative diagonal (for a scalar variate, a non-negative number),
and it equals `sum_i prob_mass(i) * location(i) * location(i)^T - mean() * mean()^T`. -/
theorem covariance_positive_semidefinite {n : Nat} (d : DiscreteDistribution ℝ (Fin n → ℝ))
    (xs : List (Fin n → ℝ)) (hx : xs ≠ []) (hloc : d.locations_ = xs.map some)
    (hlen : d.prob_mass_.length = xs.length) (hsum : d.prob_mass_.sum = 1)
    (hnn : ∀ w ∈ d.prob_mass_, 0 ≤ w) :
    ∃ m c, mean d = some m ∧ covariance d = some c ∧
      (Matrix.of c).PosSemidef ∧ (∀ a b, c a b = c b a) ∧ (∀ a, 0 ≤ c a a) ∧
      ∀ a b, c a b
        = (List.zipWith (fun w x => w * x a * x b) d.prob_mass_ xs).sum - m a * m b := by
  obtain ⟨m, hm, hc⟩ := covariance_eq_sum d xs hx hloc hlen
  have hm2 := mean_eq_sum d xs hx hloc hlen
  have hmval : m = fun j => (List.zipWith (fun w x => w * x j) d.prob_mass_ xs).sum := by
    rw [hm] at hm2
    exact Option.some.inj hm2
  have hsymm : ∀ a b,
      (List.zipWith (fun w x => w * (x a - m a) * (x b - m b)) d.prob_mass_ xs).sum
        = (List.zipWith (fun w x => w * (x b - m b) * (x a - m a)) d.prob_mass_ xs).sum := by
    intro a b
    congr 2
    funext w x
    ring
  refine ⟨m, _, hm, hc, ⟨?_, ?_⟩, hsymm, ?_, ?_⟩
  · ext a b
    simp only [Matrix.conjTranspose_apply, Matrix.of_apply, star_trivial]
    exact hsymm b a
  · intro y
    simp only [star_trivial, Matrix.dotProduct, Matrix.mulVec, Matrix.of_apply]
    rw [quadratic_form_zipWith y m d.prob_mass_ xs]
    exact zipWith_sum_nonneg _ (fun w x hw => mul_nonneg hw (sq_nonneg _)) _ _ hnn
  · intro a
    refine zipWith_sum_nonneg _ (fun w x hw => ?_) _ _ hnn
    rw [mul_assoc]
    exact mul_nonneg hw (mul_self_nonneg _)
  · intro a b
    rw [centred_sum_expand m a b _ _ hlen, hsum]
    have ha : (List.zipWith (fun w x => w * x a) d.prob_mass_ xs).sum = m a := by
      rw [hmval]
    have hb : (List.zipWith (fun w x => w * x b) d.prob_mass_ xs).sum = m b := by
      rw [hmval]
    rw [ha, hb]
    ring

/-- The scalar locations 1 and 3 with the weights 1/2 and 1/2: `covariance()` returns a
non-negative number. -/
theorem covariance_positive_semidefinite_witness :
    ∃ c, covariance
        ({ locations_ := [some (fun _ => 1), some (fun _ => 3)],
           log_prob_mass_ := [Real.log (1 / 2), Real.log (1 / 2)],
           prob_mass_ := [1 / 2, 1 / 2], cumul_distr_ := [1 / 2, 1] } :
          DiscreteDistribution ℝ (Fin 1 → ℝ)) = some c ∧ 0 ≤ c 0 0 := by
  obtain ⟨m, c, _, hc, _, _, hdiag, _⟩ := covariance_positive_semidefinite
    ({ locations_ := [some (fun _ => 1), some (fun _ => 3)],
       log_prob_mass_ := [Real.log (1 / 2), Real.log (1 / 2)],
       prob_mass_ := [1 / 2, 1 / 2], cumul_distr_ := [1 / 2, 1] } :
      DiscreteDistribution ℝ (Fin 1 → ℝ))
    [fun _ => 1, fun _ => 3] (by simp) rfl rfl (by norm_num) (by
      intro w hw
      simp only [List.mem_cons, List.mem_singleton, List.not_mem_nil, or_false] at hw
      rcases hw with rfl | rfl <;> norm_num)
  exact ⟨c, hc, hdiag 0⟩

end DiscreteDistribution

end fl

/-! ## TimeDecreasingDynamics: the damping factor -/

namespace bfl

namespace TimeDecreasingDynamics

variable {T S : Type}

/-- One call `setProperty("tdd_advance")` in iteration modality: the counter is incremented
modulo `2^32`, nothing else changes and `true` is returned. -/
theorem setProperty_advance (timer : CpuTimer ℝ T) (model : StateModel ℝ S)
    (self : TimeDecreasingDynamics ℝ T S) (hmod : self.pImpl_.modality_ = Modality.Iteration) :
    setProperty timer model self "tdd_advance"
      = (true, { self with pImpl_ :=
          { self.pImpl_ with
            current_iterations_ := (self.pImpl_.current_iterations_ + 1) % 2 ^ 32 } }) := by
  have h1 : ¬ ("tdd_advance" = "tdd_reset") := by decide
  simp only [setProperty, if_neg h1, if_true, hmod]

/-- The object after `k` calls `setProperty("tdd_advance")` in iteration modality. -/
theorem advance_spec (timer : CpuTimer ℝ T) (model : StateModel ℝ S) :
    ∀ (k : Nat) (self : TimeDecreasingDynamics ℝ T S),
      self.pImpl_.modality_ = Modality.Iteration → self.pImpl_.current_iterations_ < 2 ^ 32 →
      advance timer model k self = { self with pImpl_ :=
        { self.pImpl_ with
          current_iterations_ := (self.pImpl_.current_iterations_ + k) % 2 ^ 32 } } := by
  intro k
  induction k with
  | zero =>
    intro self _ hcur
    simp only [advance, add_zero, Nat.mod_eq_of_lt hcur]
  | succ k ih =>
    intro self hmod hcur
    have hlt : (self.pImpl_.current_iterations_ + 1) % 2 ^ 32 < 2 ^ 32 :=
      Nat.mod_lt _ (by norm_num)
    rw [advance, setProperty_advance timer model self hmod]
    simp only
    refine (ih _ ?_ ?_).trans ?_
    · exact hmod
    · exact hlt
    · have : ((self.pImpl_.current_iterations_ + 1) % 2 ^ 32 + k) % 2 ^ 32
          = (self.pImpl_.current_iterations_ + (k + 1)) % 2 ^ 32 := by omega
      simp only [this]

/-- C39 on the code: in iteration modality with limit `L`, after `k` calls of
`setProperty("tdd_advance")` the noise sample of the decorated model is multiplied by
`exp(2^32 - k)` (reduced modulo `2^32`) when `k <= L`, and by 0 otherwise: the argument of
`std::exp` is the unary minus of an `unsigned int`.  With limit 5 and one call the factor is
`exp(4294967295)`, which is larger than 1 and is not `exp(-1)`. -/
theorem damper_unsigned_negation (timer : CpuTimer ℝ T) (model : StateModel ℝ S) (t0 : T)
    (s0 : S) (L k num : Nat) :
    damper Real.exp (advance timer model k (new_iterations L t0 s0)).pImpl_
      = (if k % 2 ^ 32 ≤ L % 2 ^ 32 then
          Real.exp (((2 ^ 32 - k % 2 ^ 32) % 2 ^ 32 : Nat) : ℝ) else 0) ∧
    (getNoiseSample Real.exp model (advance timer model k (new_iterations L t0 s0)) num).1.coeff
      = (fun i j => (model.getNoiseSample s0 num).1.coeff i j
          * damper Real.exp (advance timer model k (new_iterations L t0 s0)).pImpl_) ∧
    damper Real.exp (advance timer model 1 (new_iterations 5 t0 s0)).pImpl_
      = Real.exp 4294967295 ∧
    1 < damper Real.exp (advance timer model 1 (new_iterations 5 t0 s0)).pImpl_ ∧
    damper Real.exp (advance timer model 1 (new_iterations 5 t0 s0)).pImpl_
      ≠ Real.exp (-1) := by
  have hadv : ∀ L k : Nat, advance timer model k (new_iterations L t0 s0)
      = { pImpl_ :=
            { modality_ := Modality.Iteration
              iterations_ := L % 2 ^ 32
              current_iterations_ := k % 2 ^ 32
              seconds_ := none
              current_seconds_ := 0
              timer_ := t0 }
          state_model_ := s0 } := by
    intro L k
    rw [advance_spec timer model k (new_iterations L t0 s0) rfl (by norm_num [new_iterations])]
    simp [new_iterations]
  have hone : damper Real.exp (advance timer model 1 (new_iterations 5 t0 s0)).pImpl_
      = Real.exp 4294967295 := by
    rw [hadv]
    norm_num [damper, neg_unsigned]
  refine ⟨?_, ?_, hone, ?_, ?_⟩
  · rw [hadv]
    simp only [damper, neg_unsigned]
  · rw [hadv]
    rfl
  · rw [hone]
    have : (0 : ℝ) < 4294967295 := by norm_num
    exact Real.one_lt_exp_iff.2 this
  · rw [hone]
    intro h
    have := Real.exp_injective h
    norm_num at this

end TimeDecreasingDynamics

end bfl

/-! ## Gaussian log density with the Sherman-Morrison-Woodbury identity -/

namespace bfl

namespace utils

/-- The model of `inverse()` is the inverse of the matrix. -/
theorem inverse_eq_inv {m : Nat} (A : Matrix (Fin m) (Fin m) ℝ) : inverse A = A⁻¹ := by
  rw [inverse, Matrix.inv_def, Ring.inverse_eq_inv']

/-- The value of `block_index`. -/
theorem block_index_val {n bs : Nat} (i : Fin (n / bs)) (b : Fin bs) :
    (block_index i b : Fin n).val = bs * i + b := rfl

/-- Coefficient `b` of block `i` after an assignment to block `x`. -/
theorem middleCols_assign_apply {r n bs : Nat} (A : Matrix (Fin r) (Fin n) ℝ)
    (x i : Fin (n / bs)) (B : Matrix (Fin r) (Fin bs) ℝ) (a : Fin r) (b : Fin bs) :
    middleCols_assign A x B a (block_index i b)
      = if x = i then B a b else A a (block_index i b) := by
  have hb := b.isLt
  by_cases hxi : x = i
  · subst hxi
    have hcond : bs * x.val ≤ (block_index x b : Fin n).val ∧
        (block_index x b : Fin n).val < bs * x.val + bs := by
      rw [block_index_val]
      omega
    rw [middleCols_assign, dif_pos hcond, if_pos rfl]
    congr 1
    apply Fin.ext
    simp only [block_index_val]
    omega
  · have hne : x.val ≠ i.val := fun h => hxi (Fin.ext h)
    have hcond : ¬ (bs * x.val ≤ (block_index i b : Fin n).val ∧
        (block_index i b : Fin n).val < bs * x.val + bs) := by
      rw [block_index_val]
      rintro ⟨h1, h2⟩
      rcases Nat.lt_or_gt_of_ne hne with hlt | hgt
      · have := Nat.mul_le_mul_left bs (Nat.succ_le_of_lt hlt)
        rw [Nat.mul_succ] at this
        omega
      · have := Nat.mul_le_mul_left bs (Nat.succ_le_of_lt hgt)
        rw [Nat.mul_succ] at this
        omega
    rw [middleCols_assign, dif_neg hcond, if_neg hxi]

/-- A loop that assigns block `i` for every `i` of a list: a coefficient of block `i` holds
the assigned value when `i` is in the list, and is untouched otherwise. -/
theorem foldl_middleCols_assign {r n bs : Nat}
    (f : Matrix (Fin r) (Fin n) ℝ → Fin (n / bs) → Matrix (Fin r) (Fin bs) ℝ)
    (g : Fin (n / bs) → Matrix (Fin r) (Fin bs) ℝ) (hf : ∀ A i, f A i = g i) :
    ∀ (l : List (Fin (n / bs))) (A0 : Matrix (Fin r) (Fin n) ℝ) (i : Fin (n / bs))
      (a : Fin r) (b : Fin bs),
      (l.foldl (fun A x => middleCols_assign A x (f A x)) A0) a (block_index i b)
        = if i ∈ l then g i a b else A0 a (block_index i b) := by
  intro l
  induction l with
  | nil => intro A0 i a b; simp
  | cons x l ih =>
    intro A0 i a b
    rw [List.foldl_cons, ih, middleCols_assign_apply, hf]
    by_cases hil : i ∈ l
    · simp [hil]
    · by_cases hxi : x = i
      · subst hxi
        simp
      · have : ¬ i = x := fun h => hxi h.symm
        simp [hil, hxi, this]

/-- Every index is a coefficient of a block when the size is a multiple of the block size. -/
theorem block_index_surjective {n bs : Nat} (hbs : 0 < bs) (hdiv : bs * (n / bs) = n) :
    Function.Surjective (fun p : Fin bs × Fin (n / bs) => (block_index p.2 p.1 : Fin n)) := by
  intro j
  have hj : j.val / bs < n / bs := by
    apply Nat.div_lt_of_lt_mul
    rw [hdiv]
    exact j.isLt
  refine ⟨(⟨j.val % bs, Nat.mod_lt _ hbs⟩, ⟨j.val / bs, hj⟩), ?_⟩
  apply Fin.ext
  simp only [block_index_val]
  exact Nat.div_add_mod _ _

/-- Coefficients of blocks are distinct indices. -/
theorem block_index_injective {n bs : Nat} :
    Function.Injective (fun p : Fin bs × Fin (n / bs) => (block_index p.2 p.1 : Fin n)) := by
  rintro ⟨b, i⟩ ⟨b', i'⟩ h
  have hv := congrArg Fin.val h
  simp only [block_index_val] at hv
  have hb := b.isLt
  have hb' := b'.isLt
  have hi : i.val = i'.val := by
    rcases Nat.lt_trichotomy i.val i'.val with hlt | heq | hgt
    · have := Nat.mul_le_mul_left bs (Nat.succ_le_of_lt hlt)
      rw [Nat.mul_succ] at this
      omega
    · exact heq
    · have := Nat.mul_le_mul_left bs (Nat.succ_le_of_lt hgt)
      rw [Nat.mul_succ] at this
      omega
  have hbb : b.val = b'.val := by
    rw [hi] at hv
    omega
  exact Prod.ext (Fin.ext hbb) (Fin.ext hi)

/-- A coefficient of the block-diagonal matrix, by blocks. -/
theorem block_diagonal_apply {n bs : Nat} (hbs : 0 < bs)
    (B : Fin (n / bs) → Matrix (Fin bs) (Fin bs) ℝ) (i i' : Fin (n / bs)) (b b' : Fin bs) :
    (block_diagonal hbs B : Matrix (Fin n) (Fin n) ℝ) (block_index i b) (block_index i' b')
      = if i = i' then B i b b' else 0 := by
  have hd : ∀ (x : Fin (n / bs)) (y : Fin bs), (bs * x.val + y.val) / bs = x.val := by
    intro x y
    rw [Nat.mul_add_div hbs, Nat.div_eq_of_lt y.isLt, add_zero]
  have hm : ∀ (x : Fin (n / bs)) (y : Fin bs), (bs * x.val + y.val) % bs = y.val := by
    intro x y
    rw [Nat.mul_add_mod, Nat.mod_eq_of_lt y.isLt]
  by_cases hii : i = i'
  · subst hii
    have hcond : (block_index i b : Fin n).val / bs = (block_index i b' : Fin n).val / bs ∧
        (block_index i b : Fin n).val / bs < n / bs := by
      simp only [block_index_val, hd]
      exact ⟨trivial, i.isLt⟩
    rw [block_diagonal, dif_pos hcond, if_pos rfl]
    congr 1
    · apply Fin.ext
      simp only [block_index_val, hd]
    · apply Fin.ext
      simp only [block_index_val, hm]
    · apply Fin.ext
      simp only [block_index_val, hm]
  · have hcond : ¬ ((block_index i b : Fin n).val / bs = (block_index i' b' : Fin n).val / bs ∧
        (block_index i b : Fin n).val / bs < n / bs) := by
      simp only [block_index_val, hd]
      rintro ⟨h, _⟩
      exact hii (Fin.ext h)
    rw [block_diagonal, dif_neg hcond, if_neg hii]

/-- The block-diagonal matrix is Mathlib's `blockDiagonal` along the bijection
`block_index`. -/
theorem block_diagonal_eq_reindex {n bs : Nat} (hbs : 0 < bs) (hdiv : bs * (n / bs) = n)
    (B : Fin (n / bs) → Matrix (Fin bs) (Fin bs) ℝ) :
    (block_diagonal hbs B : Matrix (Fin n) (Fin n) ℝ)
      = Matrix.reindex
          (Equiv.ofBijective _ ⟨block_index_injective, block_index_surjective hbs hdiv⟩)
          (Equiv.ofBijective _ ⟨block_index_injective, block_index_surjective hbs hdiv⟩)
          (Matrix.blockDiagonal B) := by
  ext a b
  obtain ⟨⟨pb, pi⟩, rfl⟩ := block_index_surjective hbs hdiv a
  obtain ⟨⟨qb, qi⟩, rfl⟩ := block_index_surjective hbs hdiv b
  simp only [Matrix.reindex_apply, Matrix.submatrix_apply]
  rw [block_diagonal_apply]
  have h1 : (Equiv.ofBijective _
      ⟨@block_index_injective n bs, block_index_surjective hbs hdiv⟩).symm
      (block_index pi pb) = (pb, pi) :=
    Equiv.ofBijective_symm_apply_apply _ _ (pb, pi)
  have h2 : (Equiv.ofBijective _
      ⟨@block_index_injective n bs, block_index_surjective hbs hdiv⟩).symm
      (block_index qi qb) = (qb, qi) :=
    Equiv.ofBijective_symm_apply_apply _ _ (qb, qi)
  rw [h1, h2, Matrix.blockDiagonal_apply]

/-- The product of block-diagonal matrices is taken block by block. -/
theorem block_diagonal_mul {n bs : Nat} (hbs : 0 < bs) (hdiv : bs * (n / bs) = n)
    (B B' : Fin (n / bs) → Matrix (Fin bs) (Fin bs) ℝ) :
    (block_diagonal hbs B : Matrix (Fin n) (Fin n) ℝ) * block_diagonal hbs B'
      = block_diagonal hbs (fun i => B i * B' i) := by
  rw [block_diagonal_eq_reindex hbs hdiv, block_diagonal_eq_reindex hbs hdiv,
    block_diagonal_eq_reindex hbs hdiv, Matrix.blockDiagonal_mul]
  simp only [Matrix.reindex_apply, Matrix.submatrix_mul_equiv]

/-- The block-diagonal matrix of identity blocks is the identity. -/
theorem block_diagonal_one {n bs : Nat} (hbs : 0 < bs) (hdiv : bs * (n / bs) = n) :
    (block_diagonal hbs (fun _ => (1 : Matrix (Fin bs) (Fin bs) ℝ)) : Matrix (Fin n) (Fin n) ℝ)
      = 1 := by
  rw [block_diagonal_eq_reindex hbs hdiv]
  have : (fun _ : Fin (n / bs) => (1 : Matrix (Fin bs) (Fin bs) ℝ)) = 1 := rfl
  rw [this, Matrix.blockDiagonal_one]
  simp only [Matrix.reindex_apply, Matrix.submatrix_one_equiv]

/-- The determinant of a block-diagonal matrix is the product of those of the blocks. -/
theorem det_block_diagonal {n bs : Nat} (hbs : 0 < bs) (hdiv : bs * (n / bs) = n)
    (B : Fin (n / bs) → Matrix (Fin bs) (Fin bs) ℝ) :
    (block_diagonal hbs B : Matrix (Fin n) (Fin n) ℝ).det = ∏ i, (B i).det := by
  rw [block_diagonal_eq_reindex hbs hdiv, Matrix.det_reindex_self, Matrix.det_blockDiagonal]

/-- A sum over the indices is the sum over the blocks of the sums over each block. -/
theorem sum_block_index {n bs : Nat} (hbs : 0 < bs) (hdiv : bs * (n / bs) = n)
    (F : Fin n → ℝ) : ∑ a, F a = ∑ i : Fin (n / bs), ∑ b : Fin bs, F (block_index i b) := by
  rw [← Equiv.sum_comp
    (Equiv.ofBijective _ ⟨@block_index_injective n bs, block_index_surjective hbs hdiv⟩) F,
    Fintype.sum_prod_type, Finset.sum_comm]
  rfl

/-- A coefficient of a product with a block-diagonal matrix on the right. -/
theorem mul_block_diagonal_apply {r n bs : Nat} (hbs : 0 < bs) (hdiv : bs * (n / bs) = n)
    (A : Matrix (Fin r) (Fin n) ℝ) (B : Fin (n / bs) → Matrix (Fin bs) (Fin bs) ℝ)
    (a : Fin r) (i : Fin (n / bs)) (b' : Fin bs) :
    (A * block_diagonal hbs B) a (block_index i b')
      = ∑ b, A a (block_index i b) * B i b b' := by
  rw [Matrix.mul_apply, sum_block_index hbs hdiv]
  simp only [block_diagonal_apply]
  rw [Finset.sum_eq_single i]
  · simp
  · intro x _ hx
    simp [hx]
  · intro h
    exact absurd (Finset.mem_univ i) h

/-- The loops "Evaluate V * inv(R)" and "Evaluate diff^T * inv(R)": when `inv_R` holds the
blocks `B i`, the block-by-block products make the product with the block-diagonal matrix. -/
theorem foldl_blockwise_product {r n bs : Nat} (hbs : 0 < bs) (hdiv : bs * (n / bs) = n)
    (A : Matrix (Fin r) (Fin n) ℝ) (inv_R : Matrix (Fin bs) (Fin n) ℝ)
    (B : Fin (n / bs) → Matrix (Fin bs) (Fin bs) ℝ)
    (hinv : ∀ i a b, inv_R a (block_index i b) = B i a b) (W0 : Matrix (Fin r) (Fin n) ℝ) :
    (List.finRange (n / bs)).foldl
        (fun W i => middleCols_assign W i (middleCols A i * middleCols inv_R i)) W0
      = A * block_diagonal hbs B := by
  ext a j
  obtain ⟨⟨b', i⟩, rfl⟩ := block_index_surjective hbs hdiv j
  simp only
  rw [foldl_middleCols_assign (fun _ i => middleCols A i * middleCols inv_R i)
    (fun i => middleCols A i * middleCols inv_R i) (fun _ _ => rfl),
    if_pos (List.mem_finRange i), mul_block_diagonal_apply hbs hdiv, Matrix.mul_apply]
  refine Finset.sum_congr rfl (fun b _ => ?_)
  simp only [middleCols, hinv]

/-- The loop "Evaluate inv(R)": `inv_R` holds the assigned blocks. -/
theorem foldl_inv_R {n bs : Nat} (B : Fin (n / bs) → Matrix (Fin bs) (Fin bs) ℝ)
    (W0 : Matrix (Fin bs) (Fin n) ℝ) (i : Fin (n / bs)) (a b : Fin bs) :
    ((List.finRange (n / bs)).foldl (fun W i => middleCols_assign W i (B i)) W0) a
        (block_index i b) = B i a b := by
  rw [foldl_middleCols_assign (fun _ i => B i) B (fun _ _ => rfl),
    if_pos (List.mem_finRange i)]

/-- The loop that multiplies the determinants of the blocks. -/
theorem foldl_det {nb : Nat} (g : Fin nb → ℝ) :
    (List.finRange nb).foldl (fun det_R i => det_R * g i) 1 = ∏ i, g i := by
  rw [Fin.prod_univ_def, List.prod_eq_foldl, List.foldl_map]

/-- Sherman-Morrison-Woodbury identity and generalized matrix determinant lemma, for
`S = U V + R` with `R` invertible. -/
theorem woodbury {n k : Nat} (Rf Ri : Matrix (Fin n) (Fin n) ℝ) (U : Matrix (Fin n) (Fin k) ℝ)
    (V : Matrix (Fin k) (Fin n) ℝ) (hR : Rf * Ri = 1) (hS : (U * V + Rf).det ≠ 0) :
    (U * V + Rf).det = Rf.det * (1 + V * Ri * U).det ∧
    (U * V + Rf)⁻¹ = Ri * (1 - U * (1 + V * Ri * U)⁻¹ * (V * Ri)) := by
  have hfact : U * V + Rf = Rf * (1 + Ri * U * V) := by
    rw [Matrix.mul_add, Matrix.mul_one, ← Matrix.mul_assoc, ← Matrix.mul_assoc, hR,
      Matrix.one_mul, add_comm]
  have hdet : (U * V + Rf).det = Rf.det * (1 + V * Ri * U).det := by
    rw [hfact, Matrix.det_mul, Matrix.det_one_add_mul_comm, ← Matrix.mul_assoc]
  refine ⟨hdet, ?_⟩
  have hW : (1 + V * Ri * U).det ≠ 0 := by
    intro h0
    rw [hdet, h0, mul_zero] at hS
    exact hS rfl
  have hWinv : (1 + V * Ri * U) * (1 + V * Ri * U)⁻¹ = 1 :=
    Matrix.mul_nonsing_inv _ (isUnit_iff_ne_zero.2 hW)
  apply Matrix.inv_eq_right_inv
  have h1 : (U * V + Rf) * Ri = U * (V * Ri) + 1 := by
    rw [Matrix.add_mul, hR, Matrix.mul_assoc]
  have h2 : (U * (V * Ri) + 1) * (U * (1 + V * Ri * U)⁻¹ * (V * Ri)) = U * (V * Ri) := by
    have h3 : (U * (V * Ri) + 1) * U = U * (1 + V * Ri * U) := by
      simp only [Matrix.add_mul, Matrix.one_mul, Matrix.mul_add, Matrix.mul_one,
        Matrix.mul_assoc]
      rw [add_comm]
    calc (U * (V * Ri) + 1) * (U * (1 + V * Ri * U)⁻¹ * (V * Ri))
        = ((U * (V * Ri) + 1) * U) * (1 + V * Ri * U)⁻¹ * (V * Ri) := by
          simp only [Matrix.mul_assoc]
      _ = U * ((1 + V * Ri * U) * (1 + V * Ri * U)⁻¹) * (V * Ri) := by
          rw [h3]
          simp only [Matrix.mul_assoc]
      _ = U * (V * Ri) := by rw [hWinv, Matrix.mul_one]
  rw [← Matrix.mul_assoc, h1, Matrix.mul_sub, Matrix.mul_one, h2]
  abel

/-- The block "Evaluate inv(R)": `inv_R` holds the inverses of the diagonal blocks. -/
theorem UVR_inv_R_apply (uninit : ℝ) {n bs c : Nat} (Rm : Matrix (Fin bs) (Fin c) ℝ)
    (hR : c = bs ∨ bs * (n / bs) ≤ c) (i : Fin (n / bs)) (a b : Fin bs) :
    (UVR_inv_R uninit Rm hR : Matrix (Fin bs) (Fin n) ℝ) a (block_index i b)
      = (R_diagonal_block Rm hR i)⁻¹ a b := by
  by_cases hsingle : c = bs
  · simp only [UVR_inv_R, R_diagonal_block, dif_pos hsingle]
    rw [foldl_inv_R (fun _ => inverse (square Rm hsingle)), inverse_eq_inv]
  · simp only [UVR_inv_R, R_diagonal_block, dif_neg hsingle]
    rw [foldl_inv_R (fun i => inverse (R_block Rm (hR.resolve_left hsingle) i)),
      inverse_eq_inv]

/-- The variable `det_R` is the product of the determinants of the diagonal blocks. -/
theorem UVR_det_R_eq {bs c nb : Nat} (Rm : Matrix (Fin bs) (Fin c) ℝ)
    (hR : c = bs ∨ bs * nb ≤ c) :
    UVR_det_R nb Rm hR = ∏ i : Fin nb, (R_diagonal_block Rm hR i).det := by
  by_cases hsingle : c = bs
  · simp only [UVR_det_R, R_diagonal_block, dif_pos hsingle, Finset.prod_const,
      Finset.card_univ, Fintype.card_fin]
  · simp only [UVR_det_R, R_diagonal_block, dif_neg hsingle]
    exact foldl_det _

/-- C34: let `R` be given as one `M x M` block or as the concatenation of `M x M` blocks
(`M >= 1`), let the input size be `N * M`, let the block-diagonal matrix of these blocks be
invertible and let `S = U * V + R` have a non-zero determinant (as a valid covariance, which
is positive definite, has).  Then `multivariate_gaussian_log_density_UVR(input, mean, U, V,
R)` returns, and its value is that of `multivariate_gaussian_log_density(input, mean, S)`,
for every column of the input and whatever the uninitialised memory holds. -/
theorem UVR_eq_log_density {n cols k M c : Nat} (N : Nat) (hM : 0 < M) (hn : n = N * M)
    (uninit : ℝ) (input : Matrix (Fin n) (Fin cols) ℝ) (mean : Fin n → ℝ)
    (U : Matrix (Fin n) (Fin k) ℝ) (V : Matrix (Fin k) (Fin n) ℝ)
    (Rm : Matrix (Fin M) (Fin c) ℝ) (hR : c = M ∨ M * (n / M) ≤ c)
    (hRdet : (block_diagonal hM (R_diagonal_block Rm hR) : Matrix (Fin n) (Fin n) ℝ).det ≠ 0)
    (hS : (U * V + block_diagonal hM (R_diagonal_block Rm hR)).det ≠ 0) :
    multivariate_gaussian_log_density_UVR Real.log Real.pi uninit input mean U V Rm
      = some (multivariate_gaussian_log_density Real.log Real.pi input mean
          (U * V + block_diagonal hM (R_diagonal_block Rm hR))) := by
  have hdiv : M * (n / M) = n := by
    rw [hn, Nat.mul_div_cancel _ hM, Nat.mul_comm]
  have hprod := det_block_diagonal hM hdiv (R_diagonal_block Rm hR)
  have hBdet : ∀ i, (R_diagonal_block Rm hR i).det ≠ 0 := by
    intro i
    rw [hprod] at hRdet
    exact (Finset.prod_ne_zero_iff.1 hRdet) i (Finset.mem_univ i)
  have hRR : (block_diagonal hM (R_diagonal_block Rm hR) : Matrix (Fin n) (Fin n) ℝ)
      * block_diagonal hM (fun i => (R_diagonal_block Rm hR i)⁻¹) = 1 := by
    rw [block_diagonal_mul hM hdiv]
    have : (fun i => R_diagonal_block Rm hR i * (R_diagonal_block Rm hR i)⁻¹)
        = fun _ : Fin (n / M) => (1 : Matrix (Fin M) (Fin M) ℝ) := by
      funext i
      exact Matrix.mul_nonsing_inv _ (isUnit_iff_ne_zero.2 (hBdet i))
    rw [this, block_diagonal_one hM hdiv]
  obtain ⟨hdet, hinv⟩ := woodbury _ _ U V hRR hS
  have hV := foldl_blockwise_product hM hdiv V (UVR_inv_R uninit Rm hR)
    (fun i => (R_diagonal_block Rm hR i)⁻¹) (UVR_inv_R_apply uninit Rm hR) (fun _ _ => uninit)
  have hD := foldl_blockwise_product hM hdiv
    (Matrix.transpose (fun a i => input a i - mean a)) (UVR_inv_R uninit Rm hR)
    (fun i => (R_diagonal_block Rm hR i)⁻¹) (UVR_inv_R_apply uninit Rm hR) (fun _ _ => uninit)
  have hT : ∀ i : Fin (n / M),
      (middleRows (fun a i => input a i - mean a) i : Matrix (Fin M) (Fin cols) ℝ).transpose
        = middleCols (Matrix.transpose (fun a i => input a i - mean a)) i := fun _ => rfl
  simp only [multivariate_gaussian_log_density_UVR, if_neg (Nat.pos_iff_ne_zero.1 hM),
    dif_pos hR, multivariate_gaussian_log_density, Option.some.injEq, hT]
  rw [hV, hD]
  funext i
  rw [UVR_det_R_eq, ← hprod, ← hdet, inverse_eq_inv, inverse_eq_inv, hinv,
    ← Matrix.vecMul_vecMul]
  rfl

/-- Two blocks of size 1, `R = [1 2]` (the concatenation of the blocks), `U = [1; 0]`,
`V = [1 0]`, so that `S = [2 0; 0 2]`, with the input column `(3, 5)` and the mean
`(1, 1)`. -/
theorem UVR_eq_log_density_witness :
    multivariate_gaussian_log_density_UVR Real.log Real.pi 0
        (!![3; 5] : Matrix (Fin 2) (Fin 1) ℝ) ![1, 1]
        (!![1; 0] : Matrix (Fin 2) (Fin 1) ℝ) (!![1, 0] : Matrix (Fin 1) (Fin 2) ℝ)
        (!![1, 2] : Matrix (Fin 1) (Fin 2) ℝ)
      = some (multivariate_gaussian_log_density Real.log Real.pi
          (!![3; 5] : Matrix (Fin 2) (Fin 1) ℝ) ![1, 1]
          ((!![1; 0] : Matrix (Fin 2) (Fin 1) ℝ) * (!![1, 0] : Matrix (Fin 1) (Fin 2) ℝ)
            + block_diagonal Nat.one_pos
                (R_diagonal_block (!![1, 2] : Matrix (Fin 1) (Fin 2) ℝ)
                  (Or.inr (by decide))))) := by
  have hB : (block_diagonal Nat.one_pos
      (R_diagonal_block (!![1, 2] : Matrix (Fin 1) (Fin 2) ℝ)
        (Or.inr (by decide : 1 * (2 / 1) ≤ 2))) : Matrix (Fin 2) (Fin 2) ℝ)
      = !![1, 0; 0, 2] := by
    ext a b
    fin_cases a <;> fin_cases b <;>
      simp [block_diagonal, R_diagonal_block, R_block]
  refine UVR_eq_log_density 2 Nat.one_pos rfl 0 _ _ _ _ _ (Or.inr (by decide)) ?_ ?_
  · rw [hB, Matrix.det_fin_two]
    simp
  · rw [hB, Matrix.det_fin_two]
    simp [Matrix.mul_apply]

end utils

end bfl
